import Mathlib

/-!
# identity_op_clean_pass

A shallow embedding of `paddle/fluid/framework/ir/identity_op_clean_pass.cc`:
the pattern `FindUselessOpPattern` (its three pattern nodes and their
predicates), the rewrite handler of `IdentityOpCleanPass::ApplyImpl`, and the
graph primitives and the pattern detector the pass calls.

`Node*` pointers are node identifiers resolved in the graph that owns the
nodes.  A `CHECK_EQ` that fails and the errors of the graph primitives are
results of type `Err`.  The use of a `Node*` whose node the graph has removed
is undefined behaviour in the source (the node is freed); a run that reaches
such a use has no result here, which is marked by `Err.staleNode`: nothing is
stated about what the source does from there on.
-/

namespace IdentityOpClean

/-! ## Data model -/

abbrev NodeId := Nat

/-- Runs without a result: a failed `CHECK_EQ`, a subscript past the end of a
name sequence, the two errors of the graph primitives, and `staleNode`, the
mark of a run that uses a `Node*` whose node the graph has removed (undefined
behaviour in the source). -/
inductive Err where
  | checkFailed
  | staleNode
  | outOfRange
  | unknownSlot
  | danglingEdge
  deriving DecidableEq, Repr

deriving instance DecidableEq for Except

/-- The part of `VarDesc` the pass reads: `Name()` and `Persistable()`. -/
structure VarDesc where
  name : String
  persistable : Bool
  deriving DecidableEq, Repr

/-- The part of `OpDesc` the pass reads and writes: `Type()`, the named input
and output slots with their sequences of variable names, and the attributes
read by `GetAttrIfExists<float>` (`fattrs`, binary32 bit patterns) and by
`GetAttrIfExists<int>` (`iattrs`). -/
structure OpDesc where
  type : String
  inputs : List (String × List String)
  outputs : List (String × List String)
  fattrs : List (String × Nat)
  iattrs : List (String × Int)
  deriving DecidableEq, Repr

/-- A node is an operation (`IsOp()`, with `Op()`) or a variable (`IsVar()`,
with `Var()`). -/
inductive NodeDesc where
  | op (d : OpDesc)
  | var (d : VarDesc)
  deriving DecidableEq, Repr

/-- An `ir::Node`: `inputs` and `outputs` are the adjacent nodes.  For a
variable, `inputs` are its producers and `outputs` its consumers. -/
structure Node where
  id : NodeId
  inputs : List NodeId
  outputs : List NodeId
  desc : NodeDesc
  deriving DecidableEq, Repr

/-- An `ir::Graph`: the nodes it owns, in iteration order. -/
structure Graph where
  nodes : List Node
  deriving DecidableEq, Repr

def Node.IsOp (x : Node) : Bool :=
  match x.desc with
  | .op _ => true
  | .var _ => false

def Node.IsVar (x : Node) : Bool :=
  match x.desc with
  | .op _ => false
  | .var _ => true

def Graph.find (g : Graph) (id : NodeId) : Option Node :=
  g.nodes.find? (fun n => n.id == id)

/-- Dereference of a `Node*`.  For a node the graph has removed the source
reads freed memory; the run has no result here (`staleNode`). -/
def Graph.deref (g : Graph) (id : NodeId) : Except Err Node :=
  match g.find id with
  | some n => .ok n
  | none => .error .staleNode

def Graph.update (g : Graph) (id : NodeId) (f : Node → Node) : Graph :=
  ⟨g.nodes.map (fun n => if n.id = id then f n else n)⟩

def Graph.ids (g : Graph) : List NodeId := g.nodes.map Node.id

/-! ## Attribute and slot access of `OpDesc` -/

def lookup {α : Type} (k : String) : List (String × α) → Option α
  | [] => none
  | (k', v) :: rest => if k' = k then some v else lookup k rest

/-- Modelled from the spec: `GetAttrIfExists<float>` is declared outside this
file; an absent attribute reads as the default value `0.0f` (bit pattern 0). -/
def OpDesc.GetAttrIfExists_float (d : OpDesc) (name : String) : Nat :=
  (lookup name d.fattrs).getD 0

/-- Modelled from the spec: `GetAttrIfExists<int>` is declared outside this
file; an absent attribute reads as the default value `0`. -/
def OpDesc.GetAttrIfExists_int (d : OpDesc) (name : String) : Int :=
  (lookup name d.iattrs).getD 0

/-- Modelled from the spec: `OpDesc::Input` is declared outside this file; the
ordered sequence of variable names held by an input slot (§3), empty for a slot
the operation does not have. -/
def OpDesc.Input (d : OpDesc) (slot : String) : List String :=
  (lookup slot d.inputs).getD []

/-- Modelled from the spec: `OpDesc::Output` is declared outside this file; the
ordered sequence of variable names held by an output slot (§3). -/
def OpDesc.Output (d : OpDesc) (slot : String) : List String :=
  (lookup slot d.outputs).getD []

/-- The subscript `[0]` of a name sequence. -/
def first (names : List String) : Except Err String :=
  match names with
  | [] => .error .outOfRange
  | n :: _ => .ok n

/-- Whether a binary32 bit pattern is a NaN. -/
def f32_isNaN (b : Nat) : Bool :=
  (b / 2 ^ 23) % 256 == 255 && b % 2 ^ 23 != 0

/-- The `==` of two `float` values given by their binary32 bit patterns: a NaN
equals nothing, and the two zeros are equal. -/
def f32_eq (a b : Nat) : Bool :=
  !f32_isNaN a && !f32_isNaN b && (a == b || (a % 2 ^ 31 == 0 && b % 2 ^ 31 == 0))

/-- The bit pattern of `0.f`. -/
def f32_zero : Nat := 0
/-- The bit pattern of `1.f`. -/
def f32_one : Nat := 0x3F800000
/-- The bit pattern of `2.f`. -/
def f32_two : Nat := 0x40000000

/-! ## `FindUselessOpPattern`: the predicates of the three pattern nodes -/

/-- The `assert_more` lambda of `useless_op_in`, as a loop over `x->inputs`. -/
def useless_op_in_more_loop (g : Graph) : List NodeId → Except Err Bool
  | [] => .ok true
  | i :: rest =>
    match g.deref i with
    | .error e => .error e
    | .ok op =>
      match op.desc with
      | .var _ => .error .checkFailed
      | .op d =>
        if d.type = "conditional_block" ∨ d.type = "while" ∨ d.type = "feed" then .ok false
        else useless_op_in_more_loop g rest

def useless_op_in_more (g : Graph) (x : Node) : Except Err Bool :=
  useless_op_in_more_loop g x.inputs

/-- Modelled from the spec: `PDNode::assert_is_var` is declared outside this
file; the candidate is a node of the Variable tag (§4.3). -/
def assert_is_var (x : Node) : Bool := x.IsVar

/-- Modelled from the spec: `PDNode::assert_is_op` is declared outside this
file; the candidate is a node of the Operation tag (§4.3). -/
def assert_is_op (x : Node) : Bool := x.IsOp

/-- Modelled from the spec: `PDNode::assert_var_not_persistable` is declared
outside this file; §4.2 "is not a persistent value": a variable whose
persistence flag is not set. -/
def assert_var_not_persistable (x : Node) : Bool :=
  match x.desc with
  | .op _ => false
  | .var v => !v.persistable

/-- Modelled from the spec: `PDNode::assert_has_n_inputs` is declared outside
this file; §4.2 "has exactly N inputs". -/
def assert_has_n_inputs (n : Nat) (x : Node) : Bool := x.inputs.length == n

/-- Modelled from the spec: `PDNode::assert_has_n_outputs` is declared outside
this file; §4.2 "has exactly N outputs". -/
def assert_has_n_outputs (n : Nat) (x : Node) : Bool := x.outputs.length == n

/-- The predicates of `useless_op_in`, asked in the order they are declared:
`assert_is_var`, `assert_var_not_persistable`, `assert_has_n_outputs(1)`,
`assert_more`; the first that fails rejects the candidate. -/
def useless_op_in_teller (g : Graph) (x : Node) : Except Err Bool :=
  if !assert_is_var x then .ok false
  else if !assert_var_not_persistable x then .ok false
  else if !assert_has_n_outputs 1 x then .ok false
  else useless_op_in_more g x

/-- The `assert_more` lambda of `useless_op`, on the `OpDesc` of the node. -/
def useless_op_more_desc (d : OpDesc) : Except Err Bool :=
  if d.type = "scale" then
    let scale := d.GetAttrIfExists_float "scale"
    let bias := d.GetAttrIfExists_float "bias"
    .ok (f32_eq bias f32_zero && f32_eq scale f32_one)
  else if d.type = "cast" then
    let in_dtype := d.GetAttrIfExists_int "in_dtype"
    let out_dtype := d.GetAttrIfExists_int "out_dtype"
    .ok (decide (in_dtype = out_dtype))
  else if d.type = "c_identity" then
    .ok true
  else if d.type = "assign" then
    match first (d.Input "X") with
    | .error e => .error e
    | .ok in_name =>
      match first (d.Output "Out") with
      | .error e => .error e
      | .ok out_name => .ok (decide (in_name = out_name))
  else if d.type = "concat" then
    .ok (decide ((d.Input "X").length = 1))
  else
    .ok false

/-- The `assert_more` lambda of `useless_op` on a node; `x->Op()` of a node
that is not an operation is a failed check. -/
def useless_op_more (x : Node) : Except Err Bool :=
  match x.desc with
  | .var _ => .error .checkFailed
  | .op d => useless_op_more_desc d

/-- The predicates of `useless_op`, asked in the order they are declared:
`assert_is_op`, `assert_has_n_inputs(1)`, `assert_has_n_outputs(1)`,
`assert_more`; the first that fails rejects the candidate. -/
def useless_op_teller (x : Node) : Except Err Bool :=
  if !assert_is_op x then .ok false
  else if !assert_has_n_inputs 1 x then .ok false
  else if !assert_has_n_outputs 1 x then .ok false
  else useless_op_more x

/-- The predicate of `useless_op_out`: `assert_is_var`. -/
def useless_op_out_teller (x : Node) : Bool := assert_is_var x

/-! ## The pattern detector -/

/-- A match: the graph nodes bound to the three pattern nodes. -/
structure Match where
  useless_op_in : NodeId
  useless_op : NodeId
  useless_op_out : NodeId
  deriving DecidableEq, Repr

/-- Modelled from the spec: part of the detector, see `detect`.  The bindings of
`useless_op_out` for a bound `useless_op_in` and `useless_op`: the candidates
are the outputs of the operation, a node already used is excluded. -/
def bind_out (g : Graph) (vin op : NodeId) : List NodeId → Except Err (List Match)
  | [] => .ok []
  | o :: rest =>
    match g.deref o with
    | .error e => .error e
    | .ok vout =>
      match bind_out g vin op rest with
      | .error e => .error e
      | .ok ms =>
        if useless_op_out_teller vout && o != vin && o != op then .ok (⟨vin, op, o⟩ :: ms)
        else .ok ms

/-- Modelled from the spec: part of the detector, see `detect`.  The bindings of
`useless_op` and `useless_op_out` for a bound `useless_op_in`: the candidates
are the outputs of the variable. -/
def bind_op (g : Graph) (vin : NodeId) : List NodeId → Except Err (List Match)
  | [] => .ok []
  | o :: rest =>
    match g.deref o with
    | .error e => .error e
    | .ok op =>
      match useless_op_teller op with
      | .error e => .error e
      | .ok false => bind_op g vin rest
      | .ok true =>
        if o = vin then bind_op g vin rest
        else
          match bind_out g vin o op.outputs with
          | .error e => .error e
          | .ok here =>
            match bind_op g vin rest with
            | .error e => .error e
            | .ok ms => .ok (here ++ ms)

/-- Modelled from the spec: part of the detector, see `detect`.  The matches
that bind `useless_op_in` to the node `x`. -/
def matchesAt (g : Graph) (x : Node) : Except Err (List Match) :=
  match useless_op_in_teller g x with
  | .error e => .error e
  | .ok false => .ok []
  | .ok true => bind_op g x.id x.outputs

/-- Modelled from the spec: part of the detector, see `detect`.  The matches
that bind `useless_op_in` to a node of the list, in list order. -/
def detectFrom (g : Graph) : List Node → Except Err (List Match)
  | [] => .ok []
  | x :: rest =>
    match matchesAt g x with
    | .error e => .error e
    | .ok here =>
      match detectFrom g rest with
      | .error e => .error e
      | .ok ms => .ok (here ++ ms)

/-- Modelled from the spec: `GraphPatternDetector` is declared outside this
file.  §4.3: a backtracking search that binds one pattern node at a time,
producers before consumers (`useless_op_in`, `useless_op`, `useless_op_out`);
the candidates of the first pattern node are the nodes of the graph, those of a
pattern node linked to a bound one are the exact output list of the bound node;
candidates are filtered by the predicates; a node already used in the
assignment is excluded; every full assignment is emitted, and matches of
different branches may share nodes. -/
def detect (g : Graph) : Except Err (List Match) := detectFrom g g.nodes

/-! ## Graph primitives -/

/-- Modelled from the spec: part of `OpDesc.RenameOutput`; the name sequence of
one slot with the old name replaced. -/
def renameIn (old new : String) (names : List String) : List String :=
  names.map (fun n => if n = old then new else n)

/-- Modelled from the spec: `OpDesc::RenameOutput` is declared outside this
file.  §4.1 `relinkOutput`: rewrites the output-slot references of one
operation from one variable name to another; fails with `UnknownSlotError` if
the old name is not among the recorded outputs. -/
def OpDesc.RenameOutput (d : OpDesc) (old new : String) : Except Err OpDesc :=
  if d.outputs.any (fun s => s.2.contains old) then
    .ok { d with outputs := d.outputs.map (fun s => (s.1, renameIn old new s.2)) }
  else .error .unknownSlot

/-- Modelled from the spec: part of `IR_NODE_LINK_TO`; the adjacency list with
the node appended unless it is there already. -/
def addIfAbsent (i : NodeId) (l : List NodeId) : List NodeId :=
  if i ∈ l then l else l ++ [i]

/-- Modelled from the spec: the macro `IR_NODE_LINK_TO(a, b)` is declared
outside this file.  §4.1 `addConsumerEdge`: records the edge from `a` to `b` on
both sides; adding an edge that is already present is a no-op. -/
def IR_NODE_LINK_TO (g : Graph) (a b : NodeId) : Graph :=
  (g.update a (fun n => { n with outputs := addIfAbsent b n.outputs })).update b
    (fun n => { n with inputs := addIfAbsent a n.inputs })

/-- Modelled from the spec: part of `GraphSafeRemoveNodes`; the node with its
edges to the removed nodes detached. -/
def detach (rm : List NodeId) (n : Node) : Node :=
  { n with inputs := n.inputs.filter (fun i => !rm.contains i),
           outputs := n.outputs.filter (fun i => !rm.contains i) }

/-- Modelled from the spec: part of `GraphSafeRemoveNodes`; whether the node
still has an edge to a removed node. -/
def references (rm : List NodeId) (n : Node) : Bool :=
  n.inputs.any (fun i => rm.contains i) || n.outputs.any (fun i => rm.contains i)

/-- Modelled from the spec: part of `GraphSafeRemoveNodes`; the graph without
the nodes `rm`, every edge touching them detached. -/
def removeNodes (g : Graph) (rm : List NodeId) : Graph :=
  ⟨(g.nodes.filter (fun n => !rm.contains n.id)).map (detach rm)⟩

/-- Modelled from the spec: `GraphSafeRemoveNodes` is declared outside this
file.  §4.1 `removeNodes`: detaches all edges touching the removed nodes and
evicts them; fails with `DanglingEdgeError` if a surviving node still
references a removed node.  The handler clears no edge before the call, so the
edges held by the surviving neighbours are detached here and the error is
raised for a reference that is left after that. -/
def GraphSafeRemoveNodes (g : Graph) (rm : List NodeId) : Except Err Graph :=
  let g' := removeNodes g rm
  if g'.nodes.any (references rm) then .error .danglingEdge else .ok g'

/-! ## `IdentityOpCleanPass::ApplyImpl` -/

/-- The loop `for (auto* prev_op : useless_op_in->inputs)` of the handler. -/
def relinkProducers (g : Graph) (in_name out_name : String) (out : NodeId) :
    List NodeId → Except Err Graph
  | [] => .ok g
  | p :: rest =>
    match g.deref p with
    | .error e => .error e
    | .ok prev_op =>
      match prev_op.desc with
      | .var _ => .error .checkFailed
      | .op d =>
        match d.RenameOutput in_name out_name with
        | .error e => .error e
        | .ok d' =>
          relinkProducers
            (IR_NODE_LINK_TO (g.update p (fun n => { n with desc := .op d' })) p out)
            in_name out_name out rest

/-- The handler lambda of `ApplyImpl`, with `found_count` passed through. -/
def handler (g : Graph) (m : Match) (found_count : Nat) : Except Err (Graph × Nat) :=
  match g.deref m.useless_op_in, g.deref m.useless_op, g.deref m.useless_op_out with
  | .ok vin, .ok op, .ok vout =>
    match vin.desc, vout.desc, op.desc with
    | .var din, .var dout, .op _ =>
      match relinkProducers g din.name dout.name m.useless_op_out vin.inputs with
      | .error e => .error e
      | .ok g1 =>
        match GraphSafeRemoveNodes g1 [m.useless_op_in, m.useless_op] with
        | .error e => .error e
        | .ok g2 => .ok (g2, found_count + 1)
    | _, _, _ => .error .checkFailed
  | _, _, _ => .error .staleNode

/-- Modelled from the spec: `GraphPatternDetector::operator()` is declared
outside this file.  The call `gpd(graph, handler)` once the matches are found:
the handler is applied to every match in list order (§4.5). -/
def applyMatches (g : Graph) (found_count : Nat) : List Match → Except Err (Graph × Nat)
  | [] => .ok (g, found_count)
  | m :: rest =>
    match handler g m found_count with
    | .error e => .error e
    | .ok (g', c) => applyMatches g' c rest

/-- `IdentityOpCleanPass::ApplyImpl`: the matches are found on the graph as it
is before the first rewrite, then handled; the result is the graph after the
pass and the `found_count` given to `AddStatis`. -/
def ApplyImpl (g : Graph) : Except Err (Graph × Nat) :=
  match detect g with
  | .error e => .error e
  | .ok ms => applyMatches g 0 ms

/-- A binding of the three pattern nodes that satisfies every predicate and
both declared edges. -/
def IsMatch (g : Graph) (m : Match) : Prop :=
  ∃ vin op vout, vin ∈ g.nodes ∧ vin.id = m.useless_op_in ∧
    useless_op_in_teller g vin = .ok true ∧
    m.useless_op ∈ vin.outputs ∧ g.find m.useless_op = some op ∧
    useless_op_teller op = .ok true ∧
    m.useless_op_out ∈ op.outputs ∧ g.find m.useless_op_out = some vout ∧
    vout.IsVar = true ∧
    m.useless_op_out ≠ m.useless_op_in ∧ m.useless_op_out ≠ m.useless_op ∧
    m.useless_op ≠ m.useless_op_in

/-- The output slots of an operation after `RenameOutput`. -/
def renamedOutputs (d : OpDesc) (old new : String) : OpDesc :=
  { d with outputs := d.outputs.map (fun s => (s.1, renameIn old new s.2)) }

/-- Whether an output slot of the operation holds the name. -/
def holdsOutput (d : OpDesc) (name : String) : Bool :=
  d.outputs.any (fun s => s.2.contains name)

/-- The producer `p` after the handler has relinked it to `out`. -/
def relinked (P : Node) (d : OpDesc) (in_name out_name : String) (out : NodeId) : Node :=
  { P with desc := .op (renamedOutputs d in_name out_name), outputs := addIfAbsent out P.outputs }

/-- The producer list of `out` after the producers `ps` are linked to it. -/
def addProducers (ps : List NodeId) (inputs : List NodeId) : List NodeId :=
  ps.foldl (fun acc p => addIfAbsent p acc) inputs

/-- Whether the kind is one the predicate of `useless_op_in` rejects as a
producer. -/
def isControlFlowOrFeed (type : String) : Bool :=
  type = "conditional_block" ∨ type = "while" ∨ type = "feed"

def mkOp (id : NodeId) (type : String) (inputs outputs : List NodeId)
    (islots oslots : List (String × List String)) (fattrs : List (String × Nat))
    (iattrs : List (String × Int)) : Node :=
  ⟨id, inputs, outputs, .op ⟨type, islots, oslots, fattrs, iattrs⟩⟩

def mkVar (id : NodeId) (name : String) (persistable : Bool) (inputs outputs : List NodeId) :
    Node :=
  ⟨id, inputs, outputs, .var ⟨name, persistable⟩⟩

def scaleOp (id : NodeId) (x out : NodeId) (xname outname : String) : Node :=
  mkOp id "scale" [x] [out] [("X", [xname])] [("Out", [outname])]
    [("scale", f32_one), ("bias", f32_zero)] []

/-- The graph `relu -> v1 -> scale(1, 0) -> v2`. -/
def chainScale : Graph := ⟨[
  mkOp 0 "relu" [] [1] [] [("Out", ["v1"])] [] [],
  mkVar 1 "v1" false [0] [2],
  scaleOp 2 1 3 "v1" "v2",
  mkVar 3 "v2" false [2] []]⟩

/-- The graph `feed -> v1 -> scale(1, 0) -> v2`. -/
def chainFeed : Graph := ⟨[
  mkOp 0 "feed" [] [1] [] [("Out", ["v1"])] [] [],
  mkVar 1 "v1" false [0] [2],
  scaleOp 2 1 3 "v1" "v2",
  mkVar 3 "v2" false [2] []]⟩

/-- The graph `relu -> v1 -> scale(1, 0) -> v2 -> scale(1, 0) -> v3`. -/
def chainTwoScales : Graph := ⟨[
  mkOp 0 "relu" [] [1] [] [("Out", ["v1"])] [] [],
  mkVar 1 "v1" false [0] [2],
  scaleOp 2 1 3 "v1" "v2",
  mkVar 3 "v2" false [2] [4],
  scaleOp 4 3 5 "v2" "v3",
  mkVar 5 "v3" false [4] []]⟩

/-- The graph `chainTwoScales` after the handler has run on the match of the
second scale operation `(v2, scale, v3)`. -/
def chainTwoScalesSecondDone : Graph := ⟨[
  mkOp 0 "relu" [] [1] [] [("Out", ["v1"])] [] [],
  mkVar 1 "v1" false [0] [2],
  scaleOp 2 1 5 "v1" "v3",
  mkVar 5 "v3" false [2] []]⟩

/-- The graph `chainTwoScales` after the handler has run on the match of the
first scale operation `(v1, scale, v2)`. -/
def chainTwoScalesFirstDone : Graph := ⟨[
  mkOp 0 "relu" [] [3] [] [("Out", ["v2"])] [] [],
  mkVar 3 "v2" false [0] [4],
  scaleOp 4 3 5 "v2" "v3",
  mkVar 5 "v3" false [4] []]⟩

/-- The graph `relu -> v1 -> scale(1, 0) -> v2` in which `v1` is also consumed
by a second operation `relu -> v3`. -/
def chainFanOut : Graph := ⟨[
  mkOp 0 "relu" [] [1] [] [("Out", ["v1"])] [] [],
  mkVar 1 "v1" false [0] [2, 4],
  scaleOp 2 1 3 "v1" "v2",
  mkVar 3 "v2" false [2] [],
  mkOp 4 "relu" [1] [5] [("X", ["v1"])] [("Out", ["v3"])] [] [],
  mkVar 5 "v3" false [4] []]⟩

/-- A scale operation with `scale = 2.0`, between `v1` and `v2`. -/
def scaleByTwo : Node :=
  mkOp 2 "scale" [1] [3] [("X", ["v1"])] [("Out", ["v2"])]
    [("scale", f32_two), ("bias", f32_zero)] []

/-- Every edge of the graph ends at a node of the graph of the other variant:
the neighbours of a variable are operations and those of an operation are
variables. -/
def Graph.bipartite (g : Graph) : Bool :=
  g.nodes.all (fun x => (x.inputs ++ x.outputs).all (fun i =>
    match g.find i with
    | some y => y.IsOp == x.IsVar
    | none => false))

/-- Every edge is recorded on both sides: `y` is an output of `x` exactly when
`x` is an input of `y`. -/
def Graph.symmetric (g : Graph) : Bool :=
  g.nodes.all (fun x => g.nodes.all (fun y =>
    decide (y.id ∈ x.outputs) == decide (x.id ∈ y.inputs)))

/-- The kinds the `assert_more` predicate of `useless_op` recognises. -/
def identityLikeKinds : List String := ["scale", "cast", "c_identity", "assign", "concat"]

/-- The graph `relu -> v1 -> relu -> v2`. -/
def chainNoIdentity : Graph := ⟨[
  mkOp 0 "relu" [] [1] [] [("Out", ["v1"])] [] [],
  mkVar 1 "v1" false [0] [2],
  mkOp 2 "relu" [1] [3] [("X", ["v1"])] [("Out", ["v2"])] [] [],
  mkVar 3 "v2" false [2] []]⟩

/-- The graph in which two operations emit into `v1`, ahead of
`v1 -> cast(in_dtype = out_dtype) -> v2`. -/
def twoProducers : Graph := ⟨[
  mkOp 0 "relu" [] [2] [] [("Out", ["v1"])] [] [],
  mkOp 1 "tanh" [] [2] [] [("Out", ["v1"])] [] [],
  mkVar 2 "v1" false [0, 1] [3],
  mkOp 3 "cast" [2] [4] [("X", ["v1"])] [("Out", ["v2"])] [] [("in_dtype", 5), ("out_dtype", 5)],
  mkVar 4 "v2" false [3] []]⟩

/-- The node `n'` is the node `n` with edges added, and with the same
description when `n` is a variable. -/
def Node.grownTo (n n' : Node) : Prop :=
  n'.id = n.id ∧ n.inputs ⊆ n'.inputs ∧ n.outputs ⊆ n'.outputs ∧ n'.IsVar = n.IsVar ∧
    (n.IsVar = true → n'.desc = n.desc)

/-- The graph `w -> scale(1, 0) -> v2` whose input `w` is a persistent
variable. -/
def chainPersistent : Graph := ⟨[
  mkVar 1 "w" true [] [2],
  scaleOp 2 1 3 "w" "v2",
  mkVar 3 "v2" false [2] []]⟩

/-- Whether `g'` is the graph `g` rewritten at the match `m`: `useless_op_in`
and `useless_op` are in `g` and no longer in `g'`, and every producer of
`useless_op_in` that is left has `useless_op_out` among its outputs. -/
def rewrote (g : Graph) (m : Match) (g' : Graph) : Bool :=
  (g.find m.useless_op).isSome && (g'.find m.useless_op_in).isNone &&
  (g'.find m.useless_op).isNone &&
  match g.find m.useless_op_in with
  | none => false
  | some vin => vin.inputs.all (fun p =>
      p == m.useless_op_in || p == m.useless_op ||
      match g'.find p with
      | none => false
      | some P' => decide (m.useless_op_out ∈ P'.outputs))

/-- The number of matches of the list, handled in list order, at which the
handler performed the rewrite. -/
def countRewrites (g : Graph) : List Match → Nat
  | [] => 0
  | m :: rest =>
    match handler g m 0 with
    | .error _ => 0
    | .ok (g', _) => (if rewrote g m g' then 1 else 0) + countRewrites g' rest

/-- An assign operation whose input and output have the same name. -/
def assignSame : Node :=
  mkOp 2 "assign" [1] [3] [("X", ["v"])] [("Out", ["v"])] [] []

/-- The graph `v1 -> scale(1, 0) -> v2` whose input `v1` has no producer. -/
def chainSource : Graph := ⟨[
  mkVar 1 "v1" false [] [2],
  scaleOp 2 1 3 "v1" "v2",
  mkVar 3 "v2" false [2] []]⟩

/-- Modelled from the spec: `paddle::span` is declared in
`paddle/utils/span.h`, outside the source files at hand; `span_test.cc` names
it an implementation of C++20's `std::span`, and its tests read `data()`,
`size()`, `begin()` and `end()`.  A span is a view of `size` elements from the address `data`
(addresses count elements); `extent` is the static extent of the type, `none`
for `dynamic_extent`. -/
structure Span where
  data : Nat
  size : Nat
  extent : Option Nat
  deriving DecidableEq, Repr

/-- Modelled from the spec: `dynamic_extent`, the largest `std::size_t`. -/
def dynamic_extent : Nat := 2 ^ 64 - 1

/-- Modelled from the spec: `span::begin()`, the address of the first
element. -/
def Span.begin_ (s : Span) : Nat := s.data

/-- Modelled from the spec: `span::end()`, the address one past the last
element. -/
def Span.end_ (s : Span) : Nat := s.data + s.size

/-- Modelled from the spec: `span::operator[]`, the element at `data() + idx`
of the memory. -/
def Span.get {α : Type} (mem : Nat → α) (s : Span) (idx : Nat) : α := mem (s.data + idx)

/-- Modelled from the spec: `span::first(count)`; a view of the first `count`
elements, of dynamic extent.  `none` where the precondition `count <= size()`
does not hold. -/
def Span.first (s : Span) (count : Nat) : Option Span :=
  if count ≤ s.size then some ⟨s.data, count, none⟩ else none

/-- Modelled from the spec: `span::first<Count>()`; the same view, of static
extent `Count`. -/
def Span.first_static (s : Span) (count : Nat) : Option Span :=
  if count ≤ s.size then some ⟨s.data, count, some count⟩ else none

/-- Modelled from the spec: `span::last(count)`; a view of the last `count`
elements, of dynamic extent. -/
def Span.last (s : Span) (count : Nat) : Option Span :=
  if count ≤ s.size then some ⟨s.data + (s.size - count), count, none⟩ else none

/-- Modelled from the spec: `span::last<Count>()`; the same view, of static
extent `Count`. -/
def Span.last_static (s : Span) (count : Nat) : Option Span :=
  if count ≤ s.size then some ⟨s.data + (s.size - count), count, some count⟩ else none

/-- Modelled from the spec: `span::subspan(offset, count)`; a view of `count`
elements from `data() + offset`, of the rest of the span when `count` is
`dynamic_extent`; of dynamic extent. -/
def Span.subspan (s : Span) (offset count : Nat) : Option Span :=
  if offset ≤ s.size ∧ (count = dynamic_extent ∨ offset + count ≤ s.size) then
    some ⟨s.data + offset, if count = dynamic_extent then s.size - offset else count, none⟩
  else none

/-- Modelled from the spec: `span::subspan<Offset, Count>()`; the same view, of
static extent `Count`, or of the extent of the span less `Offset` when `Count`
is `dynamic_extent`. -/
def Span.subspan_static (s : Span) (offset count : Nat) : Option Span :=
  if offset ≤ s.size ∧ (count = dynamic_extent ∨ offset + count ≤ s.size) then
    some ⟨s.data + offset, if count = dynamic_extent then s.size - offset else count,
      if count = dynamic_extent then s.extent.map (fun e => e - offset) else some count⟩
  else none

/-- The span `span<int, 5> s{arr}` of the tests, `arr` the address of the
array. -/
def spanOfArr (arr : Nat) : Span := ⟨arr, 5, some 5⟩

/-- The checks of a subview test: the size, `data()`, `begin()`, `end()` and
the extent of the type. -/
def subviewChecks (r : Option Span) (size data end_ : Nat) (extent : Option Nat) : Bool :=
  match r with
  | none => false
  | some v => v.size == size && v.data == data && v.begin_ == data && v.end_ == end_ &&
      v.extent == extent

/-- The six cases of `TEST(subview, span)`. -/
def test_subview (arr : Nat) : Bool :=
  subviewChecks ((spanOfArr arr).first_static 3) 3 arr (arr + 3) (some 3) &&
  subviewChecks ((spanOfArr arr).last_static 3) 3 (arr + 2) (arr + 5) (some 3) &&
  subviewChecks ((spanOfArr arr).subspan_static 1 2) 2 (arr + 1) (arr + 1 + 2) (some 2) &&
  subviewChecks ((spanOfArr arr).first 3) 3 arr (arr + 3) none &&
  subviewChecks ((spanOfArr arr).last 3) 3 (arr + 2) (arr + 5) none &&
  subviewChecks ((spanOfArr arr).subspan 1 2) 2 (arr + 1) (arr + 1 + 2) none

/-- Whether an input slot of the operation holds the name. -/
def holdsInput (d : OpDesc) (name : String) : Bool :=
  d.inputs.any (fun s => s.2.contains name)

/-- Every edge is recorded once in the adjacency lists. -/
def Graph.edgesOnce (g : Graph) : Bool :=
  g.nodes.all (fun x => decide x.inputs.Nodup && decide x.outputs.Nodup)

/-- The producer and consumer lists of every variable agree with the slot
references of every operation: the operation is a producer of the variable
exactly when an output slot of the operation holds the name of the variable,
and a consumer exactly when an input slot holds it. -/
def Graph.slotsConsistent (g : Graph) : Bool :=
  g.nodes.all (fun v =>
    match v.desc with
    | .op _ => true
    | .var dv => g.nodes.all (fun o =>
        match o.desc with
        | .var _ => true
        | .op d => (decide (o.id ∈ v.inputs) == holdsOutput d dv.name) &&
            (decide (o.id ∈ v.outputs) == holdsInput d dv.name)))

/-- The names of the variables are unique in the graph. -/
def Graph.namesUnique (g : Graph) : Bool :=
  g.nodes.all (fun x => g.nodes.all (fun y =>
    match x.desc, y.desc with
    | .var dx, .var dy => dx.name != dy.name || x.id == y.id
    | _, _ => true))

/-- The invariants of the graph model (§3): unique node identifiers, edges
between a variable and an operation of the graph, recorded once and on both
sides, in agreement with the slot references by name, and unique variable
names. -/
def Graph.Consistent (g : Graph) : Prop :=
  g.ids.Nodup ∧ g.bipartite = true ∧ g.symmetric = true ∧ g.edgesOnce = true ∧
    g.slotsConsistent = true ∧ g.namesUnique = true

/-- The node after the loop over the producers `ps` of `useless_op_in`: a
producer is relinked to `out`, `out` gains the producers, any other node is as
it was. -/
def rewriteNode (ps : List NodeId) (in_name out_name : String) (out : NodeId) (n : Node) :
    Node :=
  if n.id ∈ ps then
    match n.desc with
    | .op d => relinked n d in_name out_name out
    | .var _ => n
  else if n.id = out then { n with inputs := addProducers ps n.inputs }
  else n

/-- No variable has more than one producer operation. -/
def Graph.singleProducer (g : Graph) : Bool :=
  g.nodes.all (fun x => !x.IsVar || decide (x.inputs.length ≤ 1))

/-- The edge relation of the graph: `b` is among the outputs of the node
`a`. -/
def Edge (g : Graph) (a b : NodeId) : Prop :=
  ∃ A, g.find a = some A ∧ b ∈ A.outputs

/-- No node of the graph reaches itself along one or more edges. -/
def Graph.Acyclic (g : Graph) : Prop :=
  ∀ a, ¬ Relation.TransGen (Edge g) a a

/-- The graph `feed -> v1 -> scale -> v2 -> scale -> v3`. -/
def chainFeedTwoScales : Graph := ⟨[
  mkOp 0 "feed" [] [1] [] [("Out", ["v1"])] [] [],
  mkVar 1 "v1" false [0] [2],
  scaleOp 2 1 3 "v1" "v2",
  mkVar 3 "v2" false [2] [4],
  scaleOp 4 3 5 "v2" "v3",
  mkVar 5 "v3" false [4] []]⟩

/-- The nodes a rewrite at the match touches: `useless_op_in`, `useless_op`,
`useless_op_out` and the producers of `useless_op_in`. -/
def touched (g : Graph) (m : Match) : List NodeId :=
  [m.useless_op_in, m.useless_op, m.useless_op_out] ++
    (match g.find m.useless_op_in with
     | some vin => vin.inputs
     | none => [])

/-- The graph of the two chains `relu -> v1 -> scale(1, 0) -> v2` and
`relu -> v3 -> scale(1, 0) -> v4`. -/
def twoChains : Graph := ⟨[
  mkOp 0 "relu" [] [1] [] [("Out", ["v1"])] [] [],
  mkVar 1 "v1" false [0] [2],
  scaleOp 2 1 3 "v1" "v2",
  mkVar 3 "v2" false [2] [],
  mkOp 4 "relu" [] [5] [] [("Out", ["v3"])] [] [],
  mkVar 5 "v3" false [4] [6],
  scaleOp 6 5 7 "v3" "v4",
  mkVar 7 "v4" false [6] []]⟩

/-- Every slot reference of every operation is the name of a variable of the
graph that records the operation: a name in an output slot is the name of a
variable that has the operation among its producers, a name in an input slot
the name of a variable that has it among its consumers. -/
def Graph.slotsResolve (g : Graph) : Bool :=
  g.nodes.all (fun o =>
    match o.desc with
    | .var _ => true
    | .op d =>
      d.outputs.all (fun s => s.2.all (fun name => g.nodes.any (fun v =>
        match v.desc with
        | .var dv => dv.name == name && decide (o.id ∈ v.inputs)
        | .op _ => false))) &&
      d.inputs.all (fun s => s.2.all (fun name => g.nodes.any (fun v =>
        match v.desc with
        | .var dv => dv.name == name && decide (o.id ∈ v.outputs)
        | .op _ => false))))

/-- The chain `p -> v1 -> .. -> v2` before its rewrite, in a graph of the
run: `p` holds the name of `v1` in its output slots and is a producer of
`v1`, and `v2` is in the graph. -/
def chainPending (gk : Graph) (p v1 v2 : NodeId) (d1 d2 : VarDesc) : Prop :=
  (∃ Pk dk, gk.find p = some Pk ∧ Pk.desc = .op dk ∧ holdsOutput dk d1.name = true) ∧
  (∃ V1k, gk.find v1 = some V1k ∧ V1k.desc = .var d1 ∧ p ∈ V1k.inputs) ∧
  (∃ V2k, gk.find v2 = some V2k ∧ V2k.desc = .var d2)

/-- The chain after its rewrite, in a graph of the run: `v1` and `s` are not
in the graph, the edge from `p` to `v2` is recorded on both sides, and the
output slots of `p` hold the name of `v2` and not the name of `v1`. -/
def chainDone (gk : Graph) (p v1 s v2 : NodeId) (d1 d2 : VarDesc) : Prop :=
  gk.find v1 = none ∧ gk.find s = none ∧
  ∃ Pk dk V2k, gk.find p = some Pk ∧ v2 ∈ Pk.outputs ∧ Pk.desc = .op dk ∧
    holdsOutput dk d2.name = true ∧ holdsOutput dk d1.name = false ∧
    gk.find v2 = some V2k ∧ p ∈ V2k.inputs ∧ V2k.desc = .var d2

/-- The variables of `gk` are variables of `g0` with the same description. -/
def varsFrom (g0 gk : Graph) : Prop :=
  ∀ i x, gk.find i = some x → x.IsVar = true → ∃ x0, g0.find i = some x0 ∧ x0.desc = x.desc

theorem in_teller_eq (g : Graph) (x : Node) :
    useless_op_in_teller g x =
      match x.desc with
      | .op _ => .ok false
      | .var v =>
        if v.persistable then .ok false
        else if x.outputs.length ≠ 1 then .ok false
        else useless_op_in_more g x := by
  unfold useless_op_in_teller assert_is_var assert_var_not_persistable assert_has_n_outputs
    Node.IsVar
  cases hd : x.desc with
  | op d => simp
  | var v =>
    by_cases hp : v.persistable = true
    · simp [hp]
    · by_cases hl : x.outputs.length = 1
      · simp [hp, hl]
      · simp [hp, hl]

theorem op_teller_eq (x : Node) :
    useless_op_teller x =
      match x.desc with
      | .var _ => .ok false
      | .op d =>
        if x.inputs.length ≠ 1 then .ok false
        else if x.outputs.length ≠ 1 then .ok false
        else useless_op_more_desc d := by
  unfold useless_op_teller assert_is_op assert_has_n_inputs assert_has_n_outputs Node.IsOp
    useless_op_more
  cases hd : x.desc with
  | var v => simp
  | op d =>
    by_cases hi : x.inputs.length = 1
    · by_cases ho : x.outputs.length = 1
      · simp [hi, ho]
      · simp [hi, ho]
    · simp [hi]

theorem deref_ok_iff (g : Graph) (i : NodeId) (n : Node) :
    g.deref i = .ok n ↔ g.find i = some n := by
  unfold Graph.deref
  cases h : g.find i <;> simp

theorem find_some_mem {g : Graph} {i : NodeId} {n : Node} (h : g.find i = some n) :
    n ∈ g.nodes ∧ n.id = i := by
  unfold Graph.find at h
  exact ⟨List.mem_of_find?_eq_some h, by simpa using List.find?_some h⟩

theorem find_of_mem_aux (l : List Node) (n : Node) (hnd : (l.map Node.id).Nodup) (hn : n ∈ l) :
    l.find? (fun x => x.id == n.id) = some n := by
  induction l with
  | nil => cases hn
  | cons a t ih =>
    simp only [List.map_cons, List.nodup_cons] at hnd
    rcases List.mem_cons.1 hn with rfl | hmem
    · simp
    · have hne : a.id ≠ n.id := fun e => hnd.1 (e ▸ List.mem_map_of_mem Node.id hmem)
      simp [List.find?_cons, hne, ih hnd.2 hmem]

theorem find_of_mem {g : Graph} {n : Node} (hnd : g.ids.Nodup) (hn : n ∈ g.nodes) :
    g.find n.id = some n := find_of_mem_aux g.nodes n hnd hn

theorem bind_out_sound (g : Graph) (vin op : NodeId) (l : List NodeId) :
    ∀ ms, bind_out g vin op l = .ok ms → ∀ m ∈ ms,
      m.useless_op_in = vin ∧ m.useless_op = op ∧ m.useless_op_out ∈ l ∧
      (∃ vout, g.find m.useless_op_out = some vout ∧ vout.IsVar = true) ∧
      m.useless_op_out ≠ vin ∧ m.useless_op_out ≠ op := by
  induction l with
  | nil => intro ms h m hm; simp [bind_out] at h; subst h; cases hm
  | cons o rest ih =>
    intro ms h m hm
    simp only [bind_out] at h
    cases hd : g.deref o with
    | error e => simp [hd] at h
    | ok vout =>
      cases hr : bind_out g vin op rest with
      | error e => simp [hd, hr] at h
      | ok ms' =>
        simp only [hd, hr] at h
        have key : ∀ m ∈ ms', m.useless_op_in = vin ∧ m.useless_op = op ∧
            m.useless_op_out ∈ o :: rest ∧
            (∃ vout, g.find m.useless_op_out = some vout ∧ vout.IsVar = true) ∧
            m.useless_op_out ≠ vin ∧ m.useless_op_out ≠ op := by
          intro m hm
          obtain ⟨a, b, c, d⟩ := ih ms' hr m hm
          exact ⟨a, b, List.mem_cons_of_mem _ c, d⟩
        split at h
        · rename_i hc
          simp only [Except.ok.injEq] at h
          subst h
          rcases List.mem_cons.1 hm with rfl | hm'
          · simp only [Bool.and_eq_true, bne_iff_ne, ne_eq, useless_op_out_teller, assert_is_var] at hc
            refine ⟨rfl, rfl, List.mem_cons_self _ _, ⟨vout, (deref_ok_iff _ _ _).1 hd, hc.1.1⟩,
              hc.1.2, hc.2⟩
          · exact key m hm'
        · simp only [Except.ok.injEq] at h
          subst h
          exact key m hm


theorem bind_op_sound (g : Graph) (vin : NodeId) (l : List NodeId) :
    ∀ ms, bind_op g vin l = .ok ms → ∀ m ∈ ms,
      m.useless_op_in = vin ∧ m.useless_op ∈ l ∧ m.useless_op ≠ vin ∧
      ∃ op, g.find m.useless_op = some op ∧ useless_op_teller op = .ok true ∧
        m.useless_op_out ∈ op.outputs ∧
        (∃ vout, g.find m.useless_op_out = some vout ∧ vout.IsVar = true) ∧
        m.useless_op_out ≠ vin ∧ m.useless_op_out ≠ m.useless_op := by
  induction l with
  | nil => intro ms h m hm; simp [bind_op] at h; subst h; cases hm
  | cons o rest ih =>
    intro ms h m hm
    have lift : ∀ ms', bind_op g vin rest = .ok ms' → m ∈ ms' →
        m.useless_op_in = vin ∧ m.useless_op ∈ o :: rest ∧ m.useless_op ≠ vin ∧
        ∃ op, g.find m.useless_op = some op ∧ useless_op_teller op = .ok true ∧
          m.useless_op_out ∈ op.outputs ∧
          (∃ vout, g.find m.useless_op_out = some vout ∧ vout.IsVar = true) ∧
          m.useless_op_out ≠ vin ∧ m.useless_op_out ≠ m.useless_op := by
      intro ms' h' hm'
      obtain ⟨a, b, c⟩ := ih ms' h' m hm'
      exact ⟨a, List.mem_cons_of_mem _ b, c⟩
    simp only [bind_op] at h
    cases hd : g.deref o with
    | error e => simp [hd] at h
    | ok op =>
      simp only [hd] at h
      cases ht : useless_op_teller op with
      | error e => simp [ht] at h
      | ok b =>
        cases b with
        | false => simp only [ht] at h; exact lift ms h hm
        | true =>
          simp only [ht] at h
          by_cases hov : o = vin
          · simp only [hov, if_true] at h; exact lift ms h hm
          · simp only [hov, if_false] at h
            cases ho : bind_out g vin o op.outputs with
            | error e => simp [ho] at h
            | ok here =>
              cases hr : bind_op g vin rest with
              | error e => simp [ho, hr] at h
              | ok ms' =>
                simp only [ho, hr, Except.ok.injEq] at h
                subst h
                rcases List.mem_append.1 hm with h1 | h2
                · obtain ⟨a, b, c, d, e, f⟩ := bind_out_sound g vin o op.outputs here ho m h1
                  refine ⟨a, b ▸ List.mem_cons_self _ _, b ▸ hov, op, ?_, ht, c, d, e, b ▸ f⟩
                  rw [b]; exact (deref_ok_iff _ _ _).1 hd
                · exact lift ms' hr h2

theorem matchesAt_sound (g : Graph) (x : Node) (hx : x ∈ g.nodes) (ms : List Match)
    (h : matchesAt g x = .ok ms) (m : Match) (hm : m ∈ ms) :
    m.useless_op_in = x.id ∧ IsMatch g m := by
  unfold matchesAt at h
  cases ht : useless_op_in_teller g x with
  | error e => simp [ht] at h
  | ok b =>
    cases b with
    | false => simp [ht] at h; subst h; cases hm
    | true =>
      simp only [ht] at h
      obtain ⟨a, b, c, op, d, e, f, ⟨vout, g1, g2⟩, i, j⟩ := bind_op_sound g x.id x.outputs ms h m hm
      exact ⟨a, x, op, vout, hx, a.symm, ht, b, d, e, f, g1, g2, a ▸ i, j, a ▸ c⟩

theorem detectFrom_sound (g : Graph) (l : List Node) (hl : ∀ x ∈ l, x ∈ g.nodes) :
    ∀ ms, detectFrom g l = .ok ms → ∀ m ∈ ms,
      (∃ x ∈ l, m.useless_op_in = x.id) ∧ IsMatch g m := by
  induction l with
  | nil => intro ms h m hm; simp [detectFrom] at h; subst h; cases hm
  | cons x rest ih =>
    intro ms h m hm
    simp only [detectFrom] at h
    cases hx : matchesAt g x with
    | error e => simp [hx] at h
    | ok here =>
      cases hr : detectFrom g rest with
      | error e => simp [hx, hr] at h
      | ok ms' =>
        simp only [hx, hr, Except.ok.injEq] at h
        subst h
        rcases List.mem_append.1 hm with h1 | h2
        · obtain ⟨a, b⟩ := matchesAt_sound g x (hl x (List.mem_cons_self _ _)) here hx m h1
          exact ⟨⟨x, List.mem_cons_self _ _, a⟩, b⟩
        · obtain ⟨⟨y, hy, a⟩, b⟩ := ih (fun y hy => hl y (List.mem_cons_of_mem _ hy)) ms' hr m h2
          exact ⟨⟨y, List.mem_cons_of_mem _ hy, a⟩, b⟩

theorem detect_sound (g : Graph) (ms : List Match) (h : detect g = .ok ms) (m : Match)
    (hm : m ∈ ms) : IsMatch g m :=
  (detectFrom_sound g g.nodes (fun _ hx => hx) ms h m hm).2


theorem find_update (g : Graph) (a b : NodeId) (f : Node → Node) (hf : ∀ n, (f n).id = n.id) :
    (g.update a f).find b = (g.find b).map (fun n => if n.id = a then f n else n) := by
  unfold Graph.update Graph.find
  rw [List.find?_map]
  congr 1
  apply congrArg (fun p => List.find? p g.nodes)
  funext n
  by_cases h : n.id = a <;> simp [h, hf]

theorem find_update_ne (g : Graph) (a b : NodeId) (f : Node → Node) (hab : b ≠ a)
    (hf : ∀ n, (f n).id = n.id) : (g.update a f).find b = g.find b := by
  rw [find_update g a b f hf]
  cases h : g.find b with
  | none => rfl
  | some n =>
    have := (find_some_mem h).2
    simp [this, hab]

theorem find_update_eq (g : Graph) (a : NodeId) (f : Node → Node) (hf : ∀ n, (f n).id = n.id) :
    (g.update a f).find a = (g.find a).map f := by
  rw [find_update g a a f hf]
  cases h : g.find a with
  | none => rfl
  | some n =>
    have := (find_some_mem h).2
    simp [this]

theorem ids_update (g : Graph) (a : NodeId) (f : Node → Node) (hf : ∀ n, (f n).id = n.id) :
    (g.update a f).ids = g.ids := by
  unfold Graph.update Graph.ids
  rw [List.map_map]
  apply List.map_congr_left
  intro n _
  by_cases h : n.id = a <;> simp [h, hf]

theorem find_removeNodes (g : Graph) (rm : List NodeId) (b : NodeId) :
    (removeNodes g rm).find b = if b ∈ rm then none else (g.find b).map (detach rm) := by
  unfold removeNodes Graph.find
  rw [List.find?_map, List.find?_filter]
  by_cases hb : b ∈ rm
  · simp only [hb, if_true, Option.map_eq_none']
    rw [List.find?_eq_none]
    intro n _
    simp only [Function.comp, detach]
    by_cases hn : n.id = b
    · simp [hn, hb]
    · simp [hn]
  · simp only [hb, if_false]
    congr 1
    apply congrArg (fun p => List.find? p g.nodes)
    funext n
    simp only [Function.comp, detach]
    by_cases hn : n.id = b
    · simp [hn, hb]
    · simp [hn]

theorem ids_removeNodes (g : Graph) (rm : List NodeId) :
    (removeNodes g rm).ids = g.ids.filter (fun i => !rm.contains i) := by
  unfold removeNodes Graph.ids
  rw [List.map_map, List.filter_map]
  rfl

theorem detach_not_references (rm : List NodeId) (n : Node) : references rm (detach rm n) = false := by
  simp [references, detach, List.any_eq_false]

theorem GraphSafeRemoveNodes_ok (g : Graph) (rm : List NodeId) :
    GraphSafeRemoveNodes g rm = .ok (removeNodes g rm) := by
  unfold GraphSafeRemoveNodes
  have h : (removeNodes g rm).nodes.any (references rm) = false := by
    rw [List.any_eq_false]
    intro n hn
    unfold removeNodes at hn
    obtain ⟨n0, _, rfl⟩ := List.mem_map.1 hn
    simp [detach_not_references]
  simp [h]

theorem RenameOutput_ok (d : OpDesc) (old new : String) (h : holdsOutput d old = true) :
    d.RenameOutput old new = .ok (renamedOutputs d old new) := by
  unfold OpDesc.RenameOutput
  unfold holdsOutput at h
  rw [if_pos h]
  rfl

theorem find_link_other (g : Graph) (a b x : NodeId) (hxa : x ≠ a) (hxb : x ≠ b) :
    (IR_NODE_LINK_TO g a b).find x = g.find x := by
  unfold IR_NODE_LINK_TO
  rw [find_update_ne _ _ _ _ hxb, find_update_ne _ _ _ _ hxa]
  all_goals (intro _; rfl)

theorem find_link_src (g : Graph) (a b : NodeId) (hab : a ≠ b) :
    (IR_NODE_LINK_TO g a b).find a =
      (g.find a).map (fun n => { n with outputs := addIfAbsent b n.outputs }) := by
  unfold IR_NODE_LINK_TO
  rw [find_update_ne _ _ _ _ hab, find_update_eq]
  all_goals (intro _; rfl)

theorem find_link_dst (g : Graph) (a b : NodeId) (hab : a ≠ b) :
    (IR_NODE_LINK_TO g a b).find b =
      (g.find b).map (fun n => { n with inputs := addIfAbsent a n.inputs }) := by
  unfold IR_NODE_LINK_TO
  rw [find_update_eq, find_update_ne _ _ _ _ (Ne.symm hab)]
  all_goals (intro _; rfl)

theorem ids_link (g : Graph) (a b : NodeId) : (IR_NODE_LINK_TO g a b).ids = g.ids := by
  unfold IR_NODE_LINK_TO
  rw [ids_update, ids_update]
  all_goals (intro _; rfl)

/-- The loop over the producers of `useless_op_in`: when every producer is an
operation of the graph whose output slots hold the name of `useless_op_in`, the
loop completes; each producer is relinked, `useless_op_out` gains the
producers, and no other node changes. -/
theorem relinkProducers_spec (in_name out_name : String) (o : NodeId) (ps : List NodeId) :
    ∀ g : Graph, ps.Nodup → o ∉ ps →
      (∀ p ∈ ps, ∃ P d, g.find p = some P ∧ P.desc = .op d ∧ holdsOutput d in_name = true) →
      ∃ g', relinkProducers g in_name out_name o ps = .ok g' ∧
        g'.ids = g.ids ∧
        (∀ x, x ∉ ps → x ≠ o → g'.find x = g.find x) ∧
        (∀ p ∈ ps, ∀ P d, g.find p = some P → P.desc = .op d →
          g'.find p = some (relinked P d in_name out_name o)) ∧
        g'.find o = (g.find o).map (fun V => { V with inputs := addProducers ps V.inputs }) := by
  induction ps with
  | nil =>
    intro g _ _ _
    refine ⟨g, rfl, rfl, fun _ _ _ => rfl, fun p hp => absurd hp (List.not_mem_nil p), ?_⟩
    cases g.find o <;> rfl
  | cons p rest ih =>
    intro g hnd ho hall
    obtain ⟨hp_rest, hnd_rest⟩ := List.nodup_cons.1 hnd
    have hpo : p ≠ o := fun e => ho (e ▸ List.mem_cons_self _ _)
    have ho_rest : o ∉ rest := fun h => ho (List.mem_cons_of_mem _ h)
    obtain ⟨P, d, hP, hPd, hhold⟩ := hall p (List.mem_cons_self _ _)
    let g1 := IR_NODE_LINK_TO
      (g.update p (fun n => { n with desc := .op (renamedOutputs d in_name out_name) })) p o
    have hg1_other : ∀ x, x ≠ p → x ≠ o → g1.find x = g.find x := by
      intro x hxp hxo
      show (IR_NODE_LINK_TO _ p o).find x = _
      rw [find_link_other _ _ _ _ hxp hxo, find_update_ne _ _ _ _ hxp]
      intro _; rfl
    have hg1_p : g1.find p = some (relinked P d in_name out_name o) := by
      show (IR_NODE_LINK_TO _ p o).find p = _
      rw [find_link_src _ _ _ hpo, find_update_eq, hP]
      · rfl
      · intro _; rfl
    have hg1_o : g1.find o = (g.find o).map (fun V => { V with inputs := addIfAbsent p V.inputs }) := by
      show (IR_NODE_LINK_TO _ p o).find o = _
      rw [find_link_dst _ _ _ hpo, find_update_ne _ _ _ _ (Ne.symm hpo)]
      intro _; rfl
    have hg1_ids : g1.ids = g.ids := by
      show (IR_NODE_LINK_TO _ p o).ids = _
      rw [ids_link, ids_update]
      intro _; rfl
    have hall1 : ∀ q ∈ rest, ∃ Q d, g1.find q = some Q ∧ Q.desc = .op d ∧
        holdsOutput d in_name = true := by
      intro q hq
      have hqp : q ≠ p := fun e => hp_rest (e ▸ hq)
      have hqo : q ≠ o := fun e => ho_rest (e ▸ hq)
      rw [hg1_other q hqp hqo]
      exact hall q (List.mem_cons_of_mem _ hq)
    obtain ⟨g', hrun, hids, hother, hprod, hout⟩ := ih g1 hnd_rest ho_rest hall1
    refine ⟨g', ?_, hids.trans hg1_ids, ?_, ?_, ?_⟩
    · simp only [relinkProducers, (deref_ok_iff g p P).2 hP, hPd,
        RenameOutput_ok d in_name out_name hhold]
      exact hrun
    · intro x hx hxo
      have hxp : x ≠ p := fun e => hx (e ▸ List.mem_cons_self _ _)
      have hxr : x ∉ rest := fun h => hx (List.mem_cons_of_mem _ h)
      rw [hother x hxr hxo, hg1_other x hxp hxo]
    · intro q hq Q dq hQ hQd
      rcases List.mem_cons.1 hq with rfl | hq'
      · rw [hother q hp_rest hpo, hg1_p]
        rw [hP] at hQ
        cases hQ
        rw [hPd] at hQd
        cases hQd
        rfl
      · have hqp : q ≠ p := fun e => hp_rest (e ▸ hq')
        have hqo : q ≠ o := fun e => ho_rest (e ▸ hq')
        exact hprod q hq' Q dq ((hg1_other q hqp hqo).trans hQ) hQd
    · rw [hout, hg1_o]
      cases g.find o <;> rfl

/-- The graph the handler leaves when it completes: the graph after the loop
over the producers, without `useless_op_in` and `useless_op`. -/
theorem handler_ok_inv (g : Graph) (m : Match) (c : Nat) (g' : Graph) (c' : Nat)
    (h : handler g m c = .ok (g', c')) :
    c' = c + 1 ∧
    ∃ vin din vout dout g1, g.find m.useless_op_in = some vin ∧ vin.desc = .var din ∧
      g.find m.useless_op_out = some vout ∧ vout.desc = .var dout ∧
      (∃ op, g.find m.useless_op = some op ∧ op.IsOp = true) ∧
      relinkProducers g din.name dout.name m.useless_op_out vin.inputs = .ok g1 ∧
      g' = removeNodes g1 [m.useless_op_in, m.useless_op] := by
  unfold handler at h
  split at h
  · rename_i vin op vout hin hop hout
    split at h
    · rename_i din dout dop hdin hdout hdop
      cases hr : relinkProducers g din.name dout.name m.useless_op_out vin.inputs with
      | error e => simp [hr] at h
      | ok g1 =>
        simp only [hr, GraphSafeRemoveNodes_ok, Except.ok.injEq, Prod.mk.injEq] at h
        refine ⟨h.2.symm, vin, din, vout, dout, g1, (deref_ok_iff _ _ _).1 hin, hdin,
          (deref_ok_iff _ _ _).1 hout, hdout, ⟨op, (deref_ok_iff _ _ _).1 hop, ?_⟩, hr, h.1.symm⟩
        simp [Node.IsOp, hdop]
    · simp at h
  · simp at h

theorem handler_removes (g : Graph) (m : Match) (c : Nat) (g' : Graph) (c' : Nat)
    (h : handler g m c = .ok (g', c')) :
    c' = c + 1 ∧ g'.find m.useless_op_in = none ∧ g'.find m.useless_op = none := by
  obtain ⟨hc, _, _, _, _, g1, _, _, _, _, _, _, rfl⟩ := handler_ok_inv g m c g' c' h
  refine ⟨hc, ?_, ?_⟩ <;> rw [find_removeNodes] <;> simp

/-- The handler on a match whose three nodes are in the graph, with every
producer of `useless_op_in` an operation whose output slots hold its name. -/
theorem handler_spec (g : Graph) (m : Match) (c : Nat) (vin op vout : Node)
    (din dout : VarDesc)
    (hin : g.find m.useless_op_in = some vin) (hop : g.find m.useless_op = some op)
    (hout : g.find m.useless_op_out = some vout)
    (hdin : vin.desc = .var din) (hdout : vout.desc = .var dout) (hisop : op.IsOp = true)
    (hnd : vin.inputs.Nodup)
    (hprod : ∀ p ∈ vin.inputs, ∃ P d, g.find p = some P ∧ P.desc = .op d ∧
      holdsOutput d din.name = true) :
    ∃ g', handler g m c = .ok (g', c + 1) ∧
      g'.ids = g.ids.filter (fun i => !([m.useless_op_in, m.useless_op]).contains i) ∧
      g'.find m.useless_op_in = none ∧ g'.find m.useless_op = none ∧
      (∀ x, x ≠ m.useless_op_in → x ≠ m.useless_op → x ∉ vin.inputs → x ≠ m.useless_op_out →
        g'.find x = (g.find x).map (detach [m.useless_op_in, m.useless_op])) ∧
      (∀ p ∈ vin.inputs, p ≠ m.useless_op_in → p ≠ m.useless_op → ∀ P d, g.find p = some P →
        P.desc = .op d →
        g'.find p = some (detach [m.useless_op_in, m.useless_op]
          (relinked P d din.name dout.name m.useless_op_out))) ∧
      (m.useless_op_out ≠ m.useless_op_in → m.useless_op_out ≠ m.useless_op →
        g'.find m.useless_op_out = some (detach [m.useless_op_in, m.useless_op]
          { vout with inputs := addProducers vin.inputs vout.inputs })) := by
  have ho : m.useless_op_out ∉ vin.inputs := by
    intro hmem
    obtain ⟨P, d, hP, hPd, _⟩ := hprod _ hmem
    rw [hout] at hP
    cases hP
    rw [hdout] at hPd
    cases hPd
  obtain ⟨g1, hrun, hids, hother, hp, hvo⟩ :=
    relinkProducers_spec din.name dout.name m.useless_op_out vin.inputs g hnd ho hprod
  obtain ⟨dop, hdop⟩ : ∃ dop, op.desc = .op dop := by
    cases hd : op.desc with
    | op d => exact ⟨d, rfl⟩
    | var d => simp [Node.IsOp, hd] at hisop
  refine ⟨removeNodes g1 [m.useless_op_in, m.useless_op], ?_, ?_, ?_, ?_, ?_, ?_, ?_⟩
  · unfold handler
    simp only [(deref_ok_iff _ _ _).2 hin, (deref_ok_iff _ _ _).2 hop, (deref_ok_iff _ _ _).2 hout,
      hdin, hdout, hdop, hrun, GraphSafeRemoveNodes_ok]
  · rw [ids_removeNodes, hids]
  · rw [find_removeNodes]; simp
  · rw [find_removeNodes]; simp
  · intro x h1 h2 h3 h4
    rw [find_removeNodes, hother x h3 h4]
    simp [h1, h2]
  · intro p hpm h1 h2 P d hP hPd
    rw [find_removeNodes, hp p hpm P d hP hPd]
    simp [h1, h2]
  · intro h1 h2
    rw [find_removeNodes, hvo, hout]
    simp [h1, h2]

theorem mem_addIfAbsent_self (i : NodeId) (l : List NodeId) : i ∈ addIfAbsent i l := by
  unfold addIfAbsent
  by_cases h : i ∈ l <;> simp [h]

theorem mem_addIfAbsent_of_mem {i j : NodeId} {l : List NodeId} (h : j ∈ l) :
    j ∈ addIfAbsent i l := by
  unfold addIfAbsent
  by_cases h' : i ∈ l <;> simp [h', h]

theorem mem_addIfAbsent_iff (i j : NodeId) (l : List NodeId) :
    j ∈ addIfAbsent i l ↔ j ∈ l ∨ j = i := by
  unfold addIfAbsent
  by_cases h' : i ∈ l
  · simp only [h', if_true]
    constructor
    · exact Or.inl
    · rintro (h | rfl)
      · exact h
      · exact h'
  · simp [h']

theorem mem_addProducers_iff (ps : List NodeId) :
    ∀ (l : List NodeId) (j : NodeId), j ∈ addProducers ps l ↔ j ∈ l ∨ j ∈ ps := by
  induction ps with
  | nil => intro l j; simp [addProducers]
  | cons p rest ih =>
    intro l j
    have := ih (addIfAbsent p l) j
    simp only [addProducers, List.foldl_cons] at this ⊢
    rw [this, mem_addIfAbsent_iff]
    simp only [List.mem_cons]
    tauto

theorem mem_detach_outputs (rm : List NodeId) (n : Node) (j : NodeId) :
    j ∈ (detach rm n).outputs ↔ j ∈ n.outputs ∧ j ∉ rm := by
  simp [detach, List.mem_filter]

theorem mem_detach_inputs (rm : List NodeId) (n : Node) (j : NodeId) :
    j ∈ (detach rm n).inputs ↔ j ∈ n.inputs ∧ j ∉ rm := by
  simp [detach, List.mem_filter]

theorem in_more_loop_true (g : Graph) (l : List NodeId)
    (h : ∀ q ∈ l, ∃ Q dQ, g.find q = some Q ∧ Q.desc = .op dQ ∧
      isControlFlowOrFeed dQ.type = false) :
    useless_op_in_more_loop g l = .ok true := by
  induction l with
  | nil => rfl
  | cons q rest ih =>
    obtain ⟨Q, dQ, hQ, hQd, hty⟩ := h q (List.mem_cons_self _ _)
    simp only [isControlFlowOrFeed, decide_eq_false_iff_not] at hty
    simp only [useless_op_in_more_loop, (deref_ok_iff _ _ _).2 hQ, hQd, if_neg hty]
    exact ih (fun q' hq' => h q' (List.mem_cons_of_mem _ hq'))

theorem detectFrom_append (g : Graph) (s t : List Node) (a b : List Match)
    (hs : detectFrom g s = .ok a) (ht : detectFrom g t = .ok b) :
    detectFrom g (s ++ t) = .ok (a ++ b) := by
  induction s generalizing a with
  | nil => simp only [detectFrom, Except.ok.injEq] at hs; subst hs; simpa using ht
  | cons x rest ih =>
    simp only [detectFrom] at hs
    cases hx : matchesAt g x with
    | error e => simp [hx] at hs
    | ok here =>
      cases hr : detectFrom g rest with
      | error e => simp [hx, hr] at hs
      | ok ms =>
        simp only [hx, hr, Except.ok.injEq] at hs
        subst hs
        have hi := ih ms hr
        show detectFrom g (x :: (rest ++ t)) = _
        simp only [detectFrom, hx, hi, List.append_assoc]

theorem detectFrom_nil_of_all (g : Graph) (l : List Node)
    (h : ∀ x ∈ l, matchesAt g x = .ok []) : detectFrom g l = .ok [] := by
  induction l with
  | nil => rfl
  | cons x rest ih =>
    simp only [detectFrom, h x (List.mem_cons_self _ _),
      ih (fun y hy => h y (List.mem_cons_of_mem _ hy)), List.append_nil]

/-- When the variable `V` is the only node of the graph that starts a match,
the matches of the graph are those that start at `V`. -/
theorem detect_only_at (g : Graph) (V : Node) (ms : List Match) (hids : g.ids.Nodup)
    (hV : V ∈ g.nodes) (hat : matchesAt g V = .ok ms)
    (honly : ∀ x ∈ g.nodes, x.id ≠ V.id → matchesAt g x = .ok []) :
    detect g = .ok ms := by
  obtain ⟨s, t, hst⟩ := List.append_of_mem hV
  have hnd : ((s ++ V :: t).map Node.id).Nodup := by
    have := hids
    unfold Graph.ids at this
    rwa [hst] at this
  rw [List.map_append, List.map_cons, List.nodup_append] at hnd
  obtain ⟨_, hVt, hdisj⟩ := hnd
  have hs : ∀ x ∈ s, matchesAt g x = .ok [] := by
    intro x hx
    apply honly x (hst ▸ List.mem_append_left _ hx)
    intro e
    exact hdisj (List.mem_map_of_mem Node.id hx) (e ▸ List.mem_cons_self _ _)
  have ht : ∀ x ∈ t, matchesAt g x = .ok [] := by
    intro x hx
    apply honly x (hst ▸ List.mem_append_right _ (List.mem_cons_of_mem _ hx))
    intro e
    exact (List.nodup_cons.1 hVt).1 (e ▸ List.mem_map_of_mem Node.id hx)
  have h1 : detectFrom g (V :: t) = .ok (ms ++ []) := by
    simp only [detectFrom, hat, detectFrom_nil_of_all g t ht]
  have := detectFrom_append g s (V :: t) [] (ms ++ []) (detectFrom_nil_of_all g s hs) h1
  unfold detect
  rw [hst, this]
  simp

theorem scale_teller_true (S : Node) (dS : OpDesc) (a b : NodeId) (hSd : S.desc = .op dS)
    (hty : dS.type = "scale")
    (hscale : f32_eq (dS.GetAttrIfExists_float "scale") f32_one = true)
    (hbias : f32_eq (dS.GetAttrIfExists_float "bias") f32_zero = true)
    (hSin : S.inputs = [a]) (hSout : S.outputs = [b]) :
    useless_op_teller S = .ok true := by
  simp [op_teller_eq, hSd, hSin, hSout, useless_op_more_desc, hty, hscale, hbias]

/-- The chain `v1 -> op -> v2` is the one match that starts at `v1`, when `v1`
passes the predicates of `useless_op_in`, its one consumer passes those of
`useless_op`, and the one output of that consumer is another variable. -/
theorem matchesAt_chain (g : Graph) (v1 s v2 : NodeId) (V1 S V2 : Node)
    (hV1id : V1.id = v1) (hV1 : useless_op_in_teller g V1 = .ok true)
    (hV1out : V1.outputs = [s])
    (hS : g.find s = some S) (hSt : useless_op_teller S = .ok true) (hSout : S.outputs = [v2])
    (hV2 : g.find v2 = some V2) (hV2v : V2.IsVar = true)
    (hsv : s ≠ v1) (h21 : v2 ≠ v1) (h2s : v2 ≠ s) :
    matchesAt g V1 = .ok [⟨v1, s, v2⟩] := by
  simp [matchesAt, hV1, hV1out, bind_op, (deref_ok_iff _ _ _).2 hS, hSt, hV1id, hsv, hSout,
    bind_out, (deref_ok_iff _ _ _).2 hV2, useless_op_out_teller, assert_is_var, hV2v, h21, h2s]

/-- When the chain is the one match of the graph and the producers of `v1`
are operations of a kind other than `conditional_block`, `while` and `feed`
whose output slots hold the name of `v1`, one run of `ApplyImpl` reports one
rewrite, removes `v1` and the scale operation, links each producer `P` of `v1`
to `v2` on both sides, and renames the name of `v1` to the name of `v2` in the
output slots of `P`. -/
theorem single_elimination_only (g : Graph) (p v1 s v2 : NodeId) (P V1 S V2 : Node)
    (dP dS : OpDesc) (d1 d2 : VarDesc)
    (hids : g.ids.Nodup)
    (hP : g.find p = some P) (hPd : P.desc = .op dP) (hPout : v1 ∈ P.outputs)
    (hV1 : g.find v1 = some V1) (hV1d : V1.desc = .var d1) (hpers : d1.persistable = false)
    (hV1in : p ∈ V1.inputs) (hV1nd : V1.inputs.Nodup) (hV1out : V1.outputs = [s])
    (hprod : ∀ q ∈ V1.inputs, ∃ Q dQ, g.find q = some Q ∧ Q.desc = .op dQ ∧
      holdsOutput dQ d1.name = true ∧ isControlFlowOrFeed dQ.type = false)
    (hS : g.find s = some S) (hSd : S.desc = .op dS) (hSty : dS.type = "scale")
    (hscale : f32_eq (dS.GetAttrIfExists_float "scale") f32_one = true)
    (hbias : f32_eq (dS.GetAttrIfExists_float "bias") f32_zero = true)
    (hSin : S.inputs = [v1]) (hSout : S.outputs = [v2])
    (hV2 : g.find v2 = some V2) (hV2d : V2.desc = .var d2) (h21 : v2 ≠ v1)
    (honly : ∀ x ∈ g.nodes, x.id ≠ v1 → matchesAt g x = .ok []) :
    ∃ g', ApplyImpl g = .ok (g', 1) ∧ g'.find v1 = none ∧ g'.find s = none ∧
      ∃ P' V2', g'.find p = some P' ∧ v2 ∈ P'.outputs ∧
        g'.find v2 = some V2' ∧ p ∈ V2'.inputs ∧
        P'.desc = .op (renamedOutputs dP d1.name d2.name) := by
  have hsv : s ≠ v1 := by
    rintro rfl
    rw [hS] at hV1; cases hV1; rw [hSd] at hV1d; cases hV1d
  have h2s : v2 ≠ s := by
    rintro rfl
    rw [hS] at hV2; cases hV2; rw [hSd] at hV2d; cases hV2d
  have hpv : p ≠ v1 := by
    rintro rfl
    rw [hP] at hV1; cases hV1; rw [hPd] at hV1d; cases hV1d
  have hps : p ≠ s := by
    rintro rfl
    rw [hP] at hS; cases hS
    rw [hSout] at hPout
    exact h21 (List.mem_singleton.1 hPout).symm
  have hV1id : V1.id = v1 := (find_some_mem hV1).2
  have hV2v : V2.IsVar = true := by simp [Node.IsVar, hV2d]
  have hSop : S.IsOp = true := by simp [Node.IsOp, hSd]
  have hV1t : useless_op_in_teller g V1 = .ok true := by
    simp only [in_teller_eq, hV1d, hpers, hV1out, useless_op_in_more]
    simp only [List.length_singleton, ne_eq, not_true_eq_false, if_false, Bool.false_eq_true]
    exact in_more_loop_true g V1.inputs (fun q hq => by
      obtain ⟨Q, dQ, a, b, _, c⟩ := hprod q hq
      exact ⟨Q, dQ, a, b, c⟩)
  have hSt := scale_teller_true S dS v1 v2 hSd hSty hscale hbias hSin hSout
  have hat := matchesAt_chain g v1 s v2 V1 S V2 hV1id hV1t hV1out hS hSt hSout hV2 hV2v hsv h21 h2s
  have hdet : detect g = .ok [⟨v1, s, v2⟩] :=
    detect_only_at g V1 _ hids (find_some_mem hV1).1 hat (fun x hx hne => honly x hx (hV1id ▸ hne))
  obtain ⟨g', hrun, _, hgin, hgop, _, hprods, hgout⟩ :=
    handler_spec g ⟨v1, s, v2⟩ 0 V1 S V2 d1 d2 hV1 hS hV2 hV1d hV2d hSop hV1nd
      (fun q hq => by
        obtain ⟨Q, dQ, a, b, c, _⟩ := hprod q hq
        exact ⟨Q, dQ, a, b, c⟩)
  refine ⟨g', ?_, hgin, hgop, _, _, hprods p hV1in hpv hps P dP hP hPd, ?_, hgout h21 h2s, ?_, ?_⟩
  · simp only [ApplyImpl, hdet, applyMatches, hrun]
  · rw [mem_detach_outputs]
    refine ⟨mem_addIfAbsent_self _ _, ?_⟩
    simp [h21, h2s]
  · rw [mem_detach_inputs]
    refine ⟨(mem_addProducers_iff _ _ _).2 (Or.inr hV1in), ?_⟩
    simp [hpv, hps]
  · rfl

/-- C1 (counterexample): with a `feed` producer the chain is not matched and
the pass leaves `v1` and the scale operation in the graph; with a second scale
operation behind `v2`, the pass removes `v2` as well. -/
theorem C1_counterexample :
    (ApplyImpl chainFeed = .ok (chainFeed, 0) ∧
      (chainFeed.find 1).isSome = true ∧ (chainFeed.find 2).isSome = true) ∧
    ApplyImpl chainTwoScales =
      .ok (⟨[mkOp 0 "relu" [] [5] [] [("Out", ["v3"])] [] [], mkVar 5 "v3" false [0] []]⟩, 2) :=
  ⟨by decide, by decide⟩

theorem removeNodes_ne_of_find (g g1 : Graph) (rm : List NodeId) (i : NodeId) (n : Node)
    (hi : i ∈ rm) (hn : g.find i = some n) : removeNodes g1 rm ≠ g := by
  intro e
  have := find_removeNodes g1 rm i
  rw [e, hn, if_pos hi] at this
  cases this

theorem in_teller_true (g : Graph) (x : Node) (h : useless_op_in_teller g x = .ok true) :
    ∃ v, x.desc = .var v ∧ v.persistable = false ∧ x.outputs.length = 1 ∧
      useless_op_in_more g x = .ok true := by
  rw [in_teller_eq] at h
  cases hd : x.desc with
  | op d => simp [hd] at h
  | var v =>
    simp only [hd] at h
    by_cases hp : v.persistable = true
    · simp [hp] at h
    · by_cases hl : x.outputs.length ≠ 1
      · simp [hp, hl] at h
      · simp only [hp, hl, if_false] at h
        exact ⟨v, rfl, by simpa using hp, by simpa using hl, h⟩

theorem in_teller_false_of_fanout (g : Graph) (x : Node) (h : x.outputs.length ≠ 1) :
    useless_op_in_teller g x = .ok false := by
  rw [in_teller_eq]
  cases hd : x.desc with
  | op d => rfl
  | var v =>
    by_cases hp : v.persistable = true
    · simp [hp]
    · simp [hp, h]

theorem ApplyImpl_no_match (g : Graph) (h : detect g = .ok []) : ApplyImpl g = .ok (g, 0) := by
  simp [ApplyImpl, h, applyMatches]

/-- C3: a variable `v1` with two or more consumer edges is bound to
`useless_op_in` by no binding that satisfies the pattern and by no match the
detector lists, and when no other node of the graph starts a match the pass
finds nothing, reports 0 and leaves the graph as it was. -/
theorem C3_fanout_guard (g : Graph) (v1 : NodeId) (V1 : Node) (hids : g.ids.Nodup)
    (hV1 : g.find v1 = some V1) (hfan : 2 ≤ V1.outputs.length) :
    (∀ m, IsMatch g m → m.useless_op_in ≠ v1) ∧
    (∀ ms, detect g = .ok ms → ∀ m ∈ ms, m.useless_op_in ≠ v1) ∧
    ((∀ x ∈ g.nodes, x.id ≠ v1 → matchesAt g x = .ok []) →
      detect g = .ok [] ∧ ApplyImpl g = .ok (g, 0)) := by
  have hlen : V1.outputs.length ≠ 1 := by omega
  have huniq : ∀ x ∈ g.nodes, x.id = v1 → x = V1 := by
    intro x hx hid
    have := find_of_mem hids hx
    rw [hid, hV1] at this
    exact (Option.some.inj this).symm
  have hno : ∀ m, IsMatch g m → m.useless_op_in ≠ v1 := by
    intro m hm hmv
    obtain ⟨vin, _, _, hvin, hvid, hteller, _⟩ := hm
    have := huniq vin hvin (hvid.trans hmv)
    subst this
    obtain ⟨_, _, _, hl, _⟩ := in_teller_true g vin hteller
    exact hlen hl
  refine ⟨hno, fun ms hdet m hm => hno m (detect_sound g ms hdet m hm), ?_⟩
  intro honly
  have hall : ∀ x ∈ g.nodes, matchesAt g x = .ok [] := by
    intro x hx
    by_cases hid : x.id = v1
    · rw [huniq x hx hid]
      simp [matchesAt, in_teller_false_of_fanout g V1 hlen]
    · exact honly x hx hid
  have hdet : detect g = .ok [] := detectFrom_nil_of_all g g.nodes hall
  exact ⟨hdet, ApplyImpl_no_match g hdet⟩

/-- The chain whose `v1` has a second consumer: the pass leaves it as it is. -/
theorem C3_fanout_guard_witness :
    (∀ m, IsMatch chainFanOut m → m.useless_op_in ≠ 1) ∧
    (∀ ms, detect chainFanOut = .ok ms → ∀ m ∈ ms, m.useless_op_in ≠ 1) ∧
    detect chainFanOut = .ok [] ∧ ApplyImpl chainFanOut = .ok (chainFanOut, 0) :=
  have h := C3_fanout_guard chainFanOut 1 (mkVar 1 "v1" false [0] [2, 4]) (by decide)
    (by decide) (by decide)
  ⟨h.1, h.2.1, h.2.2 (by decide)⟩

theorem more_desc_false_of_gated (d : OpDesc)
    (h : (d.type = "scale" ∧ d.GetAttrIfExists_float "scale" = f32_two) ∨
      (d.type = "cast" ∧ d.GetAttrIfExists_int "in_dtype" ≠ d.GetAttrIfExists_int "out_dtype") ∨
      (d.type = "concat" ∧ 1 < (d.Input "X").length)) :
    useless_op_more_desc d = .ok false := by
  unfold useless_op_more_desc
  rcases h with ⟨ht, hs⟩ | ⟨ht, hne⟩ | ⟨ht, hl⟩
  · rw [if_pos ht]
    simp only [hs]
    have : f32_eq f32_two f32_one = false := by decide
    simp [this]
  · have h1 : d.type ≠ "scale" := by rw [ht]; decide
    rw [if_neg h1, if_pos ht]
    simp [hne]
  · have h1 : d.type ≠ "scale" := by rw [ht]; decide
    have h2 : d.type ≠ "cast" := by rw [ht]; decide
    have h3 : d.type ≠ "c_identity" := by rw [ht]; decide
    have h4 : d.type ≠ "assign" := by rw [ht]; decide
    rw [if_neg h1, if_neg h2, if_neg h3, if_neg h4, if_pos ht]
    have : (d.Input "X").length ≠ 1 := by omega
    simp [this]

theorem op_teller_false_of_more_false (x : Node) (d : OpDesc) (hx : x.desc = .op d)
    (h : useless_op_more_desc d = .ok false) : useless_op_teller x = .ok false := by
  rw [op_teller_eq]
  simp only [hx]
  split
  · rfl
  · split
    · rfl
    · exact h

/-- C4: the `assert_more` predicate of `useless_op` is false for a scale
operation whose `scale` is 2.0, for a cast operation whose `in_dtype` and
`out_dtype` differ, and for a concat operation whose slot `X` holds more than
one name; the predicates of `useless_op` are false for these and for a concat
operation with more than one input node, and no match binds `useless_op` to
such a node. -/
theorem C4_attribute_gated (x : Node) (d : OpDesc) (hx : x.desc = .op d) :
    (d.type = "scale" → d.GetAttrIfExists_float "scale" = f32_two →
      useless_op_more x = .ok false) ∧
    (d.type = "cast" → d.GetAttrIfExists_int "in_dtype" ≠ d.GetAttrIfExists_int "out_dtype" →
      useless_op_more x = .ok false) ∧
    (d.type = "concat" → 1 < (d.Input "X").length → useless_op_more x = .ok false) ∧
    (((d.type = "scale" ∧ d.GetAttrIfExists_float "scale" = f32_two) ∨
      (d.type = "cast" ∧
        d.GetAttrIfExists_int "in_dtype" ≠ d.GetAttrIfExists_int "out_dtype") ∨
      (d.type = "concat" ∧ (1 < (d.Input "X").length ∨ 1 < x.inputs.length))) →
      useless_op_teller x = .ok false ∧
      ∀ g ms, detect g = .ok ms → ∀ m ∈ ms, g.find m.useless_op ≠ some x) := by
  have hmore : useless_op_more x = useless_op_more_desc d := by simp [useless_op_more, hx]
  refine ⟨fun a b => ?_, fun a b => ?_, fun a b => ?_, fun h => ?_⟩
  · rw [hmore]; exact more_desc_false_of_gated d (Or.inl ⟨a, b⟩)
  · rw [hmore]; exact more_desc_false_of_gated d (Or.inr (Or.inl ⟨a, b⟩))
  · rw [hmore]; exact more_desc_false_of_gated d (Or.inr (Or.inr ⟨a, b⟩))
  · have ht : useless_op_teller x = .ok false := by
      rcases h with h | h | ⟨ht, hl | hl⟩
      · exact op_teller_false_of_more_false x d hx (more_desc_false_of_gated d (Or.inl h))
      · exact op_teller_false_of_more_false x d hx
          (more_desc_false_of_gated d (Or.inr (Or.inl h)))
      · exact op_teller_false_of_more_false x d hx
          (more_desc_false_of_gated d (Or.inr (Or.inr ⟨ht, hl⟩)))
      · have : x.inputs.length ≠ 1 := by omega
        simp [op_teller_eq, hx, this]
    refine ⟨ht, fun g ms hdet m hm hfind => ?_⟩
    obtain ⟨_, op, _, _, _, _, _, hop, hteller, _⟩ := detect_sound g ms hdet m hm
    rw [hfind] at hop
    cases hop
    rw [ht] at hteller
    cases hteller

/-- A scale operation with `scale = 2.0` fails the predicates and is in no match. -/
theorem C4_attribute_gated_witness :
    useless_op_more scaleByTwo = .ok false ∧ useless_op_teller scaleByTwo = .ok false ∧
      ∀ g ms, detect g = .ok ms → ∀ m ∈ ms, g.find m.useless_op ≠ some scaleByTwo :=
  have h := C4_attribute_gated scaleByTwo
    ⟨"scale", [("X", ["v1"])], [("Out", ["v2"])], [("scale", f32_two), ("bias", f32_zero)], []⟩
    rfl
  ⟨h.1 rfl rfl, h.2.2.2 (Or.inl ⟨rfl, rfl⟩)⟩

theorem bipartite_neighbour (g : Graph) (hb : g.bipartite = true) (x : Node) (hx : x ∈ g.nodes)
    (i : NodeId) (hi : i ∈ x.inputs ∨ i ∈ x.outputs) :
    ∃ y, g.find i = some y ∧ y.IsOp = x.IsVar := by
  unfold Graph.bipartite at hb
  rw [List.all_eq_true] at hb
  have h1 := hb x hx
  rw [List.all_eq_true] at h1
  have h2 := h1 i (List.mem_append.2 hi)
  cases hf : g.find i with
  | none => simp [hf] at h2
  | some y => exact ⟨y, rfl, by simpa [hf] using h2⟩

theorem in_more_loop_ok (g : Graph) (l : List NodeId)
    (h : ∀ i ∈ l, ∃ y, g.find i = some y ∧ y.IsOp = true) :
    ∃ b, useless_op_in_more_loop g l = .ok b := by
  induction l with
  | nil => exact ⟨true, rfl⟩
  | cons i rest ih =>
    obtain ⟨y, hy, hop⟩ := h i (List.mem_cons_self _ _)
    cases hd : y.desc with
    | var v => simp [Node.IsOp, hd] at hop
    | op d =>
      simp only [useless_op_in_more_loop, (deref_ok_iff _ _ _).2 hy, hd]
      split
      · exact ⟨false, rfl⟩
      · exact ih (fun j hj => h j (List.mem_cons_of_mem _ hj))

theorem in_teller_ok (g : Graph) (hb : g.bipartite = true) (x : Node) (hx : x ∈ g.nodes) :
    ∃ b, useless_op_in_teller g x = .ok b := by
  rw [in_teller_eq]
  cases hd : x.desc with
  | op d => exact ⟨false, rfl⟩
  | var v =>
    simp only
    split
    · exact ⟨false, rfl⟩
    · split
      · exact ⟨false, rfl⟩
      · apply in_more_loop_ok
        intro i hi
        obtain ⟨y, hy, hop⟩ := bipartite_neighbour g hb x hx i (Or.inl hi)
        exact ⟨y, hy, by simpa [Node.IsVar, hd] using hop⟩

theorem more_desc_false_of_kind (d : OpDesc) (h : d.type ∉ identityLikeKinds) :
    useless_op_more_desc d = .ok false := by
  simp only [identityLikeKinds, List.mem_cons, List.mem_singleton, List.not_mem_nil, or_false,
    not_or] at h
  obtain ⟨h1, h2, h3, h4, h5⟩ := h
  simp [useless_op_more_desc, h1, h2, h3, h4, h5]

theorem op_teller_false_of_kind (x : Node)
    (h : ∀ d, x.desc = .op d → d.type ∉ identityLikeKinds) :
    useless_op_teller x = .ok false := by
  cases hd : x.desc with
  | var v => simp [op_teller_eq, hd]
  | op d => exact op_teller_false_of_more_false x d hd (more_desc_false_of_kind d (h d hd))

theorem bind_op_nil_of_all_false (g : Graph) (vin : NodeId) (l : List NodeId)
    (h : ∀ o ∈ l, ∃ op, g.find o = some op ∧ useless_op_teller op = .ok false) :
    bind_op g vin l = .ok [] := by
  induction l with
  | nil => rfl
  | cons o rest ih =>
    obtain ⟨op, hop, ht⟩ := h o (List.mem_cons_self _ _)
    simp only [bind_op, (deref_ok_iff _ _ _).2 hop, ht]
    exact ih (fun j hj => h j (List.mem_cons_of_mem _ hj))

/-- C5: on a graph with no operation of an identity-like kind the pattern has
no match, and the pass completes, reports 0 and returns the graph as it
was. -/
theorem C5_no_match_idempotence (g : Graph) (hb : g.bipartite = true)
    (hkinds : ∀ x ∈ g.nodes, ∀ d, x.desc = .op d → d.type ∉ identityLikeKinds) :
    detect g = .ok [] ∧ ApplyImpl g = .ok (g, 0) := by
  have hall : ∀ x ∈ g.nodes, matchesAt g x = .ok [] := by
    intro x hx
    obtain ⟨b, hbt⟩ := in_teller_ok g hb x hx
    cases b with
    | false => simp [matchesAt, hbt]
    | true =>
      simp only [matchesAt, hbt]
      apply bind_op_nil_of_all_false
      intro o ho
      obtain ⟨y, hy, _⟩ := bipartite_neighbour g hb x hx o (Or.inr ho)
      exact ⟨y, hy, op_teller_false_of_kind y (hkinds y (find_some_mem hy).1)⟩
  have hdet : detect g = .ok [] := detectFrom_nil_of_all g g.nodes hall
  exact ⟨hdet, ApplyImpl_no_match g hdet⟩

/-- A graph of two `relu` operations: the pass finds nothing and changes nothing. -/
theorem C5_no_match_idempotence_witness :
    detect chainNoIdentity = .ok [] ∧ ApplyImpl chainNoIdentity = .ok (chainNoIdentity, 0) :=
  C5_no_match_idempotence chainNoIdentity (by decide) (fun x hx d hd => by
    simp only [chainNoIdentity, List.mem_cons, List.mem_singleton, List.not_mem_nil,
      or_false] at hx
    rcases hx with rfl | rfl | rfl | rfl <;> simp [mkOp, mkVar] at hd <;> subst hd <;> decide)

theorem contains_iff_mem_name (l : List String) (a : String) : l.contains a = true ↔ a ∈ l := by
  simp

theorem holdsOutput_renamed_new (d : OpDesc) (old new : String)
    (h : holdsOutput d old = true) : holdsOutput (renamedOutputs d old new) new = true := by
  unfold holdsOutput at h ⊢
  rw [List.any_eq_true] at h ⊢
  obtain ⟨s, hs, hold⟩ := h
  rw [contains_iff_mem_name] at hold
  refine ⟨(s.1, renameIn old new s.2), List.mem_map.2 ⟨s, hs, rfl⟩, ?_⟩
  rw [contains_iff_mem_name]
  exact List.mem_map.2 ⟨old, hold, by simp⟩

theorem holdsOutput_renamed_old (d : OpDesc) (old new : String) (hne : old ≠ new) :
    holdsOutput (renamedOutputs d old new) old = false := by
  unfold holdsOutput
  rw [List.any_eq_false]
  intro s' hs'
  obtain ⟨s, _, rfl⟩ := List.mem_map.1 hs'
  rw [contains_iff_mem_name]
  intro hmem
  obtain ⟨n, _, hn⟩ := List.mem_map.1 hmem
  by_cases hno : n = old
  · rw [if_pos hno] at hn
    exact hne hn.symm
  · rw [if_neg hno] at hn
    exact hno hn

theorem symmetric_edge (g : Graph) (hs : g.symmetric = true) (x y : Node) (hx : x ∈ g.nodes)
    (hy : y ∈ g.nodes) : y.id ∈ x.outputs ↔ x.id ∈ y.inputs := by
  unfold Graph.symmetric at hs
  rw [List.all_eq_true] at hs
  have h1 := hs x hx
  rw [List.all_eq_true] at h1
  have h2 := h1 y hy
  simpa using h2

/-- C6: on a match whose nodes are in the graph, with every producer of
`useless_op_in` an operation whose output slots hold its name, the handler
completes and relinks every operation that has `useless_op_in` among its
outputs: the name of `useless_op_in` in its output slots is replaced by the
name of `useless_op_out`, and the edge from the producer to `useless_op_out`
is recorded on both sides. -/
theorem C6_multi_producer_rewiring (g : Graph) (m : Match) (c : Nat) (vin op vout : Node)
    (din dout : VarDesc) (hsym : g.symmetric = true)
    (hin : g.find m.useless_op_in = some vin) (hop : g.find m.useless_op = some op)
    (hout : g.find m.useless_op_out = some vout)
    (hdin : vin.desc = .var din) (hdout : vout.desc = .var dout) (hisop : op.IsOp = true)
    (hopout : op.outputs = [m.useless_op_out])
    (hne : m.useless_op_out ≠ m.useless_op_in)
    (hnd : vin.inputs.Nodup)
    (hprod : ∀ p ∈ vin.inputs, ∃ P d, g.find p = some P ∧ P.desc = .op d ∧
      holdsOutput d din.name = true) :
    ∃ g' vout', handler g m c = .ok (g', c + 1) ∧ g'.find m.useless_op_out = some vout' ∧
      ∀ p P d, g.find p = some P → P.desc = .op d →
        (m.useless_op_in ∈ P.outputs ∨ p ∈ vin.inputs) →
        ∃ P', g'.find p = some P' ∧ P'.desc = .op (renamedOutputs d din.name dout.name) ∧
          holdsOutput (renamedOutputs d din.name dout.name) dout.name = true ∧
          (din.name ≠ dout.name →
            holdsOutput (renamedOutputs d din.name dout.name) din.name = false) ∧
          m.useless_op_out ∈ P'.outputs ∧ p ∈ vout'.inputs := by
  have hvin_mem := find_some_mem hin
  have hop_mem := find_some_mem hop
  have hne2 : m.useless_op_out ≠ m.useless_op := by
    intro e
    rw [e, hop] at hout
    have hov : op = vout := Option.some.inj hout
    rw [hov] at hisop
    simp [Node.IsOp, hdout] at hisop
  obtain ⟨g', hrun, _, _, _, _, hprods, hgout⟩ :=
    handler_spec g m c vin op vout din dout hin hop hout hdin hdout hisop hnd hprod
  refine ⟨g', _, hrun, hgout hne hne2, ?_⟩
  intro p P d hP hPd hedge
  have hP_mem := find_some_mem hP
  have hpin : p ∈ vin.inputs := by
    rcases hedge with h | h
    · have := (symmetric_edge g hsym P vin hP_mem.1 hvin_mem.1).1 (hvin_mem.2 ▸ h)
      rwa [hP_mem.2] at this
    · exact h
  have hp_in : p ≠ m.useless_op_in := by
    rintro rfl
    rw [hin] at hP; cases hP; rw [hdin] at hPd; cases hPd
  have hp_op : p ≠ m.useless_op := by
    intro e
    rw [e, hop] at hP
    have hPop : op = P := Option.some.inj hP
    have h1 := (symmetric_edge g hsym P vin hP_mem.1 hvin_mem.1).2 (hP_mem.2 ▸ hpin)
    rw [← hPop, hopout, hvin_mem.2] at h1
    exact hne (List.mem_singleton.1 h1).symm
  obtain ⟨_, d0, hP0, hPd0, hhold⟩ := hprod p hpin
  rw [hP] at hP0; cases hP0
  rw [hPd] at hPd0; cases hPd0
  refine ⟨_, hprods p hpin hp_in hp_op P d hP hPd, rfl,
    holdsOutput_renamed_new d _ _ hhold, holdsOutput_renamed_old d _ _, ?_, ?_⟩
  · rw [mem_detach_outputs]
    refine ⟨mem_addIfAbsent_self _ _, ?_⟩
    simp [hne, hne2]
  · rw [mem_detach_inputs]
    refine ⟨(mem_addProducers_iff _ _ _).2 (Or.inr hpin), ?_⟩
    simp [hp_in, hp_op]

/-- Two producers of `v1` ahead of a cast with equal dtypes: both are relinked. -/
theorem C6_multi_producer_rewiring_witness :
    ∃ g' vout', handler twoProducers ⟨2, 3, 4⟩ 0 = .ok (g', 0 + 1) ∧ g'.find 4 = some vout' ∧
      ∀ p P d, twoProducers.find p = some P → P.desc = .op d →
        ((2 : NodeId) ∈ P.outputs ∨ p ∈ [0, 1]) →
        ∃ P', g'.find p = some P' ∧ P'.desc = .op (renamedOutputs d "v1" "v2") ∧
          holdsOutput (renamedOutputs d "v1" "v2") "v2" = true ∧
          ("v1" ≠ "v2" → holdsOutput (renamedOutputs d "v1" "v2") "v1" = false) ∧
          (4 : NodeId) ∈ P'.outputs ∧ p ∈ vout'.inputs :=
  C6_multi_producer_rewiring twoProducers ⟨2, 3, 4⟩ 0 (mkVar 2 "v1" false [0, 1] [3])
    (mkOp 3 "cast" [2] [4] [("X", ["v1"])] [("Out", ["v2"])] [] [("in_dtype", 5), ("out_dtype", 5)])
    (mkVar 4 "v2" false [3] []) ⟨"v1", false⟩ ⟨"v2", false⟩
    (by decide) (by decide) (by decide) (by decide) rfl rfl rfl rfl (by decide) (by decide)
    (fun p hp => by
      have hp' : p = 0 ∨ p = 1 := by simpa [mkVar] using hp
      rcases hp' with rfl | rfl
      · exact ⟨mkOp 0 "relu" [] [2] [] [("Out", ["v1"])] [] [],
          ⟨"relu", [], [("Out", ["v1"])], [], []⟩, by decide, rfl, by decide⟩
      · exact ⟨mkOp 1 "tanh" [] [2] [] [("Out", ["v1"])] [] [],
          ⟨"tanh", [], [("Out", ["v1"])], [], []⟩, by decide, rfl, by decide⟩)

theorem op_teller_true (x : Node) (h : useless_op_teller x = .ok true) :
    ∃ d, x.desc = .op d ∧ x.inputs.length = 1 ∧ x.outputs.length = 1 ∧
      useless_op_more_desc d = .ok true := by
  rw [op_teller_eq] at h
  cases hd : x.desc with
  | var v => simp [hd] at h
  | op d =>
    simp only [hd] at h
    by_cases h1 : x.inputs.length ≠ 1
    · simp [h1] at h
    · by_cases h2 : x.outputs.length ≠ 1
      · simp [h1, h2] at h
      · simp only [h1, h2, if_false] at h
        exact ⟨d, rfl, by simpa using h1, by simpa using h2, h⟩

theorem eq_singleton_of_mem {l : List NodeId} {a : NodeId} (hl : l.length = 1) (ha : a ∈ l) :
    l = [a] := by
  obtain ⟨b, rfl⟩ := List.length_eq_one.1 hl
  rw [List.mem_singleton.1 ha]

/-- C9: in a graph with unique node identifiers whose edges are recorded on
both sides, every match binds `useless_op_in` to a variable whose one consumer
is `useless_op`, `useless_op` to an operation whose one input is
`useless_op_in` and whose one output is `useless_op_out`, and `useless_op_out`
to a variable. -/
theorem C9_match_shape (g : Graph) (ms : List Match) (m : Match) (hids : g.ids.Nodup)
    (hsym : g.symmetric = true) (hdet : detect g = .ok ms) (hm : m ∈ ms) :
    ∃ vin op vout, g.find m.useless_op_in = some vin ∧ g.find m.useless_op = some op ∧
      g.find m.useless_op_out = some vout ∧
      vin.IsVar = true ∧ vin.outputs = [m.useless_op] ∧
      op.IsOp = true ∧ op.inputs = [m.useless_op_in] ∧ op.outputs = [m.useless_op_out] ∧
      vout.IsVar = true := by
  obtain ⟨vin, op, vout, hvin, hvid, hvt, hopmem, hop, hopt, houtmem, hout, hvoutv, _⟩ :=
    detect_sound g ms hdet m hm
  obtain ⟨v, hvd, _, hvl, _⟩ := in_teller_true g vin hvt
  obtain ⟨d, hod, hil, hol, _⟩ := op_teller_true op hopt
  have hop_mem := find_some_mem hop
  have hedge : vin.id ∈ op.inputs :=
    (symmetric_edge g hsym vin op hvin hop_mem.1).1 (hop_mem.2 ▸ hopmem)
  refine ⟨vin, op, vout, hvid ▸ find_of_mem hids hvin, hop, hout, ?_,
    eq_singleton_of_mem hvl hopmem, ?_, ?_, eq_singleton_of_mem hol houtmem, hvoutv⟩
  · simp [Node.IsVar, hvd]
  · simp [Node.IsOp, hod]
  · exact eq_singleton_of_mem hil (hvid ▸ hedge)

/-- The shape of the one match of `relu -> v1 -> scale -> v2`. -/
theorem C9_match_shape_witness :
    ∃ vin op vout, chainScale.find 1 = some vin ∧ chainScale.find 2 = some op ∧
      chainScale.find 3 = some vout ∧
      vin.IsVar = true ∧ vin.outputs = [2] ∧
      op.IsOp = true ∧ op.inputs = [1] ∧ op.outputs = [3] ∧
      vout.IsVar = true :=
  C9_match_shape chainScale [⟨1, 2, 3⟩] ⟨1, 2, 3⟩ (by decide) (by decide) (by decide)
    (by decide)

theorem grownTo_refl (n : Node) : n.grownTo n :=
  ⟨rfl, fun _ h => h, fun _ h => h, rfl, fun _ => rfl⟩

theorem grownTo_trans {a b c : Node} (h1 : a.grownTo b) (h2 : b.grownTo c) : a.grownTo c := by
  obtain ⟨i1, a1, b1, v1, d1⟩ := h1
  obtain ⟨i2, a2, b2, v2, d2⟩ := h2
  refine ⟨i2.trans i1, fun _ h => a2 (a1 h), fun _ h => b2 (b1 h), v2.trans v1, fun hv => ?_⟩
  rw [d2 (v1.trans hv), d1 hv]

theorem subset_addIfAbsent (i : NodeId) (l : List NodeId) : l ⊆ addIfAbsent i l :=
  fun _ h => mem_addIfAbsent_of_mem h

theorem find_update_grows (g : Graph) (a : NodeId) (f : Node → Node)
    (hf : ∀ n, g.find a = some n → n.grownTo (f n)) (hfid : ∀ n, (f n).id = n.id) :
    ∀ i n, g.find i = some n → ∃ n', (g.update a f).find i = some n' ∧ n.grownTo n' := by
  intro i n hn
  rw [find_update g a i f hfid, hn]
  refine ⟨_, rfl, ?_⟩
  show n.grownTo (if n.id = a then f n else n)
  by_cases h : n.id = a
  · rw [if_pos h]
    apply hf
    rw [← h, (find_some_mem hn).2]
    exact hn
  · rw [if_neg h]
    exact grownTo_refl n

/-- One round of the loop over the producers keeps every node of the graph,
with edges added only, and links the producer to `useless_op_out`. -/
theorem relink_step_grows (g : Graph) (p o : NodeId) (P : Node) (d d' : OpDesc)
    (hP : g.find p = some P) (hPd : P.desc = .op d) :
    (∀ i n, g.find i = some n →
      ∃ n', (IR_NODE_LINK_TO (g.update p (fun n => { n with desc := .op d' })) p o).find i
          = some n' ∧ n.grownTo n') ∧
    ∃ P', (IR_NODE_LINK_TO (g.update p (fun n => { n with desc := .op d' })) p o).find p
        = some P' ∧ o ∈ P'.outputs := by
  have h0 := find_update_grows g p (fun n => { n with desc := .op d' })
    (fun n hn => by
      rw [hP] at hn
      have hnP : P = n := Option.some.inj hn
      subst hnP
      exact ⟨rfl, fun _ h => h, fun _ h => h, by simp [Node.IsVar, hPd],
        fun hv => by simp [Node.IsVar, hPd] at hv⟩)
    (fun _ => rfl)
  have h1 := find_update_grows (g.update p (fun n => { n with desc := .op d' })) p
    (fun n => { n with outputs := addIfAbsent o n.outputs })
    (fun n _ => ⟨rfl, fun _ h => h, subset_addIfAbsent _ _, rfl, fun _ => rfl⟩) (fun _ => rfl)
  have h2 := find_update_grows
    ((g.update p (fun n => { n with desc := .op d' })).update p
      (fun n => { n with outputs := addIfAbsent o n.outputs })) o
    (fun n => { n with inputs := addIfAbsent p n.inputs })
    (fun n _ => ⟨rfl, subset_addIfAbsent _ _, fun _ h => h, rfl, fun _ => rfl⟩) (fun _ => rfl)
  constructor
  · intro i n hn
    obtain ⟨n0, hn0, hg0⟩ := h0 i n hn
    obtain ⟨n1, hn1, hg1⟩ := h1 i n0 hn0
    obtain ⟨n2, hn2, hg2⟩ := h2 i n1 hn1
    exact ⟨n2, hn2, grownTo_trans hg0 (grownTo_trans hg1 hg2)⟩
  · obtain ⟨n0, hn0, _⟩ := h0 p P hP
    have hmid : ((g.update p (fun n => { n with desc := .op d' })).update p
        (fun n => { n with outputs := addIfAbsent o n.outputs })).find p
        = some { n0 with outputs := addIfAbsent o n0.outputs } := by
      rw [find_update_eq, hn0]
      · rfl
      · intro _; rfl
    obtain ⟨n2, hn2, hg2⟩ := h2 p _ hmid
    exact ⟨n2, hn2, hg2.2.2.1 (mem_addIfAbsent_self _ _)⟩

/-- The loop over the producers keeps every node of the graph, with edges added
only, and leaves every producer linked to `useless_op_out`. -/
theorem relinkProducers_grows (in_name out_name : String) (o : NodeId) (ps : List NodeId) :
    ∀ g g1 : Graph, relinkProducers g in_name out_name o ps = .ok g1 →
      (∀ i n, g.find i = some n → ∃ n', g1.find i = some n' ∧ n.grownTo n') ∧
      (∀ p ∈ ps, ∃ P', g1.find p = some P' ∧ o ∈ P'.outputs) := by
  induction ps with
  | nil =>
    intro g g1 h
    simp only [relinkProducers, Except.ok.injEq] at h
    subst h
    exact ⟨fun i n hn => ⟨n, hn, grownTo_refl n⟩, fun p hp => absurd hp (List.not_mem_nil p)⟩
  | cons p rest ih =>
    intro g g1 h
    simp only [relinkProducers] at h
    cases hd : g.deref p with
    | error e => simp [hd] at h
    | ok P =>
      simp only [hd] at h
      cases hPd : P.desc with
      | var v => simp [hPd] at h
      | op d =>
        simp only [hPd] at h
        cases hr : d.RenameOutput in_name out_name with
        | error e => simp [hr] at h
        | ok d' =>
          simp only [hr] at h
          have hP := (deref_ok_iff _ _ _).1 hd
          obtain ⟨hstep, P1, hP1, hoP1⟩ := relink_step_grows g p o P d d' hP hPd
          obtain ⟨hrest, hlinks⟩ := ih _ g1 h
          constructor
          · intro i n hn
            obtain ⟨n1, hn1, hg1⟩ := hstep i n hn
            obtain ⟨n2, hn2, hg2⟩ := hrest i n1 hn1
            exact ⟨n2, hn2, grownTo_trans hg1 hg2⟩
          · intro q hq
            rcases List.mem_cons.1 hq with rfl | hq'
            · obtain ⟨P2, hP2, hg⟩ := hrest q P1 hP1
              exact ⟨P2, hP2, hg.2.2.1 hoP1⟩
            · exact hlinks q hq'

theorem handler_keeps_var (g : Graph) (m : Match) (c : Nat) (g' : Graph) (c' : Nat)
    (h : handler g m c = .ok (g', c')) (i : NodeId) (x : Node) (hx : g.find i = some x)
    (hv : x.IsVar = true) (h1 : i ≠ m.useless_op_in) (h2 : i ≠ m.useless_op) :
    ∃ x', g'.find i = some x' ∧ x'.IsVar = true ∧ x'.desc = x.desc := by
  obtain ⟨_, _, _, _, _, g1, _, _, _, _, _, hrun, rfl⟩ := handler_ok_inv g m c g' c' h
  obtain ⟨x1, hx1, hg⟩ := (relinkProducers_grows _ _ _ _ g g1 hrun).1 i x hx
  refine ⟨detach [m.useless_op_in, m.useless_op] x1, ?_, ?_, ?_⟩
  · rw [find_removeNodes, hx1]
    simp [h1, h2]
  · show x1.IsVar = true
    rw [hg.2.2.2.1, hv]
  · exact hg.2.2.2.2 hv

theorem applyMatches_keeps_var (ms : List Match) :
    ∀ (g : Graph) (c : Nat) (g' : Graph) (c' : Nat), applyMatches g c ms = .ok (g', c') →
      ∀ (i : NodeId) (x : Node), g.find i = some x → x.IsVar = true →
      (∀ m ∈ ms, i ≠ m.useless_op_in ∧ i ≠ m.useless_op) →
      ∃ x', g'.find i = some x' ∧ x'.IsVar = true ∧ x'.desc = x.desc := by
  induction ms with
  | nil =>
    intro g c g' c' h i x hx hv _
    simp only [applyMatches, Except.ok.injEq, Prod.mk.injEq] at h
    rw [← h.1]
    exact ⟨x, hx, hv, rfl⟩
  | cons m rest ih =>
    intro g c g' c' h i x hx hv hne
    simp only [applyMatches] at h
    cases hh : handler g m c with
    | error e => simp [hh] at h
    | ok r =>
      obtain ⟨g1, c1⟩ := r
      simp only [hh] at h
      obtain ⟨h1, h2⟩ := hne m (List.mem_cons_self _ _)
      obtain ⟨x1, hx1, hv1, hd1⟩ := handler_keeps_var g m c g1 c1 hh i x hx hv h1 h2
      obtain ⟨x2, hx2, hv2, hd2⟩ :=
        ih g1 c1 g' c' h i x1 hx1 hv1 (fun m' hm' => hne m' (List.mem_cons_of_mem _ hm'))
      exact ⟨x2, hx2, hv2, hd2.trans hd1⟩

/-- C10: no match binds `useless_op_in` to a persistent variable, and every
persistent variable of the graph is still in the graph, with the same
description, after a run of the pass. -/
theorem C10_persistence_guard (g : Graph) (hids : g.ids.Nodup) :
    (∀ ms, detect g = .ok ms → ∀ m ∈ ms, ∀ x v, g.find m.useless_op_in = some x →
      x.desc = .var v → v.persistable = false) ∧
    (∀ g' n, ApplyImpl g = .ok (g', n) → ∀ x ∈ g.nodes, ∀ v, x.desc = .var v →
      v.persistable = true → ∃ x', g'.find x.id = some x' ∧ x'.desc = x.desc) := by
  have hpart : ∀ ms, detect g = .ok ms → ∀ m ∈ ms, ∀ x v, g.find m.useless_op_in = some x →
      x.desc = .var v → v.persistable = false := by
    intro ms hdet m hm x v hx hxd
    obtain ⟨vin, _, _, hvin, hvid, hvt, _⟩ := detect_sound g ms hdet m hm
    have h1 := find_of_mem hids hvin
    rw [hvid, hx] at h1
    have hxv : x = vin := Option.some.inj h1
    subst hxv
    obtain ⟨v', hvd, hp, _⟩ := in_teller_true g x hvt
    rw [hxd] at hvd
    cases hvd
    exact hp
  refine ⟨hpart, ?_⟩
  intro g' n hrun x hx v hxd hpers
  unfold ApplyImpl at hrun
  cases hdet : detect g with
  | error e => simp [hdet] at hrun
  | ok ms =>
    simp only [hdet] at hrun
    have hfx := find_of_mem hids hx
    have hxv : x.IsVar = true := by simp [Node.IsVar, hxd]
    obtain ⟨x', hx', _, hd'⟩ := applyMatches_keeps_var ms g 0 g' n hrun x.id x hfx hxv (by
      intro m hm
      constructor
      · intro e
        have := hpart ms hdet m hm x v (e ▸ hfx) hxd
        rw [hpers] at this
        cases this
      · intro e
        obtain ⟨_, op, _, _, _, _, _, hop, hopt, _⟩ := detect_sound g ms hdet m hm
        rw [← e, hfx] at hop
        have hxo : x = op := Option.some.inj hop
        subst hxo
        obtain ⟨d, hd, _⟩ := op_teller_true x hopt
        rw [hxd] at hd
        cases hd)
    exact ⟨x', hx', hd'⟩

/-- A scale operation fed by a persistent variable: the variable stays. -/
theorem C10_persistence_guard_witness :
    (∀ ms, detect chainPersistent = .ok ms → ∀ m ∈ ms, ∀ x v,
      chainPersistent.find m.useless_op_in = some x →
      x.desc = .var v → v.persistable = false) ∧
    (∀ g' n, ApplyImpl chainPersistent = .ok (g', n) → ∀ x ∈ chainPersistent.nodes, ∀ v,
      x.desc = .var v → v.persistable = true → ∃ x', g'.find x.id = some x' ∧ x'.desc = x.desc) :=
  C10_persistence_guard chainPersistent (by decide)

theorem handler_count_free (g : Graph) (m : Match) (c : Nat) (g' : Graph) (c' : Nat)
    (h : handler g m c = .ok (g', c')) (k : Nat) : handler g m k = .ok (g', k + 1) := by
  obtain ⟨_, vin, din, vout, dout, g1, hvin, hdin, hvout, hdout, ⟨op, hop, hisop⟩, hrun, rfl⟩ :=
    handler_ok_inv g m c g' c' h
  obtain ⟨dop, hdop⟩ : ∃ dop, op.desc = .op dop := by
    cases hd : op.desc with
    | op d => exact ⟨d, rfl⟩
    | var d => simp [Node.IsOp, hd] at hisop
  unfold handler
  simp only [(deref_ok_iff _ _ _).2 hvin, (deref_ok_iff _ _ _).2 hop, (deref_ok_iff _ _ _).2 hvout,
    hdin, hdout, hdop, hrun, GraphSafeRemoveNodes_ok]

/-- Whenever the handler completes on a match whose `useless_op_out` is
neither its `useless_op_in` nor its `useless_op`, it has performed the
rewrite. -/
theorem handler_rewrote (g : Graph) (m : Match) (c : Nat) (g' : Graph) (c' : Nat)
    (h : handler g m c = .ok (g', c')) (h1 : m.useless_op_out ≠ m.useless_op_in)
    (h2 : m.useless_op_out ≠ m.useless_op) : rewrote g m g' = true := by
  obtain ⟨_, hgin, hgop⟩ := handler_removes g m c g' c' h
  obtain ⟨_, vin, din, vout, dout, g1, hvin, hdin, hvout, hdout, ⟨op, hop, hisop⟩, hrun, rfl⟩ :=
    handler_ok_inv g m c g' c' h
  obtain ⟨_, hlinks⟩ := relinkProducers_grows _ _ _ _ g g1 hrun
  unfold rewrote
  simp only [hop, hgin, hgop, hvin, Option.isSome_some, Option.isNone_none, Bool.and_self,
    Bool.true_and, List.all_eq_true]
  intro p hp
  by_cases hp1 : p = m.useless_op_in
  · simp [hp1]
  · by_cases hp2 : p = m.useless_op
    · simp [hp2]
    · obtain ⟨P1, hP1, hoP1⟩ := hlinks p hp
      rw [find_removeNodes, hP1]
      simp [hp1, hp2, mem_detach_outputs, hoP1, h1, h2]

theorem applyMatches_count (ms : List Match) :
    ∀ (g : Graph) (c : Nat) (g' : Graph) (n : Nat), applyMatches g c ms = .ok (g', n) →
      (∀ m ∈ ms, m.useless_op_out ≠ m.useless_op_in ∧ m.useless_op_out ≠ m.useless_op) →
      n = c + countRewrites g ms ∧ n = c + ms.length := by
  induction ms with
  | nil =>
    intro g c g' n h _
    simp only [applyMatches, Except.ok.injEq, Prod.mk.injEq] at h
    simp [countRewrites, h.2]
  | cons m rest ih =>
    intro g c g' n h hne
    simp only [applyMatches] at h
    cases hh : handler g m c with
    | error e => simp [hh] at h
    | ok r =>
      obtain ⟨g1, c1⟩ := r
      simp only [hh] at h
      obtain ⟨h1, h2⟩ := hne m (List.mem_cons_self _ _)
      have hc1 := (handler_removes g m c g1 c1 hh).1
      have hrw := handler_rewrote g m c g1 c1 hh h1 h2
      obtain ⟨ha, hb⟩ := ih g1 c1 g' n h (fun m' hm' => hne m' (List.mem_cons_of_mem _ hm'))
      simp only [countRewrites, handler_count_free g m c g1 c1 hh 0, hrw, if_true,
        List.length_cons]
      omega

/-- C8: the count that `ApplyImpl` reports is the number of matches of the
list at which the handler, applied once to each match in list order, performed
the rewrite; it is the length of the match list. -/
theorem C8_rewrite_count (g : Graph) (ms : List Match) (g' : Graph) (n : Nat)
    (hdet : detect g = .ok ms) (hrun : ApplyImpl g = .ok (g', n)) :
    n = countRewrites g ms ∧ n = ms.length := by
  unfold ApplyImpl at hrun
  simp only [hdet] at hrun
  have := applyMatches_count ms g 0 g' n hrun (fun m hm => by
    obtain ⟨_, _, _, _, _, _, _, _, _, _, _, _, h1, h2, _⟩ := detect_sound g ms hdet m hm
    exact ⟨h1, h2⟩)
  simpa using this

/-- Two scale operations in series: the pass reports the two rewrites it performs. -/
theorem C8_rewrite_count_witness :
    2 = countRewrites chainTwoScales [⟨1, 2, 3⟩, ⟨3, 4, 5⟩] ∧
      2 = [(⟨1, 2, 3⟩ : Match), ⟨3, 4, 5⟩].length :=
  C8_rewrite_count chainTwoScales [⟨1, 2, 3⟩, ⟨3, 4, 5⟩]
    ⟨[mkOp 0 "relu" [] [5] [] [("Out", ["v3"])] [] [], mkVar 5 "v3" false [0] []]⟩ 2
    (by decide) (by decide)

theorem relinkProducers_ids (in_name out_name : String) (o : NodeId) (ps : List NodeId) :
    ∀ g g1 : Graph, relinkProducers g in_name out_name o ps = .ok g1 → g1.ids = g.ids := by
  induction ps with
  | nil =>
    intro g g1 h
    simp only [relinkProducers, Except.ok.injEq] at h
    rw [h]
  | cons p rest ih =>
    intro g g1 h
    simp only [relinkProducers] at h
    cases hd : g.deref p with
    | error e => simp [hd] at h
    | ok P =>
      simp only [hd] at h
      cases hPd : P.desc with
      | var v => simp [hPd] at h
      | op d =>
        simp only [hPd] at h
        cases hr : d.RenameOutput in_name out_name with
        | error e => simp [hr] at h
        | ok d' =>
          simp only [hr] at h
          rw [ih _ g1 h, ids_link, ids_update]
          intro _; rfl

theorem mem_ids_of_find {g : Graph} {i : NodeId} {n : Node} (h : g.find i = some n) :
    i ∈ g.ids := by
  obtain ⟨hm, hid⟩ := find_some_mem h
  exact hid ▸ List.mem_map_of_mem Node.id hm

theorem handler_ids (g : Graph) (m : Match) (c : Nat) (g' : Graph) (c' : Nat)
    (h : handler g m c = .ok (g', c')) :
    g'.ids = g.ids.filter (fun i => !([m.useless_op_in, m.useless_op]).contains i) ∧
    m.useless_op_in ∈ g.ids ∧ m.useless_op ∈ g.ids ∧ m.useless_op_in ≠ m.useless_op := by
  obtain ⟨_, vin, din, _, _, g1, hvin, hdin, _, _, ⟨op, hop, hisop⟩, hrun, rfl⟩ :=
    handler_ok_inv g m c g' c' h
  refine ⟨?_, mem_ids_of_find hvin, mem_ids_of_find hop, ?_⟩
  · rw [ids_removeNodes, relinkProducers_ids _ _ _ _ g g1 hrun]
  · intro e
    rw [e, hop] at hvin
    have : op = vin := Option.some.inj hvin
    rw [this] at hisop
    simp [Node.IsOp, hdin] at hisop

theorem find_eq_none_iff (g : Graph) (i : NodeId) : g.find i = none ↔ i ∉ g.ids := by
  unfold Graph.find Graph.ids
  rw [List.find?_eq_none]
  constructor
  · intro h hmem
    obtain ⟨n, hn, hid⟩ := List.mem_map.1 hmem
    exact h n hn (by simp [hid])
  · intro h n hn hid
    exact h (List.mem_map.2 ⟨n, hn, by simpa using hid⟩)

theorem handler_absent (g : Graph) (m : Match) (c : Nat) (g' : Graph) (c' : Nat)
    (h : handler g m c = .ok (g', c')) (x : NodeId) (hx : g.find x = none) :
    g'.find x = none := by
  rw [find_eq_none_iff] at hx ⊢
  rw [(handler_ids g m c g' c' h).1]
  exact fun hmem => hx (List.mem_filter.1 hmem).1

theorem tag_ne (g : Graph) {a b : NodeId} {A B : Node} {dA : OpDesc} {dB : VarDesc}
    (hA : g.find a = some A) (hB : g.find b = some B) (hAd : A.desc = .op dA)
    (hBd : B.desc = .var dB) : a ≠ b := by
  intro e
  rw [e, hB] at hA
  have : B = A := Option.some.inj hA
  rw [this, hAd] at hBd
  cases hBd

theorem detach_eq_self (rm : List NodeId) (n : Node) (hi : ∀ i ∈ n.inputs, i ∉ rm)
    (ho : ∀ i ∈ n.outputs, i ∉ rm) : detach rm n = n := by
  unfold detach
  have h1 : n.inputs.filter (fun i => !rm.contains i) = n.inputs :=
    List.filter_eq_self.2 (fun i hi' => by simpa using hi i hi')
  have h2 : n.outputs.filter (fun i => !rm.contains i) = n.outputs :=
    List.filter_eq_self.2 (fun i ho' => by simpa using ho i ho')
  rw [h1, h2]

/-- The producer list of `useless_op_out` after the rewrite, when
`useless_op_in` has the one producer `p` and `useless_op_out` the one producer
`useless_op`. -/
theorem single_producer_inputs (p vin op : NodeId) (hpv : p ≠ vin) (hpo : p ≠ op) :
    (addProducers [p] [op]).filter (fun i => !([vin, op]).contains i) = [p] := by
  have h1 : ¬ p = op := hpo
  have h2 : ¬ p = vin := hpv
  simp [addProducers, addIfAbsent, List.filter_cons, h1, h2]

theorem f32_eq_one_iff (a : Nat) : f32_eq a f32_one = true ↔ a = f32_one := by
  constructor
  · intro h
    simp only [f32_eq, Bool.and_eq_true, Bool.or_eq_true, beq_iff_eq] at h
    rcases h.2 with h1 | h1
    · exact h1
    · exact absurd h1.2 (by decide)
  · intro h
    rw [h]
    decide

theorem f32_eq_zero_iff (a : Nat) : f32_eq a f32_zero = true ↔ a % 2 ^ 31 = 0 := by
  constructor
  · intro h
    simp only [f32_eq, Bool.and_eq_true, Bool.or_eq_true, beq_iff_eq] at h
    rcases h.2 with h1 | h1
    · rw [h1]; rfl
    · exact h1.1
  · intro h
    have h23 : a % 2 ^ 23 = 0 := by omega
    have hz : f32_isNaN f32_zero = false := by decide
    simp only [f32_eq, f32_isNaN, hz, f32_zero, Bool.and_eq_true, Bool.not_eq_true',
      Bool.and_eq_false_imp, Bool.or_eq_true, beq_iff_eq, bne_iff_ne, ne_eq, beq_eq_false_iff_ne]
    norm_num
    omega

/-- C17: the `assert_more` predicate of `useless_op` returns true exactly for a
scale operation with `scale == 1.f` and `bias == 0.f`, a cast operation with
equal `in_dtype` and `out_dtype`, a `c_identity` operation, an assign operation
whose first name of slot `X` is the first name of slot `Out`, and a concat
operation whose slot `X` holds one name; an absent attribute reads as 0; for
every other kind the predicate returns false. -/
theorem C17_op_predicate_exact (x : Node) (d : OpDesc) (hx : x.desc = .op d) :
    (useless_op_more x = .ok true ↔
      (d.type = "scale" ∧ f32_eq (d.GetAttrIfExists_float "scale") f32_one = true ∧
        f32_eq (d.GetAttrIfExists_float "bias") f32_zero = true) ∨
      (d.type = "cast" ∧ d.GetAttrIfExists_int "in_dtype" = d.GetAttrIfExists_int "out_dtype") ∨
      d.type = "c_identity" ∨
      (d.type = "assign" ∧
        ∃ name, first (d.Input "X") = .ok name ∧ first (d.Output "Out") = .ok name) ∨
      (d.type = "concat" ∧ (d.Input "X").length = 1)) ∧
    (d.type ∉ identityLikeKinds → useless_op_more x = .ok false) ∧
    (∀ name, lookup name d.fattrs = none → d.GetAttrIfExists_float name = f32_zero) ∧
    (∀ name, lookup name d.iattrs = none → d.GetAttrIfExists_int name = 0) := by
  have hmore : useless_op_more x = useless_op_more_desc d := by simp [useless_op_more, hx]
  refine ⟨?_, fun h => hmore ▸ more_desc_false_of_kind d h, ?_, ?_⟩
  · rw [hmore]
    unfold useless_op_more_desc
    by_cases h1 : d.type = "scale"
    · simp [h1, and_comm]
    · by_cases h2 : d.type = "cast"
      · simp [h2]
      · by_cases h3 : d.type = "c_identity"
        · simp [h3]
        · by_cases h4 : d.type = "assign"
          · have h5 : ¬ d.type = "concat" := by rw [h4]; decide
            rw [if_neg h1, if_neg h2, if_neg h3, if_pos h4]
            cases hX : first (d.Input "X") with
            | error e => simp [h1, h2, h3, h5]
            | ok a =>
              cases hO : first (d.Output "Out") with
              | error e => simp [h1, h2, h3, h5]
              | ok b =>
                simp only [Except.ok.injEq, decide_eq_true_eq]
                constructor
                · intro hab
                  right; right; right; left
                  exact ⟨h4, a, rfl, by rw [hab]⟩
                · rintro (h | h | h | h | h)
                  · exact absurd h.1 h1
                  · exact absurd h.1 h2
                  · exact absurd h h3
                  · obtain ⟨_, n, hn1, hn2⟩ := h
                    cases hn1
                    cases hn2
                    rfl
                  · rw [h4] at h
                    exact absurd h.1 (by decide)
          · by_cases h5 : d.type = "concat"
            · simp [h5]
            · simp [h1, h2, h3, h4, h5]
  · intro name h
    simp [OpDesc.GetAttrIfExists_float, h, f32_zero]
  · intro name h
    simp [OpDesc.GetAttrIfExists_int, h]

/-- An assign operation with the same name on both sides passes the predicate,
a scale operation with `scale = 2.0` does not. -/
theorem C17_op_predicate_exact_witness :
    useless_op_more assignSame = .ok true ∧ useless_op_more scaleByTwo ≠ .ok true :=
  ⟨(C17_op_predicate_exact assignSame ⟨"assign", [("X", ["v"])], [("Out", ["v"])], [], []⟩
      rfl).1.2 (Or.inr (Or.inr (Or.inr (Or.inl ⟨rfl, "v", rfl, rfl⟩)))),
    by decide⟩

/-- C19: on a match whose `useless_op_in` has no producer the `assert_more`
predicate of `useless_op_in` is true and the pattern matches; the handler
relinks nothing, removes `useless_op_in` and `useless_op` and counts the
rewrite; every other node only loses its edges to the two removed nodes, and a
`useless_op_out` whose one producer was `useless_op` has no producer left. -/
theorem C19_producerless_input (g : Graph) (m : Match) (c : Nat) (vin op vout : Node)
    (din dout : VarDesc)
    (hin : g.find m.useless_op_in = some vin) (hop : g.find m.useless_op = some op)
    (hout : g.find m.useless_op_out = some vout)
    (hdin : vin.desc = .var din) (hdout : vout.desc = .var dout) (hisop : op.IsOp = true)
    (hnoprod : vin.inputs = []) :
    useless_op_in_more g vin = .ok true ∧
    (din.persistable = false → vin.outputs = [m.useless_op] →
      useless_op_teller op = .ok true → op.outputs = [m.useless_op_out] →
      m.useless_op_out ≠ m.useless_op_in → matchesAt g vin = .ok [m]) ∧
    handler g m c = .ok (removeNodes g [m.useless_op_in, m.useless_op], c + 1) ∧
    (removeNodes g [m.useless_op_in, m.useless_op]).find m.useless_op_in = none ∧
    (removeNodes g [m.useless_op_in, m.useless_op]).find m.useless_op = none ∧
    (∀ x, x ≠ m.useless_op_in → x ≠ m.useless_op →
      (removeNodes g [m.useless_op_in, m.useless_op]).find x =
        (g.find x).map (detach [m.useless_op_in, m.useless_op])) ∧
    (vout.inputs = [m.useless_op] → m.useless_op_out ≠ m.useless_op_in →
      ∃ V', (removeNodes g [m.useless_op_in, m.useless_op]).find m.useless_op_out = some V' ∧
        V'.inputs = [] ∧ V'.outputs = vout.outputs.filter
          (fun i => !([m.useless_op_in, m.useless_op]).contains i)) := by
  obtain ⟨dop, hdop⟩ : ∃ dop, op.desc = .op dop := by
    cases hd : op.desc with
    | op d => exact ⟨d, rfl⟩
    | var d => simp [Node.IsOp, hd] at hisop
  have hopin : m.useless_op ≠ m.useless_op_in := tag_ne g hop hin hdop hdin
  have hopout : m.useless_op_out ≠ m.useless_op := (tag_ne g hop hout hdop hdout).symm
  have hmore : useless_op_in_more g vin = .ok true := by
    simp [useless_op_in_more, hnoprod, useless_op_in_more_loop]
  refine ⟨hmore, ?_, ?_, ?_, ?_, ?_, ?_⟩
  · intro hpers hvout hteller hopouts hne
    have hteller_in : useless_op_in_teller g vin = .ok true := by
      rw [in_teller_eq]
      simp [hdin, hpers, hvout, hmore]
    have hvoutvar : vout.IsVar = true := by simp [Node.IsVar, hdout]
    exact matchesAt_chain g m.useless_op_in m.useless_op m.useless_op_out vin op vout
      (find_some_mem hin).2 hteller_in hvout hop hteller hopouts hout hvoutvar hopin hne hopout
  · unfold handler
    simp only [(deref_ok_iff _ _ _).2 hin, (deref_ok_iff _ _ _).2 hop, (deref_ok_iff _ _ _).2 hout,
      hdin, hdout, hdop, hnoprod, relinkProducers, GraphSafeRemoveNodes_ok]
  · rw [find_removeNodes]; simp
  · rw [find_removeNodes]; simp
  · intro x h1 h2
    rw [find_removeNodes]
    simp [h1, h2]
  · intro hvin hne
    refine ⟨detach [m.useless_op_in, m.useless_op] vout, ?_, ?_, rfl⟩
    · rw [find_removeNodes, hout]
      simp [hne, hopout]
    · show vout.inputs.filter _ = []
      rw [hvin]
      simp

/-- The scale operation fed by a variable without producer is matched and
removed, and `v2` is left without producer. -/
theorem C19_producerless_input_witness :
    matchesAt chainSource (mkVar 1 "v1" false [] [2]) = .ok [⟨1, 2, 3⟩] ∧
    handler chainSource ⟨1, 2, 3⟩ 0 = .ok (removeNodes chainSource [1, 2], 0 + 1) ∧
    ∃ V', (removeNodes chainSource [1, 2]).find 3 = some V' ∧ V'.inputs = [] ∧
      V'.outputs = ([] : List NodeId).filter (fun i => !([1, 2] : List NodeId).contains i) :=
  have h := C19_producerless_input chainSource ⟨1, 2, 3⟩ 0 (mkVar 1 "v1" false [] [2])
    (scaleOp 2 1 3 "v1" "v2") (mkVar 3 "v2" false [2] []) ⟨"v1", false⟩ ⟨"v2", false⟩
    (by decide) (by decide) (by decide) rfl rfl rfl rfl
  ⟨h.2.1 rfl rfl (by decide) rfl (by decide), h.2.2.1, h.2.2.2.2.2.2 rfl (by decide)⟩

theorem test_subview_passes (arr : Nat) : test_subview arr = true := by
  simp [test_subview, subviewChecks, spanOfArr, Span.first_static, Span.last_static,
    Span.subspan_static, Span.first, Span.last, Span.subspan, Span.begin_, Span.end_,
    dynamic_extent]

/-- C14: for a span `s` of a size in the range of `std::size_t` and
`offset + count <= s.size()`, `s.subspan<offset, count>()` and
`s.subspan(offset, count)` are views of `count` elements whose `data()` and
`begin()` are `s.data() + offset` and whose `end()` is
`s.data() + offset + count`; the element `i` of the view is the element
`offset + i` of `s`. -/
theorem C14_subspan (s : Span) (offset count : Nat) (hsize : s.size ≤ dynamic_extent)
    (h : offset + count ≤ s.size) :
    ∃ r r', s.subspan_static offset count = some r ∧ s.subspan offset count = some r' ∧
      r.size = count ∧ r.data = s.data + offset ∧ r.begin_ = s.data + offset ∧
      r.end_ = s.data + offset + count ∧
      r'.size = count ∧ r'.data = s.data + offset ∧ r'.begin_ = s.data + offset ∧
      r'.end_ = s.data + offset + count ∧
      ∀ (α : Type) (mem : Nat → α) (i : Nat),
        r.get mem i = s.get mem (offset + i) ∧ r'.get mem i = s.get mem (offset + i) := by
  have hoff : offset ≤ s.size := by omega
  have hsz : (if count = dynamic_extent then s.size - offset else count) = count := by
    by_cases hc : count = dynamic_extent
    · rw [if_pos hc]; omega
    · rw [if_neg hc]
  have hcond : offset ≤ s.size ∧ (count = dynamic_extent ∨ offset + count ≤ s.size) :=
    ⟨hoff, Or.inr h⟩
  refine ⟨⟨s.data + offset, if count = dynamic_extent then s.size - offset else count,
      if count = dynamic_extent then s.extent.map (fun e => e - offset) else some count⟩,
    ⟨s.data + offset, if count = dynamic_extent then s.size - offset else count, none⟩,
    by rw [Span.subspan_static, if_pos hcond], by rw [Span.subspan, if_pos hcond],
    hsz, rfl, rfl, ?_, hsz, rfl, rfl, ?_, ?_⟩
  · show s.data + offset + _ = _
    rw [hsz]
  · show s.data + offset + _ = _
    rw [hsz]
  · intro α mem i
    simp [Span.get, Nat.add_assoc]

/-- The case `subspan<1, 2>` and `subspan(1, 2)` of the test, by the theorem. -/
theorem C14_subspan_witness :
    ∃ r r', (spanOfArr 100).subspan_static 1 2 = some r ∧
      (spanOfArr 100).subspan 1 2 = some r' ∧
      r.size = 2 ∧ r.data = 100 + 1 ∧ r.begin_ = 100 + 1 ∧ r.end_ = 100 + 1 + 2 ∧
      r'.size = 2 ∧ r'.data = 100 + 1 ∧ r'.begin_ = 100 + 1 ∧ r'.end_ = 100 + 1 + 2 ∧
      ∀ (α : Type) (mem : Nat → α) (i : Nat),
        r.get mem i = (spanOfArr 100).get mem (1 + i) ∧
        r'.get mem i = (spanOfArr 100).get mem (1 + i) :=
  C14_subspan (spanOfArr 100) 1 2 (by decide) (by decide)

/-- C15: for a span `s` and `n <= s.size()`, `s.first(n)` and `s.first<n>()`
are views of `n` elements from `s.data()` that end at `s.data() + n`, and
`s.last(n)` and `s.last<n>()` are views of `n` elements from
`s.data() + (s.size() - n)` that end where `s` ends. -/
theorem C15_first_last (s : Span) (n : Nat) (h : n ≤ s.size) :
    ∃ f f' l l', s.first n = some f ∧ s.first_static n = some f' ∧
      s.last n = some l ∧ s.last_static n = some l' ∧
      f.size = n ∧ f.data = s.data ∧ f.begin_ = s.data ∧ f.end_ = s.data + n ∧
      f'.size = n ∧ f'.data = s.data ∧ f'.begin_ = s.data ∧ f'.end_ = s.data + n ∧
      l.size = n ∧ l.data = s.data + (s.size - n) ∧ l.begin_ = s.data + (s.size - n) ∧
      l.end_ = s.end_ ∧
      l'.size = n ∧ l'.data = s.data + (s.size - n) ∧ l'.begin_ = s.data + (s.size - n) ∧
      l'.end_ = s.end_ := by
  have hend : s.data + (s.size - n) + n = s.data + s.size := by omega
  exact ⟨⟨s.data, n, none⟩, ⟨s.data, n, some n⟩, ⟨s.data + (s.size - n), n, none⟩,
    ⟨s.data + (s.size - n), n, some n⟩,
    by rw [Span.first, if_pos h], by rw [Span.first_static, if_pos h],
    by rw [Span.last, if_pos h], by rw [Span.last_static, if_pos h],
    rfl, rfl, rfl, rfl, rfl, rfl, rfl, rfl, rfl, rfl, rfl, hend, rfl, rfl, rfl, hend⟩

/-- The cases `first` and `last` of three elements of the test, by the
theorem. -/
theorem C15_first_last_witness :
    ∃ f f' l l', (spanOfArr 100).first 3 = some f ∧ (spanOfArr 100).first_static 3 = some f' ∧
      (spanOfArr 100).last 3 = some l ∧ (spanOfArr 100).last_static 3 = some l' ∧
      f.size = 3 ∧ f.data = 100 ∧ f.begin_ = 100 ∧ f.end_ = 100 + 3 ∧
      f'.size = 3 ∧ f'.data = 100 ∧ f'.begin_ = 100 ∧ f'.end_ = 100 + 3 ∧
      l.size = 3 ∧ l.data = 100 + (5 - 3) ∧ l.begin_ = 100 + (5 - 3) ∧
      l.end_ = (spanOfArr 100).end_ ∧
      l'.size = 3 ∧ l'.data = 100 + (5 - 3) ∧ l'.begin_ = 100 + (5 - 3) ∧
      l'.end_ = (spanOfArr 100).end_ :=
  C15_first_last (spanOfArr 100) 3 (by decide)

theorem chainScale_consistent : chainScale.Consistent := by
  refine ⟨by decide, by decide, by decide, by decide, by decide, by decide⟩

/-- The handler on a match whose three nodes are in the graph, with every
producer of `useless_op_in` an operation whose output slots hold its name: the
node with identifier `i` of the result is the node of the graph rewritten and
detached from the two removed nodes. -/
theorem handler_find (g : Graph) (m : Match) (c : Nat) (vin op vout : Node)
    (din dout : VarDesc)
    (hin : g.find m.useless_op_in = some vin) (hop : g.find m.useless_op = some op)
    (hout : g.find m.useless_op_out = some vout)
    (hdin : vin.desc = .var din) (hdout : vout.desc = .var dout) (hisop : op.IsOp = true)
    (hnd : vin.inputs.Nodup)
    (hprod : ∀ p ∈ vin.inputs, ∃ P d, g.find p = some P ∧ P.desc = .op d ∧
      holdsOutput d din.name = true) :
    ∃ g', handler g m c = .ok (g', c + 1) ∧
      g'.ids = g.ids.filter (fun i => !([m.useless_op_in, m.useless_op]).contains i) ∧
      ∀ i, g'.find i =
        if i ∈ [m.useless_op_in, m.useless_op] then none
        else (g.find i).map (fun n => detach [m.useless_op_in, m.useless_op]
          (rewriteNode vin.inputs din.name dout.name m.useless_op_out n)) := by
  have ho : m.useless_op_out ∉ vin.inputs := by
    intro hmem
    obtain ⟨P, d, hP, hPd, _⟩ := hprod _ hmem
    rw [hout] at hP
    have : vout = P := Option.some.inj hP
    rw [this, hPd] at hdout
    cases hdout
  obtain ⟨g', hrun, hids, hgin, hgop, hother, hprods, hgout⟩ :=
    handler_spec g m c vin op vout din dout hin hop hout hdin hdout hisop hnd hprod
  refine ⟨g', hrun, hids, ?_⟩
  intro i
  by_cases h1 : i = m.useless_op_in
  · rw [h1, hgin]; simp
  · by_cases h2 : i = m.useless_op
    · rw [h2, hgop]; simp
    · have hnot : ¬ i ∈ [m.useless_op_in, m.useless_op] := by simp [h1, h2]
      rw [if_neg hnot]
      by_cases hp : i ∈ vin.inputs
      · obtain ⟨P, d, hP, hPd, _⟩ := hprod i hp
        rw [hprods i hp h1 h2 P d hP hPd, hP]
        have hid := (find_some_mem hP).2
        simp [rewriteNode, hid, hp, hPd]
      · by_cases h3 : i = m.useless_op_out
        · rw [h3, hgout (h3 ▸ h1) (h3 ▸ h2), hout]
          have hid := (find_some_mem hout).2
          simp [rewriteNode, hid, ho]
        · rw [hother i h1 h2 hp h3]
          cases hf : g.find i with
          | none => rfl
          | some n =>
            have hid := (find_some_mem hf).2
            simp [rewriteNode, hid, hp, h3]

theorem edgesOnce_node (g : Graph) (h : g.edgesOnce = true) (x : Node) (hx : x ∈ g.nodes) :
    x.inputs.Nodup ∧ x.outputs.Nodup := by
  unfold Graph.edgesOnce at h
  rw [List.all_eq_true] at h
  simpa using h x hx

theorem slotsConsistent_node (g : Graph) (h : g.slotsConsistent = true) (v o : Node)
    (dv : VarDesc) (d : OpDesc) (hv : v ∈ g.nodes) (ho : o ∈ g.nodes) (hvd : v.desc = .var dv)
    (hod : o.desc = .op d) :
    (o.id ∈ v.inputs ↔ holdsOutput d dv.name = true) ∧
    (o.id ∈ v.outputs ↔ holdsInput d dv.name = true) := by
  unfold Graph.slotsConsistent at h
  rw [List.all_eq_true] at h
  have h1 := h v hv
  simp only [hvd] at h1
  rw [List.all_eq_true] at h1
  have h2 := h1 o ho
  simp only [hod, Bool.and_eq_true, beq_iff_eq] at h2
  constructor
  · rw [← h2.1]; simp
  · rw [← h2.2]; simp

theorem namesUnique_node (g : Graph) (h : g.namesUnique = true) (x y : Node)
    (dx dy : VarDesc) (hx : x ∈ g.nodes) (hy : y ∈ g.nodes) (hxd : x.desc = .var dx)
    (hyd : y.desc = .var dy) (hname : dx.name = dy.name) : x.id = y.id := by
  unfold Graph.namesUnique at h
  rw [List.all_eq_true] at h
  have h1 := h x hx
  rw [List.all_eq_true] at h1
  have h2 := h1 y hy
  simpa [hxd, hyd, hname] using h2

/-- What a match that satisfies the pattern in a consistent graph gives: the
three nodes, their shape, and the producers of `useless_op_in` as operations
whose output slots hold its name. -/
theorem live_facts (g : Graph) (m : Match) (hc : g.Consistent) (hm : IsMatch g m) :
    ∃ vin op vout din dout dop,
      g.find m.useless_op_in = some vin ∧ g.find m.useless_op = some op ∧
      g.find m.useless_op_out = some vout ∧
      vin.desc = .var din ∧ vout.desc = .var dout ∧ op.desc = .op dop ∧
      vin.outputs = [m.useless_op] ∧ op.inputs = [m.useless_op_in] ∧
      op.outputs = [m.useless_op_out] ∧ m.useless_op ∈ vout.inputs ∧
      vin.inputs.Nodup ∧
      (∀ p ∈ vin.inputs, ∃ P d, g.find p = some P ∧ P.desc = .op d ∧
        holdsOutput d din.name = true) ∧
      m.useless_op_out ≠ m.useless_op_in ∧ m.useless_op_out ≠ m.useless_op ∧
      m.useless_op ≠ m.useless_op_in ∧
      m.useless_op_in ∉ vin.inputs ∧ m.useless_op ∉ vin.inputs ∧
      m.useless_op_out ∉ vin.inputs := by
  obtain ⟨hids, hbip, hsym, honce, hslots, _⟩ := hc
  obtain ⟨vin, op, vout, hvin, hvid, hvt, hopmem, hop, hopt, houtmem, hout, hvoutv, h1, h2, h3⟩ :=
    hm
  obtain ⟨din, hdin, _, hvl, _⟩ := in_teller_true g vin hvt
  obtain ⟨dop, hdop, hil, hol, _⟩ := op_teller_true op hopt
  obtain ⟨dout, hdout⟩ : ∃ dout, vout.desc = .var dout := by
    cases hd : vout.desc with
    | var d => exact ⟨d, rfl⟩
    | op d => simp [Node.IsVar, hd] at hvoutv
  have hfin : g.find m.useless_op_in = some vin := hvid ▸ find_of_mem hids hvin
  have hop_mem := find_some_mem hop
  have hout_mem := find_some_mem hout
  have hedge : vin.id ∈ op.inputs :=
    (symmetric_edge g hsym vin op hvin hop_mem.1).1 (hop_mem.2 ▸ hopmem)
  have hopouts : op.outputs = [m.useless_op_out] := eq_singleton_of_mem hol houtmem
  have hedge2 : op.id ∈ vout.inputs :=
    (symmetric_edge g hsym op vout hop_mem.1 hout_mem.1).1 (hout_mem.2 ▸ houtmem)
  have hprod : ∀ p ∈ vin.inputs, ∃ P d, g.find p = some P ∧ P.desc = .op d ∧
      holdsOutput d din.name = true := by
    intro p hp
    obtain ⟨P, hP, hPop⟩ := bipartite_neighbour g hbip vin hvin p (Or.inl hp)
    have hvv : vin.IsVar = true := by simp [Node.IsVar, hdin]
    rw [hvv] at hPop
    obtain ⟨d, hPd⟩ : ∃ d, P.desc = .op d := by
      cases hd : P.desc with
      | op d => exact ⟨d, rfl⟩
      | var d => simp [Node.IsOp, hd] at hPop
    have hP_mem := find_some_mem hP
    exact ⟨P, d, hP, hPd,
      (slotsConsistent_node g hslots vin P din d hvin hP_mem.1 hdin hPd).1.1 (hP_mem.2 ▸ hp)⟩
  refine ⟨vin, op, vout, din, dout, dop, hfin, hop, hout, hdin, hdout, hdop,
    eq_singleton_of_mem hvl hopmem, eq_singleton_of_mem hil (hvid ▸ hedge), hopouts,
    hop_mem.2 ▸ hedge2, (edgesOnce_node g honce vin hvin).1, hprod, h1, h2, h3, ?_, ?_, ?_⟩
  · intro hmem
    obtain ⟨P, d, hP, hPd, _⟩ := hprod _ hmem
    rw [hfin] at hP
    have : vin = P := Option.some.inj hP
    rw [this, hPd] at hdin
    cases hdin
  · intro hmem
    have := (symmetric_edge g hsym op vin hop_mem.1 hvin).2 (hop_mem.2 ▸ hmem)
    rw [hopouts, hvid] at this
    exact h1 (List.mem_singleton.1 this).symm
  · intro hmem
    obtain ⟨P, d, hP, hPd, _⟩ := hprod _ hmem
    rw [hout] at hP
    have : vout = P := Option.some.inj hP
    rw [this, hPd] at hdout
    cases hdout

/-- In a consistent graph the nodes that hold an edge to `useless_op_in` or to
`useless_op` of a live match are these two, the producers of `useless_op_in`
and `useless_op_out`. -/
theorem references_of_match (g : Graph) (m : Match) (vin op : Node) (hsym : g.symmetric = true)
    (hin : g.find m.useless_op_in = some vin) (hop : g.find m.useless_op = some op)
    (hvout : vin.outputs = [m.useless_op]) (hopin : op.inputs = [m.useless_op_in])
    (hopout : op.outputs = [m.useless_op_out])
    (x : Node) (hx : x ∈ g.nodes) :
    (m.useless_op_in ∈ x.inputs → x.id = m.useless_op) ∧
    (m.useless_op_in ∈ x.outputs → x.id ∈ vin.inputs) ∧
    (m.useless_op ∈ x.inputs → x.id = m.useless_op_out) ∧
    (m.useless_op ∈ x.outputs → x.id = m.useless_op_in) := by
  have hvin_mem := find_some_mem hin
  have hop_mem := find_some_mem hop
  refine ⟨fun h => ?_, fun h => ?_, fun h => ?_, fun h => ?_⟩
  · have := (symmetric_edge g hsym vin x hvin_mem.1 hx).2 (hvin_mem.2 ▸ h)
    rw [hvout] at this
    exact List.mem_singleton.1 this
  · exact (symmetric_edge g hsym x vin hx hvin_mem.1).1 (hvin_mem.2 ▸ h)
  · have := (symmetric_edge g hsym op x hop_mem.1 hx).2 (hop_mem.2 ▸ h)
    rw [hopout] at this
    exact List.mem_singleton.1 this
  · have := (symmetric_edge g hsym x op hx hop_mem.1).1 (hop_mem.2 ▸ h)
    rw [hopin] at this
    exact List.mem_singleton.1 this

/-- C16: on a live match of a consistent graph the handler completes; the node
set of the result is the node set of the graph less `useless_op_in` and
`useless_op`; every node other than these, the producers of `useless_op_in`
and `useless_op_out` is as it was; `useless_op_out` keeps its description and
its consumers, and its producers are its former producers less `useless_op`
and the former producers of `useless_op_in`. -/
theorem C16_frame_of_rewrite (g : Graph) (m : Match) (c : Nat) (hc : g.Consistent)
    (hm : IsMatch g m) :
    ∃ g' vin vout vout', handler g m c = .ok (g', c + 1) ∧
      g.find m.useless_op_in = some vin ∧ g.find m.useless_op_out = some vout ∧
      g'.ids = g.ids.filter (fun i => !([m.useless_op_in, m.useless_op]).contains i) ∧
      (∀ i, i ∈ g'.ids ↔ i ∈ g.ids ∧ i ≠ m.useless_op_in ∧ i ≠ m.useless_op) ∧
      (∀ x ∈ g.nodes, x.id ≠ m.useless_op_in → x.id ≠ m.useless_op → x.id ∉ vin.inputs →
        x.id ≠ m.useless_op_out → g'.find x.id = some x) ∧
      g'.find m.useless_op_out = some vout' ∧ vout'.desc = vout.desc ∧
      vout'.outputs = vout.outputs ∧
      vout'.inputs = (addProducers vin.inputs vout.inputs).filter
        (fun i => !([m.useless_op_in, m.useless_op]).contains i) ∧
      (∀ q, q ∈ vout'.inputs ↔ (q ∈ vout.inputs ∧ q ≠ m.useless_op) ∨ q ∈ vin.inputs) := by
  obtain ⟨vin, op, vout, din, dout, dop, hin, hop, hout, hdin, hdout, hdop, hvout, hopin,
    hopout, _, hnd, hprod, hoi, hoo, hopi, hinn, hopn, houtn⟩ := live_facts g m hc hm
  obtain ⟨hids, _, hsym, _, _, _⟩ := hc
  have hisop : op.IsOp = true := by simp [Node.IsOp, hdop]
  obtain ⟨g', hrun, hgids, hfind⟩ :=
    handler_find g m c vin op vout din dout hin hop hout hdin hdout hisop hnd hprod
  have href := references_of_match g m vin op hsym hin hop hvout hopin hopout
  have hout_mem := find_some_mem hout
  have hvout_outputs : vout.outputs.filter
      (fun i => !([m.useless_op_in, m.useless_op]).contains i) = vout.outputs := by
    apply List.filter_eq_self.2
    intro i hi
    have h1 : i ≠ m.useless_op_in := fun e =>
      houtn (hout_mem.2 ▸ (href vout hout_mem.1).2.1 (e ▸ hi))
    have h2 : i ≠ m.useless_op := fun e =>
      hoi (hout_mem.2 ▸ (href vout hout_mem.1).2.2.2 (e ▸ hi))
    simp [h1, h2]
  have hfout : g'.find m.useless_op_out = some (detach [m.useless_op_in, m.useless_op]
      { vout with inputs := addProducers vin.inputs vout.inputs }) := by
    rw [hfind, hout]
    have hid := hout_mem.2
    simp [hoi, hoo, rewriteNode, hid, houtn]
  refine ⟨g', vin, vout, _, hrun, hin, hout, hgids, ?_, ?_, hfout, rfl, hvout_outputs, rfl, ?_⟩
  · intro i
    rw [hgids, List.mem_filter]
    simp
  · intro x hx h1 h2 h3 h4
    rw [hfind, find_of_mem hids hx]
    have hnot : ¬ x.id ∈ [m.useless_op_in, m.useless_op] := by simp [h1, h2]
    rw [if_neg hnot]
    have hrw : rewriteNode vin.inputs din.name dout.name m.useless_op_out x = x := by
      simp [rewriteNode, h3, h4]
    simp only [Option.map_some', hrw]
    congr 1
    apply detach_eq_self
    · intro i hi hmem
      rcases List.mem_cons.1 hmem with e | hmem'
      · exact h2 ((href x hx).1 (e ▸ hi))
      · exact h4 ((href x hx).2.2.1 ((List.mem_singleton.1 hmem') ▸ hi))
    · intro i hi hmem
      rcases List.mem_cons.1 hmem with e | hmem'
      · exact h3 ((href x hx).2.1 (e ▸ hi))
      · exact h1 ((href x hx).2.2.2 ((List.mem_singleton.1 hmem') ▸ hi))
  · intro q
    rw [mem_detach_inputs]
    show (q ∈ addProducers vin.inputs vout.inputs ∧ _) ↔ _
    rw [mem_addProducers_iff]
    constructor
    · rintro ⟨h | h, hq⟩
      · left
        refine ⟨h, fun e => hq ?_⟩
        simp [e]
      · exact Or.inr h
    · rintro (⟨h, hq⟩ | h)
      · refine ⟨Or.inl h, ?_⟩
        have h1 : q ≠ m.useless_op_in := fun e =>
          hoo (hout_mem.2 ▸ (href vout hout_mem.1).1 (e ▸ h))
        simp [h1, hq]
      · refine ⟨Or.inr h, ?_⟩
        have h1 : q ≠ m.useless_op_in := fun e => hinn (e ▸ h)
        have h2 : q ≠ m.useless_op := fun e => hopn (e ▸ h)
        simp [h1, h2]

theorem chainScale_match : IsMatch chainScale ⟨1, 2, 3⟩ :=
  detect_sound chainScale [⟨1, 2, 3⟩] (by decide) ⟨1, 2, 3⟩ (List.mem_singleton_self _)

theorem isVar_rewriteNode (ps : List NodeId) (a b : String) (o : NodeId) (n : Node) :
    (rewriteNode ps a b o n).IsVar = n.IsVar := by
  unfold rewriteNode
  by_cases h1 : n.id ∈ ps
  · rw [if_pos h1]
    cases hd : n.desc with
    | op d => simp [relinked, Node.IsVar, hd]
    | var d => rfl
  · rw [if_neg h1]
    by_cases h2 : n.id = o
    · rw [if_pos h2]; rfl
    · rw [if_neg h2]

/-- The nodes of the graph the handler leaves: each is a node of the graph
before, other than the two removed, rewritten and detached. -/
theorem handler_nodes (g g' : Graph) (rm : List NodeId) (f : Node → Node)
    (hids' : g'.ids.Nodup)
    (hfind : ∀ i, g'.find i = if i ∈ rm then none else (g.find i).map f)
    (x' : Node) (hx' : x' ∈ g'.nodes) :
    ∃ x, g.find x'.id = some x ∧ x ∈ g.nodes ∧ x.id = x'.id ∧ x'.id ∉ rm ∧ x' = f x := by
  have h := find_of_mem hids' hx'
  rw [hfind] at h
  by_cases hrm : x'.id ∈ rm
  · rw [if_pos hrm] at h; cases h
  · rw [if_neg hrm] at h
    cases hf : g.find x'.id with
    | none => rw [hf] at h; cases h
    | some x =>
      rw [hf] at h
      have hxm := find_some_mem hf
      exact ⟨x, rfl, hxm.1, hxm.2, hrm, (Option.some.inj h).symm⟩

theorem length_filter_le_one (l : List NodeId) (p : NodeId → Bool) (h : l.length ≤ 1) :
    (l.filter p).length ≤ 1 :=
  Nat.le_trans (List.length_filter_le p l) h

/-- C12: on a live match of a consistent graph in which no variable has more
than one producer, the handler completes and no variable of the result has
more than one producer. -/
theorem C12_single_producer_preserved (g : Graph) (m : Match) (c : Nat) (hc : g.Consistent)
    (hm : IsMatch g m) (hsingle : g.singleProducer = true) :
    ∃ g', handler g m c = .ok (g', c + 1) ∧ g'.singleProducer = true ∧
      ∀ x ∈ g'.nodes, x.IsVar = true → x.inputs.length ≤ 1 := by
  obtain ⟨vin, op, vout, din, dout, dop, hin, hop, hout, hdin, hdout, hdop, hvout, hopin,
    hopout, hopvout, hnd, hprod, hoi, hoo, hopi, hinn, hopn, houtn⟩ := live_facts g m hc hm
  obtain ⟨hids, _, hsym, _, _, _⟩ := hc
  have hisop : op.IsOp = true := by simp [Node.IsOp, hdop]
  obtain ⟨g', hrun, hgids, hfind⟩ :=
    handler_find g m c vin op vout din dout hin hop hout hdin hdout hisop hnd hprod
  have hids' : g'.ids.Nodup := by rw [hgids]; exact hids.filter _
  have hs : ∀ x ∈ g.nodes, x.IsVar = true → x.inputs.length ≤ 1 := by
    intro x hx hv
    unfold Graph.singleProducer at hsingle
    rw [List.all_eq_true] at hsingle
    simpa [hv] using hsingle x hx
  have hvinv : vin.IsVar = true := by simp [Node.IsVar, hdin]
  have hvoutv : vout.IsVar = true := by simp [Node.IsVar, hdout]
  have hvout_in : vout.inputs = [m.useless_op] :=
    eq_singleton_of_mem (Nat.le_antisymm (hs vout (find_some_mem hout).1 hvoutv)
      (List.length_pos_of_mem hopvout)) hopvout
  have key : ∀ x ∈ g'.nodes, x.IsVar = true → x.inputs.length ≤ 1 := by
    intro x' hx' hv'
    obtain ⟨x, hfx, hx, hid, _, rfl⟩ := handler_nodes g g' _ _ hids' hfind x' hx'
    have hxv : x.IsVar = true := by
      have : (detach [m.useless_op_in, m.useless_op]
          (rewriteNode vin.inputs din.name dout.name m.useless_op_out x)).IsVar
          = (rewriteNode vin.inputs din.name dout.name m.useless_op_out x).IsVar := rfl
      rw [this, isVar_rewriteNode] at hv'
      exact hv'
    have hxps : x.id ∉ vin.inputs := by
      intro hmem
      obtain ⟨P, d, hP, hPd, _⟩ := hprod _ hmem
      have := find_of_mem hids hx
      rw [hP] at this
      have hPx : P = x := Option.some.inj this
      rw [hPx] at hPd
      simp [Node.IsVar, hPd] at hxv
    show (List.filter _ (rewriteNode vin.inputs din.name dout.name m.useless_op_out x).inputs).length
      ≤ 1
    by_cases hxo : x.id = m.useless_op_out
    · have hxvout : x = vout := by
        have := find_of_mem hids hx
        rw [hxo, hout] at this
        exact (Option.some.inj this).symm
      have hrw : (rewriteNode vin.inputs din.name dout.name m.useless_op_out x).inputs
          = addProducers vin.inputs [m.useless_op] := by
        unfold rewriteNode
        rw [if_neg hxps, if_pos hxo, hxvout]
        show addProducers vin.inputs vout.inputs = _
        rw [hvout_in]
      rw [hrw]
      have hlen := hs vin (find_some_mem hin).1 hvinv
      cases hps : vin.inputs with
      | nil => simp [addProducers]
      | cons p rest =>
        have hrest : rest = [] := by
          rw [hps] at hlen
          simp only [List.length_cons] at hlen
          exact List.length_eq_zero.1 (by omega)
        rw [hrest]
        have hp : p ∈ vin.inputs := by rw [hps]; exact List.mem_cons_self _ _
        rw [single_producer_inputs p m.useless_op_in m.useless_op (fun e => hinn (e ▸ hp))
          (fun e => hopn (e ▸ hp))]
        simp
    · have hrw : rewriteNode vin.inputs din.name dout.name m.useless_op_out x = x := by
        simp [rewriteNode, hxps, hxo]
      rw [hrw]
      exact length_filter_le_one _ _ (hs x hx hxv)
  refine ⟨g', hrun, ?_, key⟩
  unfold Graph.singleProducer
  rw [List.all_eq_true]
  intro x hx
  cases hv : x.IsVar with
  | false => rfl
  | true => simpa using key x hx hv

/-- The chain `relu -> v1 -> scale -> v2`, where every variable has one
producer: so it is after the rewrite. -/
theorem C12_single_producer_preserved_witness :
    ∃ g', handler chainScale ⟨1, 2, 3⟩ 0 = .ok (g', 0 + 1) ∧ g'.singleProducer = true ∧
      ∀ x ∈ g'.nodes, x.IsVar = true → x.inputs.length ≤ 1 :=
  C12_single_producer_preserved chainScale ⟨1, 2, 3⟩ 0 chainScale_consistent chainScale_match
    (by decide)

/-- The chain `relu -> v1 -> scale -> v2`: the rewrite removes `v1` and the
scale operation and leaves `v2` with the producer `relu`. -/
theorem C16_frame_of_rewrite_witness :
    ∃ g' vin vout vout', handler chainScale ⟨1, 2, 3⟩ 0 = .ok (g', 0 + 1) ∧
      chainScale.find 1 = some vin ∧ chainScale.find 3 = some vout ∧
      g'.ids = chainScale.ids.filter (fun i => !([1, 2] : List NodeId).contains i) ∧
      (∀ i, i ∈ g'.ids ↔ i ∈ chainScale.ids ∧ i ≠ 1 ∧ i ≠ 2) ∧
      (∀ x ∈ chainScale.nodes, x.id ≠ 1 → x.id ≠ 2 → x.id ∉ vin.inputs →
        x.id ≠ 3 → g'.find x.id = some x) ∧
      g'.find 3 = some vout' ∧ vout'.desc = vout.desc ∧
      vout'.outputs = vout.outputs ∧
      vout'.inputs = (addProducers vin.inputs vout.inputs).filter
        (fun i => !([1, 2] : List NodeId).contains i) ∧
      (∀ q, q ∈ vout'.inputs ↔ (q ∈ vout.inputs ∧ q ≠ 2) ∨ q ∈ vin.inputs) :=
  C16_frame_of_rewrite chainScale ⟨1, 2, 3⟩ 0 chainScale_consistent chainScale_match

theorem transGen_of_edges {r p : NodeId → NodeId → Prop}
    (H : ∀ a b, r a b → Relation.TransGen p a b) {a b : NodeId}
    (h : Relation.TransGen r a b) : Relation.TransGen p a b := by
  induction h with
  | single h => exact H _ _ h
  | tail _ h ih => exact ih.trans (H _ _ h)

theorem outputs_rewriteNode (ps : List NodeId) (a b : String) (o : NodeId) (n : Node)
    (x : NodeId) (hx : x ∈ (rewriteNode ps a b o n).outputs) :
    x ∈ n.outputs ∨ (x = o ∧ n.id ∈ ps) := by
  unfold rewriteNode at hx
  by_cases h1 : n.id ∈ ps
  · rw [if_pos h1] at hx
    cases hd : n.desc with
    | var d => rw [hd] at hx; exact Or.inl hx
    | op d =>
      rw [hd] at hx
      have hx' : x ∈ addIfAbsent o n.outputs := hx
      rcases (mem_addIfAbsent_iff _ _ _).1 hx' with h | h
      · exact Or.inl h
      · exact Or.inr ⟨h, h1⟩
  · rw [if_neg h1] at hx
    by_cases h2 : n.id = o
    · rw [if_pos h2] at hx; exact Or.inl hx
    · rw [if_neg h2] at hx; exact Or.inl hx

theorem chainScale_acyclic : chainScale.Acyclic := by
  have hE : ∀ a b, Edge chainScale a b → a < b := by
    rintro a b ⟨A, hA, hb⟩
    obtain ⟨hmem, hid⟩ := find_some_mem hA
    simp only [chainScale, List.mem_cons, List.mem_singleton, List.not_mem_nil,
      or_false] at hmem
    rcases hmem with rfl | rfl | rfl | rfl <;>
      simp only [mkOp, mkVar, scaleOp, List.mem_singleton, List.not_mem_nil] at hb hid <;>
      (rw [← hid, hb]; decide)
  have hT : ∀ a b, Relation.TransGen (Edge chainScale) a b → a < b := by
    intro a b h
    induction h with
    | single h => exact hE _ _ h
    | tail _ h ih => exact lt_trans ih (hE _ _ h)
  intro a h
  exact lt_irrefl a (hT a a h)

/-- C13: on a live match of a consistent acyclic graph the handler completes
and the graph it leaves is acyclic: every edge of the result is an edge of the
graph before or stands for the path from a producer of `useless_op_in` through
`useless_op_in` and `useless_op` to `useless_op_out`. -/
theorem C13_no_cycle_introduced (g : Graph) (m : Match) (c : Nat) (hc : g.Consistent)
    (hm : IsMatch g m) (hacyc : g.Acyclic) :
    ∃ g', handler g m c = .ok (g', c + 1) ∧ g'.Acyclic ∧
      ∀ a b, Edge g' a b → Relation.TransGen (Edge g) a b := by
  obtain ⟨vin, op, vout, din, dout, dop, hin, hop, hout, hdin, hdout, hdop, hvout, hopin,
    hopout, hopvout, hnd, hprod, hoi, hoo, hopi, hinn, hopn, houtn⟩ := live_facts g m hc hm
  obtain ⟨hids, _, hsym, _, _, _⟩ := hc
  have hisop : op.IsOp = true := by simp [Node.IsOp, hdop]
  obtain ⟨g', hrun, hgids, hfind⟩ :=
    handler_find g m c vin op vout din dout hin hop hout hdin hdout hisop hnd hprod
  have hedges : ∀ a b, Edge g' a b → Relation.TransGen (Edge g) a b := by
    rintro a b ⟨A', hA', hb⟩
    rw [hfind] at hA'
    by_cases hrm : a ∈ [m.useless_op_in, m.useless_op]
    · rw [if_pos hrm] at hA'; cases hA'
    · rw [if_neg hrm] at hA'
      cases hf : g.find a with
      | none => rw [hf] at hA'; cases hA'
      | some A =>
        rw [hf] at hA'
        have hA'eq : A' = detach [m.useless_op_in, m.useless_op]
            (rewriteNode vin.inputs din.name dout.name m.useless_op_out A) :=
          (Option.some.inj hA').symm
        rw [hA'eq, mem_detach_outputs] at hb
        have hAm := find_some_mem hf
        rcases outputs_rewriteNode _ _ _ _ _ _ hb.1 with h | ⟨hbo, haps⟩
        · exact Relation.TransGen.single ⟨A, hf, h⟩
        · have hvin_mem := find_some_mem hin
          have e1 : Edge g a m.useless_op_in :=
            ⟨A, hf, hvin_mem.2 ▸ (symmetric_edge g hsym A vin hAm.1 hvin_mem.1).2 haps⟩
          have e2 : Edge g m.useless_op_in m.useless_op :=
            ⟨vin, hin, by rw [hvout]; exact List.mem_singleton_self _⟩
          have e3 : Edge g m.useless_op m.useless_op_out :=
            ⟨op, hop, by rw [hopout]; exact List.mem_singleton_self _⟩
          rw [hbo]
          exact ((Relation.TransGen.single e1).tail e2).tail e3
  refine ⟨g', hrun, ?_, hedges⟩
  intro a h
  exact hacyc a (transGen_of_edges hedges h)

/-- The chain `relu -> v1 -> scale -> v2` is acyclic, and so is the graph the
rewrite leaves. -/
theorem C13_no_cycle_introduced_witness :
    ∃ g', handler chainScale ⟨1, 2, 3⟩ 0 = .ok (g', 0 + 1) ∧ g'.Acyclic ∧
      ∀ a b, Edge g' a b → Relation.TransGen (Edge chainScale) a b :=
  C13_no_cycle_introduced chainScale ⟨1, 2, 3⟩ 0 chainScale_consistent chainScale_match
    chainScale_acyclic

theorem mem_inputs_rewriteNode (ps : List NodeId) (a b : String) (o : NodeId) (n : Node)
    (ho : o ∉ ps) (j : NodeId) :
    j ∈ (rewriteNode ps a b o n).inputs ↔ j ∈ n.inputs ∨ (n.id = o ∧ j ∈ ps) := by
  unfold rewriteNode
  by_cases h1 : n.id ∈ ps
  · have hno : n.id ≠ o := fun e => ho (e ▸ h1)
    rw [if_pos h1]
    cases hd : n.desc with
    | var d => simp [hno]
    | op d => simp [relinked, hno]
  · rw [if_neg h1]
    by_cases h2 : n.id = o
    · rw [if_pos h2]
      show j ∈ addProducers ps n.inputs ↔ _
      rw [mem_addProducers_iff]
      simp [h2]
    · rw [if_neg h2]
      simp [h2]

theorem mem_outputs_rewriteNode (ps : List NodeId) (a b : String) (o : NodeId) (n : Node)
    (hop : n.id ∈ ps → n.IsOp = true) (j : NodeId) :
    j ∈ (rewriteNode ps a b o n).outputs ↔ j ∈ n.outputs ∨ (j = o ∧ n.id ∈ ps) := by
  unfold rewriteNode
  by_cases h1 : n.id ∈ ps
  · rw [if_pos h1]
    cases hd : n.desc with
    | var d => have := hop h1; simp [Node.IsOp, hd] at this
    | op d =>
      show j ∈ addIfAbsent o n.outputs ↔ _
      rw [mem_addIfAbsent_iff]
      simp [h1]
  · rw [if_neg h1]
    by_cases h2 : n.id = o
    · rw [if_pos h2]; simp [h1]
    · rw [if_neg h2]; simp [h1]

theorem id_rewriteNode (ps : List NodeId) (a b : String) (o : NodeId) (n : Node) :
    (rewriteNode ps a b o n).id = n.id := by
  unfold rewriteNode
  by_cases h1 : n.id ∈ ps
  · rw [if_pos h1]
    cases hd : n.desc with
    | var d => rfl
    | op d => rfl
  · rw [if_neg h1]
    by_cases h2 : n.id = o
    · rw [if_pos h2]
    · rw [if_neg h2]

theorem desc_rewriteNode_var (ps : List NodeId) (a b : String) (o : NodeId) (n : Node)
    (d : VarDesc) (hd : n.desc = .var d) : (rewriteNode ps a b o n).desc = .var d := by
  unfold rewriteNode
  by_cases h1 : n.id ∈ ps
  · rw [if_pos h1]; simp [hd]
  · rw [if_neg h1]
    by_cases h2 : n.id = o
    · rw [if_pos h2]; exact hd
    · rw [if_neg h2]; exact hd

theorem desc_rewriteNode_op (ps : List NodeId) (a b : String) (o : NodeId) (n : Node)
    (d : OpDesc) (hd : n.desc = .op d) :
    (rewriteNode ps a b o n).desc = .op (if n.id ∈ ps then renamedOutputs d a b else d) := by
  unfold rewriteNode
  by_cases h1 : n.id ∈ ps
  · rw [if_pos h1, if_pos h1]; simp [hd, relinked]
  · rw [if_neg h1, if_neg h1]
    by_cases h2 : n.id = o
    · rw [if_pos h2]; exact hd
    · rw [if_neg h2]; exact hd

theorem nodup_addIfAbsent (i : NodeId) (l : List NodeId) (h : l.Nodup) :
    (addIfAbsent i l).Nodup := by
  unfold addIfAbsent
  by_cases hi : i ∈ l
  · rw [if_pos hi]; exact h
  · rw [if_neg hi]
    rw [List.nodup_append]
    exact ⟨h, List.nodup_singleton i, fun x hx hx' => hi ((List.mem_singleton.1 hx') ▸ hx)⟩

theorem nodup_addProducers (ps : List NodeId) :
    ∀ l : List NodeId, l.Nodup → (addProducers ps l).Nodup := by
  induction ps with
  | nil => intro l h; exact h
  | cons p rest ih =>
    intro l h
    exact ih (addIfAbsent p l) (nodup_addIfAbsent p l h)

theorem nodup_rewriteNode (ps : List NodeId) (a b : String) (o : NodeId) (n : Node)
    (h : n.inputs.Nodup ∧ n.outputs.Nodup) :
    (rewriteNode ps a b o n).inputs.Nodup ∧ (rewriteNode ps a b o n).outputs.Nodup := by
  unfold rewriteNode
  by_cases h1 : n.id ∈ ps
  · rw [if_pos h1]
    cases hd : n.desc with
    | var d => exact h
    | op d => exact ⟨h.1, nodup_addIfAbsent o n.outputs h.2⟩
  · rw [if_neg h1]
    by_cases h2 : n.id = o
    · rw [if_pos h2]; exact ⟨nodup_addProducers ps n.inputs h.1, h.2⟩
    · rw [if_neg h2]; exact h

theorem holdsOutput_renamed_other (d : OpDesc) (old new name : String) (h1 : name ≠ old)
    (h2 : name ≠ new) :
    holdsOutput (renamedOutputs d old new) name = holdsOutput d name := by
  have key : ∀ l : List String, (renameIn old new l).contains name = l.contains name := by
    intro l
    rw [Bool.eq_iff_iff, contains_iff_mem_name, contains_iff_mem_name]
    unfold renameIn
    rw [List.mem_map]
    constructor
    · rintro ⟨n, hn, e⟩
      by_cases hno : n = old
      · rw [if_pos hno] at e; exact absurd e.symm h2
      · rw [if_neg hno] at e; exact e ▸ hn
    · intro hn
      exact ⟨name, hn, by rw [if_neg h1]⟩
  unfold holdsOutput renamedOutputs
  simp only [List.any_map]
  apply congrArg (fun p => List.any d.outputs p)
  funext s
  exact key s.2

theorem isOp_eq_not_isVar (n : Node) : n.IsOp = !n.IsVar := by
  unfold Node.IsOp Node.IsVar
  cases n.desc <;> rfl

/-- The facts about the graph the handler leaves on a live match of a
consistent graph, node by node. -/
theorem handler_live_nodes (g : Graph) (m : Match) (c : Nat) (hc : g.Consistent)
    (hm : IsMatch g m) :
    ∃ g' vin vout din dout, handler g m c = .ok (g', c + 1) ∧
      g.find m.useless_op_in = some vin ∧ g.find m.useless_op_out = some vout ∧
      vin.desc = .var din ∧ vout.desc = .var dout ∧
      m.useless_op_out ∉ vin.inputs ∧
      (∀ x ∈ g.nodes, x.id ∈ vin.inputs → ∃ d, x.desc = .op d ∧
        holdsOutput d din.name = true) ∧
      g'.ids.Nodup ∧
      (∀ x' ∈ g'.nodes, ∃ x ∈ g.nodes, x.id ≠ m.useless_op_in ∧ x.id ≠ m.useless_op ∧
        x' = detach [m.useless_op_in, m.useless_op]
          (rewriteNode vin.inputs din.name dout.name m.useless_op_out x)) ∧
      (∀ x ∈ g.nodes, x.id ≠ m.useless_op_in → x.id ≠ m.useless_op →
        g'.find x.id = some (detach [m.useless_op_in, m.useless_op]
          (rewriteNode vin.inputs din.name dout.name m.useless_op_out x))) := by
  obtain ⟨vin, op, vout, din, dout, dop, hin, hop, hout, hdin, hdout, hdop, hvout, hopin,
    hopout, hopvout, hnd, hprod, hoi, hoo, hopi, hinn, hopn, houtn⟩ := live_facts g m hc hm
  obtain ⟨hids, _, hsym, _, _, _⟩ := hc
  have hisop : op.IsOp = true := by simp [Node.IsOp, hdop]
  obtain ⟨g', hrun, hgids, hfind⟩ :=
    handler_find g m c vin op vout din dout hin hop hout hdin hdout hisop hnd hprod
  have hids' : g'.ids.Nodup := by rw [hgids]; exact hids.filter _
  refine ⟨g', vin, vout, din, dout, hrun, hin, hout, hdin, hdout, houtn, ?_, hids', ?_, ?_⟩
  · intro x hx hmem
    obtain ⟨P, d, hP, hPd, hh⟩ := hprod _ hmem
    have := find_of_mem hids hx
    rw [hP] at this
    have hPx : P = x := Option.some.inj this
    exact ⟨d, hPx ▸ hPd, hh⟩
  · intro x' hx'
    obtain ⟨x, _, hx, _, hrm, hxe⟩ := handler_nodes g g' _ _ hids' hfind x' hx'
    have hid' : x'.id = x.id := by
      rw [hxe]
      exact id_rewriteNode _ _ _ _ _
    rw [hid'] at hrm
    exact ⟨x, hx, fun e => hrm (by simp [e]), fun e => hrm (by simp [e]), hxe⟩
  · intro x hx h1 h2
    rw [hfind, find_of_mem hids hx]
    simp [h1, h2]

/-- The invariants of the graph model after the handler has run on a binding
that satisfies the pattern in a consistent graph: the handler completes, the
result is consistent, and no node of the result has `useless_op_in` or
`useless_op` in its adjacency lists. -/
theorem handler_consistent (g : Graph) (m : Match) (c : Nat) (hc : g.Consistent)
    (hm : IsMatch g m) :
    ∃ g', handler g m c = .ok (g', c + 1) ∧ g'.Consistent ∧
      ∀ x ∈ g'.nodes, m.useless_op_in ∉ x.inputs ∧ m.useless_op_in ∉ x.outputs ∧
        m.useless_op ∉ x.inputs ∧ m.useless_op ∉ x.outputs := by
  obtain ⟨g', vin, vout, din, dout, hrun, hin, hout, hdin, hdout, houtn, hpsop, hids', hnodes,
    hfindf⟩ := handler_live_nodes g m c hc hm
  obtain ⟨hids, hbip, hsym, honce, hslots, hnames⟩ := hc
  have hvin_mem := find_some_mem hin
  have hvout_mem := find_some_mem hout
  have hpsisop : ∀ x ∈ g.nodes, x.id ∈ vin.inputs → x.IsOp = true := by
    intro x hx hmem
    obtain ⟨d, hd, _⟩ := hpsop x hx hmem
    simp [Node.IsOp, hd]
  -- the fields of a node of the result
  have hmi : ∀ x j, j ∈ (detach [m.useless_op_in, m.useless_op]
        (rewriteNode vin.inputs din.name dout.name m.useless_op_out x)).inputs ↔
      (j ∈ x.inputs ∨ (x.id = m.useless_op_out ∧ j ∈ vin.inputs)) ∧
        j ∉ [m.useless_op_in, m.useless_op] := by
    intro x j
    rw [mem_detach_inputs, mem_inputs_rewriteNode _ _ _ _ _ houtn]
  have hmo : ∀ x ∈ g.nodes, ∀ j, j ∈ (detach [m.useless_op_in, m.useless_op]
        (rewriteNode vin.inputs din.name dout.name m.useless_op_out x)).outputs ↔
      (j ∈ x.outputs ∨ (j = m.useless_op_out ∧ x.id ∈ vin.inputs)) ∧
        j ∉ [m.useless_op_in, m.useless_op] := by
    intro x hx j
    rw [mem_detach_outputs, mem_outputs_rewriteNode _ _ _ _ _ (hpsisop x hx)]
  have hvar : ∀ x, (detach [m.useless_op_in, m.useless_op]
        (rewriteNode vin.inputs din.name dout.name m.useless_op_out x)).IsVar = x.IsVar :=
    fun x => isVar_rewriteNode _ _ _ _ x
  have hrmmem : ∀ x : Node, x.id ≠ m.useless_op_in → x.id ≠ m.useless_op →
      x.id ∉ [m.useless_op_in, m.useless_op] := by
    intro x h1 h2; simp [h1, h2]
  refine ⟨g', hrun, ⟨hids', ?_, ?_, ?_, ?_, ?_⟩, ?_⟩
  · -- edges join a variable and an operation of the graph
    unfold Graph.bipartite
    rw [List.all_eq_true]
    intro x' hx'
    obtain ⟨x, hx, h1, h2, rfl⟩ := hnodes x' hx'
    rw [List.all_eq_true]
    intro i hi
    have hcase : ∃ y ∈ g.nodes, y.id = i ∧ i ∉ [m.useless_op_in, m.useless_op] ∧
        y.IsOp = x.IsVar := by
      rcases List.mem_append.1 hi with h | h
      · obtain ⟨h', hrm⟩ := (hmi x i).1 h
        rcases h' with h' | ⟨hxo, hps⟩
        · obtain ⟨y, hy, hyt⟩ := bipartite_neighbour g hbip x hx i (Or.inl h')
          exact ⟨y, (find_some_mem hy).1, (find_some_mem hy).2, hrm, hyt⟩
        · obtain ⟨y, hy, hyt⟩ := bipartite_neighbour g hbip vin hvin_mem.1 i (Or.inl hps)
          have hxv : x = vout := by
            have := find_of_mem hids hx
            rw [hxo, hout] at this
            exact (Option.some.inj this).symm
          refine ⟨y, (find_some_mem hy).1, (find_some_mem hy).2, hrm, ?_⟩
          rw [hyt, hxv]
          simp [Node.IsVar, hdin, hdout]
      · obtain ⟨h', hrm⟩ := (hmo x hx i).1 h
        rcases h' with h' | ⟨hio, hps⟩
        · obtain ⟨y, hy, hyt⟩ := bipartite_neighbour g hbip x hx i (Or.inr h')
          exact ⟨y, (find_some_mem hy).1, (find_some_mem hy).2, hrm, hyt⟩
        · refine ⟨vout, hvout_mem.1, hio ▸ hvout_mem.2, hrm, ?_⟩
          have := hpsisop x hx hps
          rw [isOp_eq_not_isVar] at this
          have hxv : x.IsVar = false := by simpa using this
          rw [hxv]
          simp [Node.IsOp, hdout]
    obtain ⟨y, hy, hyi, hrm, hyt⟩ := hcase
    have hfy := hfindf y hy (fun e => hrm (by simp [← hyi, e])) (fun e => hrm (by simp [← hyi, e]))
    rw [hyi] at hfy
    simp only [hfy]
    rw [isOp_eq_not_isVar, hvar, hvar, ← isOp_eq_not_isVar, hyt]
    simp
  · -- edges are recorded on both sides
    unfold Graph.symmetric
    rw [List.all_eq_true]
    intro x' hx'
    obtain ⟨x, hx, hx1, hx2, rfl⟩ := hnodes x' hx'
    rw [List.all_eq_true]
    intro y' hy'
    obtain ⟨y, hy, hy1, hy2, rfl⟩ := hnodes y' hy'
    have hidx : (detach [m.useless_op_in, m.useless_op]
        (rewriteNode vin.inputs din.name dout.name m.useless_op_out x)).id = x.id :=
      id_rewriteNode _ _ _ _ x
    have hidy : (detach [m.useless_op_in, m.useless_op]
        (rewriteNode vin.inputs din.name dout.name m.useless_op_out y)).id = y.id :=
      id_rewriteNode _ _ _ _ y
    rw [beq_iff_eq, decide_eq_decide, hidx, hidy, hmo x hx, hmi y]
    have := symmetric_edge g hsym x y hx hy
    have hxr := hrmmem x hx1 hx2
    have hyr := hrmmem y hy1 hy2
    rw [this]
    tauto
  · -- edges are recorded once
    unfold Graph.edgesOnce
    rw [List.all_eq_true]
    intro x' hx'
    obtain ⟨x, hx, _, _, rfl⟩ := hnodes x' hx'
    have h := nodup_rewriteNode vin.inputs din.name dout.name m.useless_op_out x
      (edgesOnce_node g honce x hx)
    have h1 : (detach [m.useless_op_in, m.useless_op]
        (rewriteNode vin.inputs din.name dout.name m.useless_op_out x)).inputs.Nodup :=
      h.1.filter _
    have h2 : (detach [m.useless_op_in, m.useless_op]
        (rewriteNode vin.inputs din.name dout.name m.useless_op_out x)).outputs.Nodup :=
      h.2.filter _
    simp [h1, h2]
  · -- producers and consumers agree with the slot names
    unfold Graph.slotsConsistent
    rw [List.all_eq_true]
    intro v' hv'
    obtain ⟨v, hv, hv1, hv2, rfl⟩ := hnodes v' hv'
    cases hvd : v.desc with
    | op d =>
      have : (detach [m.useless_op_in, m.useless_op]
          (rewriteNode vin.inputs din.name dout.name m.useless_op_out v)).desc
          = .op (if v.id ∈ vin.inputs then renamedOutputs d din.name dout.name else d) :=
        desc_rewriteNode_op _ _ _ _ v d hvd
      simp only [this]
    | var dv =>
      have hvdesc : (detach [m.useless_op_in, m.useless_op]
          (rewriteNode vin.inputs din.name dout.name m.useless_op_out v)).desc = .var dv :=
        desc_rewriteNode_var _ _ _ _ v dv hvd
      simp only [hvdesc]
      rw [List.all_eq_true]
      intro q' hq'
      obtain ⟨q, hq, hq1, hq2, rfl⟩ := hnodes q' hq'
      cases hqd : q.desc with
      | var dq =>
        have : (detach [m.useless_op_in, m.useless_op]
            (rewriteNode vin.inputs din.name dout.name m.useless_op_out q)).desc = .var dq :=
          desc_rewriteNode_var _ _ _ _ q dq hqd
        simp only [this]
      | op d =>
        have hqdesc : (detach [m.useless_op_in, m.useless_op]
            (rewriteNode vin.inputs din.name dout.name m.useless_op_out q)).desc
            = .op (if q.id ∈ vin.inputs then renamedOutputs d din.name dout.name else d) :=
          desc_rewriteNode_op _ _ _ _ q d hqd
        have hidq : (detach [m.useless_op_in, m.useless_op]
            (rewriteNode vin.inputs din.name dout.name m.useless_op_out q)).id = q.id :=
          id_rewriteNode _ _ _ _ q
        simp only [hqdesc, hidq]
        obtain ⟨hprodc, hconsc⟩ := slotsConsistent_node g hslots v q dv d hv hq hvd hqd
        have hqr := hrmmem q hq1 hq2
        have hvv : v.IsVar = true := by simp [Node.IsVar, hvd]
        have hvps : v.id ∉ vin.inputs := by
          intro hmem
          have := hpsisop v hv hmem
          rw [isOp_eq_not_isVar, hvv] at this
          cases this
        have hinputs : holdsInput
            (if q.id ∈ vin.inputs then renamedOutputs d din.name dout.name else d) dv.name
            = holdsInput d dv.name := by
          by_cases hqps : q.id ∈ vin.inputs
          · rw [if_pos hqps]; rfl
          · rw [if_neg hqps]
        rw [Bool.and_eq_true, beq_iff_eq, beq_iff_eq, hinputs]
        constructor
        · -- producers
          rw [Bool.eq_iff_iff, decide_eq_true_iff, hmi v q.id]
          by_cases hqps : q.id ∈ vin.inputs
          · rw [if_pos hqps]
            obtain ⟨d0, hd0, hhold⟩ := hpsop q hq hqps
            rw [hqd] at hd0
            cases hd0
            by_cases hvo : v.id = m.useless_op_out
            · have hvvout : v = vout := by
                have := find_of_mem hids hv
                rw [hvo, hout] at this
                exact (Option.some.inj this).symm
              have hname : dv = dout := by
                rw [hvvout, hdout] at hvd
                cases hvd
                rfl
              rw [hname, holdsOutput_renamed_new d _ _ hhold]
              simp [hvo, hqps, hq1, hq2]
            · have hn1 : dv.name ≠ din.name := fun e =>
                hv1 (namesUnique_node g hnames v vin dv din hv hvin_mem.1 hvd hdin e ▸
                  hvin_mem.2)
              have hn2 : dv.name ≠ dout.name := fun e =>
                hvo (namesUnique_node g hnames v vout dv dout hv hvout_mem.1 hvd hdout e ▸
                  hvout_mem.2)
              rw [holdsOutput_renamed_other d _ _ _ hn1 hn2, ← hprodc]
              simp [hvo, hq1, hq2]
          · rw [if_neg hqps, ← hprodc]
            simp [hqps, hq1, hq2]
        · -- consumers
          rw [Bool.eq_iff_iff, decide_eq_true_iff, hmo v hv q.id, ← hconsc]
          simp [hvps, hq1, hq2]
  · -- variable names are unique
    unfold Graph.namesUnique
    rw [List.all_eq_true]
    intro x' hx'
    obtain ⟨x, hx, _, _, rfl⟩ := hnodes x' hx'
    rw [List.all_eq_true]
    intro y' hy'
    obtain ⟨y, hy, _, _, rfl⟩ := hnodes y' hy'
    have hidx : (detach [m.useless_op_in, m.useless_op]
        (rewriteNode vin.inputs din.name dout.name m.useless_op_out x)).id = x.id :=
      id_rewriteNode _ _ _ _ x
    have hidy : (detach [m.useless_op_in, m.useless_op]
        (rewriteNode vin.inputs din.name dout.name m.useless_op_out y)).id = y.id :=
      id_rewriteNode _ _ _ _ y
    cases hxd : x.desc with
    | op d =>
      have : (detach [m.useless_op_in, m.useless_op]
          (rewriteNode vin.inputs din.name dout.name m.useless_op_out x)).desc
          = .op (if x.id ∈ vin.inputs then renamedOutputs d din.name dout.name else d) :=
        desc_rewriteNode_op _ _ _ _ x d hxd
      simp only [this]
    | var dx =>
      have hxdesc : (detach [m.useless_op_in, m.useless_op]
          (rewriteNode vin.inputs din.name dout.name m.useless_op_out x)).desc = .var dx :=
        desc_rewriteNode_var _ _ _ _ x dx hxd
      cases hyd : y.desc with
      | op d =>
        have : (detach [m.useless_op_in, m.useless_op]
            (rewriteNode vin.inputs din.name dout.name m.useless_op_out y)).desc
            = .op (if y.id ∈ vin.inputs then renamedOutputs d din.name dout.name else d) :=
          desc_rewriteNode_op _ _ _ _ y d hyd
        simp only [hxdesc, this]
      | var dy =>
        have hydesc : (detach [m.useless_op_in, m.useless_op]
            (rewriteNode vin.inputs din.name dout.name m.useless_op_out y)).desc = .var dy :=
          desc_rewriteNode_var _ _ _ _ y dy hyd
        simp only [hxdesc, hydesc, hidx, hidy]
        by_cases hn : dx.name = dy.name
        · have := namesUnique_node g hnames x y dx dy hx hy hxd hyd hn
          simp [this]
        · simp [hn]
  · -- no edge to a removed node is left
    intro x' hx'
    obtain ⟨x, hx, _, _, rfl⟩ := hnodes x' hx'
    refine ⟨fun h => ?_, fun h => ?_, fun h => ?_, fun h => ?_⟩
    · exact ((mem_detach_inputs _ _ _).1 h).2 (by simp)
    · exact ((mem_detach_outputs _ _ _).1 h).2 (by simp)
    · exact ((mem_detach_inputs _ _ _).1 h).2 (by simp)
    · exact ((mem_detach_outputs _ _ _).1 h).2 (by simp)

theorem in_more_loop_not_true (g : Graph) (l : List NodeId)
    (h : ∃ p ∈ l, ∃ P d, g.find p = some P ∧ P.desc = .op d ∧
      isControlFlowOrFeed d.type = true) :
    useless_op_in_more_loop g l ≠ .ok true := by
  induction l with
  | nil => obtain ⟨p, hp, _⟩ := h; cases hp
  | cons i rest ih =>
    obtain ⟨p, hp, P, d, hP, hPd, hty⟩ := h
    simp only [useless_op_in_more_loop]
    cases hd : g.deref i with
    | error e => simp
    | ok Q =>
      simp only
      cases hQd : Q.desc with
      | var v => simp
      | op dq =>
        simp only
        by_cases hc : dq.type = "conditional_block" ∨ dq.type = "while" ∨ dq.type = "feed"
        · rw [if_pos hc]; simp
        · rw [if_neg hc]
          apply ih
          rcases List.mem_cons.1 hp with rfl | hp'
          · have hQ := (deref_ok_iff _ _ _).1 hd
            rw [hP] at hQ
            have hPQ : P = Q := Option.some.inj hQ
            rw [hPQ, hQd] at hPd
            cases hPd
            simp only [isControlFlowOrFeed, decide_eq_true_eq] at hty
            exact absurd hty hc
          · exact ⟨p, hp', P, d, hP, hPd, hty⟩

theorem in_more_loop_false_iff (g : Graph) (l : List NodeId)
    (hres : ∀ i ∈ l, ∃ P d, g.find i = some P ∧ P.desc = .op d) :
    useless_op_in_more_loop g l = .ok false ↔
      ∃ p ∈ l, ∃ P d, g.find p = some P ∧ P.desc = .op d ∧
        isControlFlowOrFeed d.type = true := by
  constructor
  · intro h
    by_contra hno
    have hall : ∀ q ∈ l, ∃ Q dQ, g.find q = some Q ∧ Q.desc = .op dQ ∧
        isControlFlowOrFeed dQ.type = false := by
      intro q hq
      obtain ⟨Q, dQ, hQ, hQd⟩ := hres q hq
      refine ⟨Q, dQ, hQ, hQd, ?_⟩
      cases hc : isControlFlowOrFeed dQ.type with
      | false => rfl
      | true => exact absurd ⟨q, hq, Q, dQ, hQ, hQd, hc⟩ hno
    rw [in_more_loop_true g l hall] at h
    cases h
  · intro h
    obtain ⟨b, hb⟩ := in_more_loop_ok g l (fun i hi => by
      obtain ⟨P, d, hP, hPd⟩ := hres i hi
      exact ⟨P, hP, by simp [Node.IsOp, hPd]⟩)
    cases b with
    | false => exact hb
    | true => exact absurd hb (in_more_loop_not_true g l h)

/-- The node with identifier `i` after a completed handler call, when `i` is
neither `useless_op_in` nor `useless_op`: it is in the graph, of the same
variant, a variable keeps its description, and every edge to a node other than
the two removed is kept. -/
theorem handler_keeps (g : Graph) (m : Match) (c : Nat) (g' : Graph) (c' : Nat)
    (h : handler g m c = .ok (g', c')) (i : NodeId) (x : Node) (hx : g.find i = some x)
    (h1 : i ≠ m.useless_op_in) (h2 : i ≠ m.useless_op) :
    ∃ x', g'.find i = some x' ∧ x'.IsVar = x.IsVar ∧ (x.IsVar = true → x'.desc = x.desc) ∧
      (∀ j ∈ x.inputs, j ≠ m.useless_op_in → j ≠ m.useless_op → j ∈ x'.inputs) ∧
      (∀ j ∈ x.outputs, j ≠ m.useless_op_in → j ≠ m.useless_op → j ∈ x'.outputs) := by
  obtain ⟨_, _, _, _, _, g1, _, _, _, _, _, hrun, rfl⟩ := handler_ok_inv g m c g' c' h
  obtain ⟨x1, hx1, hg⟩ := (relinkProducers_grows _ _ _ _ g g1 hrun).1 i x hx
  refine ⟨detach [m.useless_op_in, m.useless_op] x1, ?_, hg.2.2.2.1, hg.2.2.2.2, ?_, ?_⟩
  · rw [find_removeNodes, hx1]
    simp [h1, h2]
  · intro j hj hj1 hj2
    rw [mem_detach_inputs]
    exact ⟨hg.2.1 hj, by simp [hj1, hj2]⟩
  · intro j hj hj1 hj2
    rw [mem_detach_outputs]
    exact ⟨hg.2.2.1 hj, by simp [hj1, hj2]⟩

theorem applyMatches_keeps (ms : List Match) :
    ∀ (g : Graph) (c : Nat) (g' : Graph) (c' : Nat), applyMatches g c ms = .ok (g', c') →
      ∀ (i : NodeId) (x : Node), g.find i = some x →
      (∀ m ∈ ms, i ≠ m.useless_op_in ∧ i ≠ m.useless_op) →
      ∃ x', g'.find i = some x' ∧ x'.IsVar = x.IsVar ∧
        (x.IsVar = true → x'.desc = x.desc) ∧
        (∀ j ∈ x.inputs, (∀ m ∈ ms, j ≠ m.useless_op_in ∧ j ≠ m.useless_op) → j ∈ x'.inputs) ∧
        (∀ j ∈ x.outputs, (∀ m ∈ ms, j ≠ m.useless_op_in ∧ j ≠ m.useless_op) →
          j ∈ x'.outputs) := by
  induction ms with
  | nil =>
    intro g c g' c' h i x hx _
    simp only [applyMatches, Except.ok.injEq, Prod.mk.injEq] at h
    rw [← h.1]
    exact ⟨x, hx, rfl, fun _ => rfl, fun j hj _ => hj, fun j hj _ => hj⟩
  | cons m rest ih =>
    intro g c g' c' h i x hx hne
    simp only [applyMatches] at h
    cases hh : handler g m c with
    | error e => simp [hh] at h
    | ok r =>
      obtain ⟨g1, c1⟩ := r
      simp only [hh] at h
      obtain ⟨h1, h2⟩ := hne m (List.mem_cons_self _ _)
      obtain ⟨x1, hx1, hv1, hd1, hi1, ho1⟩ := handler_keeps g m c g1 c1 hh i x hx h1 h2
      obtain ⟨x2, hx2, hv2, hd2, hi2, ho2⟩ :=
        ih g1 c1 g' c' h i x1 hx1 (fun m' hm' => hne m' (List.mem_cons_of_mem _ hm'))
      refine ⟨x2, hx2, hv2.trans hv1, fun hv => ?_, ?_, ?_⟩
      · rw [hd2 (hv1.trans hv), hd1 hv]
      · intro j hj hall
        obtain ⟨a, b⟩ := hall m (List.mem_cons_self _ _)
        exact hi2 j (hi1 j hj a b) (fun m' hm' => hall m' (List.mem_cons_of_mem _ hm'))
      · intro j hj hall
        obtain ⟨a, b⟩ := hall m (List.mem_cons_self _ _)
        exact ho2 j (ho1 j hj a b) (fun m' hm' => hall m' (List.mem_cons_of_mem _ hm'))

/-- C18: for a variable node whose producers are all operation nodes of the
graph, the `assert_more` predicate of `useless_op_in` returns false exactly
when some producer is of kind "conditional_block", "while" or "feed".  In a
graph with unique node ids whose edges are recorded on both sides, a chain
`P -> v1 -> S -> ..` whose producer `P` is of one of those kinds has `v1`
bound to `useless_op_in` by no match; after every completed run of the pass
`P`, `v1` and `S` are in the graph, `v1` keeps its description and the edges
`P -> v1` and `v1 -> S` are kept on both sides; and when no other node starts
a match the pass returns the graph as it was, with count 0. -/
theorem C18_control_flow_guard (g : Graph) :
    (∀ v : Node, (∀ i ∈ v.inputs, ∃ Q d, g.find i = some Q ∧ Q.desc = .op d) →
      (useless_op_in_more g v = .ok false ↔
        ∃ q ∈ v.inputs, ∃ Q d, g.find q = some Q ∧ Q.desc = .op d ∧
          isControlFlowOrFeed d.type = true)) ∧
    (∀ (p v1 s : NodeId) (P V1 S : Node) (dp ds : OpDesc), g.ids.Nodup →
      g.bipartite = true → g.symmetric = true →
      g.find p = some P → P.desc = .op dp → isControlFlowOrFeed dp.type = true →
      g.find v1 = some V1 → V1.IsVar = true → p ∈ V1.inputs → s ∈ V1.outputs →
      g.find s = some S → S.desc = .op ds → S.inputs = [v1] →
      (useless_op_in_more g V1 = .ok false ∧
        (∀ m, IsMatch g m → m.useless_op_in ≠ v1) ∧
        (∀ ms, detect g = .ok ms → ∀ m ∈ ms, m.useless_op_in ≠ v1) ∧
        (∀ g' c, ApplyImpl g = .ok (g', c) →
          ∃ P' V1' S', g'.find p = some P' ∧ g'.find v1 = some V1' ∧
            g'.find s = some S' ∧ P'.IsOp = true ∧ S'.IsOp = true ∧
            V1'.desc = V1.desc ∧ p ∈ V1'.inputs ∧ s ∈ V1'.outputs ∧
            v1 ∈ P'.outputs ∧ v1 ∈ S'.inputs) ∧
        ((∀ x ∈ g.nodes, x.id ≠ v1 → matchesAt g x = .ok []) →
          detect g = .ok [] ∧ ApplyImpl g = .ok (g, 0)))) := by
  refine ⟨fun v hres => in_more_loop_false_iff g v.inputs hres, ?_⟩
  intro p v1 s P V1 S dp ds hids hbip hsym hP hPd hkind hV1 hV1var hpv hvs hS hSd hSin
  have hnt : useless_op_in_more g V1 ≠ .ok true :=
    in_more_loop_not_true g V1.inputs ⟨p, hpv, P, dp, hP, hPd, hkind⟩
  obtain ⟨hV1mem, hV1id⟩ := find_some_mem hV1
  obtain ⟨hPmem, hPid⟩ := find_some_mem hP
  obtain ⟨hSmem, hSid⟩ := find_some_mem hS
  have huniq : ∀ x ∈ g.nodes, x.id = v1 → x = V1 := by
    intro x hx hid
    have := find_of_mem hids hx
    rw [hid, hV1] at this
    exact (Option.some.inj this).symm
  have hres : ∀ i ∈ V1.inputs, ∃ Q d, g.find i = some Q ∧ Q.desc = .op d := by
    intro i hi
    obtain ⟨Q, hQ, hQop⟩ := bipartite_neighbour g hbip V1 hV1mem i (Or.inl hi)
    rw [hV1var] at hQop
    cases hQd : Q.desc with
    | var w => simp [Node.IsOp, hQd] at hQop
    | op d => exact ⟨Q, d, hQ, hQd⟩
  have hfalse : useless_op_in_more g V1 = .ok false :=
    (in_more_loop_false_iff g V1.inputs hres).2 ⟨p, hpv, P, dp, hP, hPd, hkind⟩
  have hno : ∀ m, IsMatch g m → m.useless_op_in ≠ v1 := by
    intro m hm hmv
    obtain ⟨vin, _, _, hvin, hvid, hteller, _⟩ := hm
    have := huniq vin hvin (hvid.trans hmv)
    subst this
    obtain ⟨_, _, _, _, hmore⟩ := in_teller_true g vin hteller
    exact hnt hmore
  have hdetno : ∀ ms, detect g = .ok ms → ∀ m ∈ ms, m.useless_op_in ≠ v1 :=
    fun ms hdet m hm => hno m (detect_sound g ms hdet m hm)
  obtain ⟨dv, hV1d⟩ : ∃ dv, V1.desc = .var dv := by
    cases hd : V1.desc with
    | op d => simp [Node.IsVar, hd] at hV1var
    | var w => exact ⟨w, rfl⟩
  have hvP : v1 ∈ P.outputs := by
    have := (symmetric_edge g hsym P V1 hPmem hV1mem).2 (by rw [hPid]; exact hpv)
    rwa [hV1id] at this
  have hvS : v1 ∈ S.inputs := by rw [hSin]; exact List.mem_singleton_self _
  -- none of the three nodes is removed by a match
  have hfree : ∀ m, IsMatch g m →
      (p ≠ m.useless_op_in ∧ p ≠ m.useless_op) ∧ (v1 ≠ m.useless_op_in ∧ v1 ≠ m.useless_op) ∧
        (s ≠ m.useless_op_in ∧ s ≠ m.useless_op) := by
    intro m hm
    have hv1in := hno m hm
    obtain ⟨vin, op, vout, hvin, hvid, hteller, hopin, hop, hopt, _⟩ := hm
    obtain ⟨dvin, hvind, _⟩ := in_teller_true g vin hteller
    obtain ⟨dop, hopd, _, _, hmore⟩ := op_teller_true op hopt
    have hfvin : g.find m.useless_op_in = some vin := by
      rw [← hvid]; exact find_of_mem hids hvin
    refine ⟨⟨tag_ne g hP hfvin hPd hvind, ?_⟩, ⟨fun e => hv1in e.symm, ?_⟩,
      ⟨tag_ne g hS hfvin hSd hvind, ?_⟩⟩
    · intro e
      rw [← e, hP] at hop
      have hPop : P = op := Option.some.inj hop
      rw [hPop, hopd] at hPd
      cases hPd
      have hk : dp.type ∉ identityLikeKinds := by
        simp only [isControlFlowOrFeed, decide_eq_true_eq] at hkind
        rcases hkind with h | h | h <;> rw [h] <;> decide
      rw [more_desc_false_of_kind dp hk] at hmore
      cases hmore
    · exact fun e => (tag_ne g hop hV1 hopd hV1d) e.symm
    · intro e
      rw [← e, hS] at hop
      have hSop : S = op := Option.some.inj hop
      have h1 : S.id ∈ vin.outputs := by rw [hSid, e]; exact hopin
      have h2 := (symmetric_edge g hsym vin S hvin hSmem).1 h1
      rw [hSin, List.mem_singleton, hvid] at h2
      exact hv1in h2
  refine ⟨hfalse, hno, hdetno, ?_, ?_⟩
  · intro g' c hrun
    unfold ApplyImpl at hrun
    cases hdet : detect g with
    | error e => simp [hdet] at hrun
    | ok ms =>
      simp only [hdet] at hrun
      have hall : ∀ m ∈ ms, IsMatch g m := fun m hm => detect_sound g ms hdet m hm
      obtain ⟨P', hP', hPv, _, _, hPo⟩ := applyMatches_keeps ms g 0 g' c hrun p P hP
        (fun m hm => (hfree m (hall m hm)).1)
      obtain ⟨V1', hV1', _, hVd, hVi, hVo⟩ := applyMatches_keeps ms g 0 g' c hrun v1 V1 hV1
        (fun m hm => (hfree m (hall m hm)).2.1)
      obtain ⟨S', hS', hSv, _, hSi, _⟩ := applyMatches_keeps ms g 0 g' c hrun s S hS
        (fun m hm => (hfree m (hall m hm)).2.2)
      refine ⟨P', V1', S', hP', hV1', hS', ?_, ?_, hVd hV1var,
        hVi p hpv (fun m hm => (hfree m (hall m hm)).1),
        hVo s hvs (fun m hm => (hfree m (hall m hm)).2.2),
        hPo v1 hvP (fun m hm => (hfree m (hall m hm)).2.1),
        hSi v1 hvS (fun m hm => (hfree m (hall m hm)).2.1)⟩
      · rw [isOp_eq_not_isVar, hPv]; simp [Node.IsVar, hPd]
      · rw [isOp_eq_not_isVar, hSv]; simp [Node.IsVar, hSd]
  · intro honly
    have hallnil : ∀ x ∈ g.nodes, matchesAt g x = .ok [] := by
      intro x hx
      by_cases hid : x.id = v1
      · rw [huniq x hx hid]
        obtain ⟨b, hb⟩ := in_teller_ok g hbip V1 hV1mem
        cases b with
        | false => simp [matchesAt, hb]
        | true =>
          obtain ⟨_, _, _, _, hmore⟩ := in_teller_true g V1 hb
          exact absurd hmore hnt
      · exact honly x hx hid
    have hdet : detect g = .ok [] := detectFrom_nil_of_all g g.nodes hallnil
    exact ⟨hdet, ApplyImpl_no_match g hdet⟩

/-- The chain `feed -> v1 -> scale(1, 0) -> v2`, whose `v1` is non-persistent
with fan-out 1: the guard holds and the pass leaves the graph as it is. -/
theorem C18_control_flow_guard_witness :
    useless_op_in_more chainFeed (mkVar 1 "v1" false [0] [2]) = .ok false ∧
    (∀ m, IsMatch chainFeed m → m.useless_op_in ≠ 1) ∧
    detect chainFeed = .ok [] ∧ ApplyImpl chainFeed = .ok (chainFeed, 0) :=
  have h := (C18_control_flow_guard chainFeed).2 0 1 2
    (mkOp 0 "feed" [] [1] [] [("Out", ["v1"])] [] []) (mkVar 1 "v1" false [0] [2])
    (scaleOp 2 1 3 "v1" "v2") ⟨"feed", [], [("Out", ["v1"])], [], []⟩
    ⟨"scale", [("X", ["v1"])], [("Out", ["v2"])], [("scale", f32_one), ("bias", f32_zero)], []⟩
    (by decide) (by decide) (by decide) (by decide) (by decide) (by decide) (by decide)
    (by decide) (by decide) (by decide) (by decide) (by decide) (by decide)
  ⟨h.1, h.2.1, h.2.2.2.2 (by decide)⟩

/-- In `feed -> v1 -> scale -> v2 -> scale -> v3` the producer of `v1` is a
feed, yet the pass changes the chain `feed -> v1 -> scale -> v2`: the match
at `v2` removes `v2` and renames the output of the first scale to `v3`. -/
theorem C18_counterexample :
    useless_op_in_more chainFeedTwoScales (mkVar 1 "v1" false [0] [2]) = .ok false ∧
    chainFeedTwoScales.find 3 = some (mkVar 3 "v2" false [2] [4]) ∧
    ApplyImpl chainFeedTwoScales = .ok (⟨[
      mkOp 0 "feed" [] [1] [] [("Out", ["v1"])] [] [],
      mkVar 1 "v1" false [0] [2],
      scaleOp 2 1 5 "v1" "v3",
      mkVar 5 "v3" false [2] []]⟩, 1) ∧
    ∀ g' c, ApplyImpl chainFeedTwoScales = .ok (g', c) →
      g' ≠ chainFeedTwoScales ∧ g'.find 3 = none :=
  ⟨by decide, by decide, by decide, fun g' c h => by
    have h2 : ApplyImpl chainFeedTwoScales = .ok (⟨[
      mkOp 0 "feed" [] [1] [] [("Out", ["v1"])] [] [],
      mkVar 1 "v1" false [0] [2],
      scaleOp 2 1 5 "v1" "v3",
      mkVar 5 "v3" false [2] []]⟩, 1) := by decide
    rw [h2] at h
    simp only [Except.ok.injEq, Prod.mk.injEq] at h
    rw [← h.1]
    exact ⟨by decide, by decide⟩⟩

theorem graph_ext_aux (l1 l2 : List Node) (hids : l1.map Node.id = l2.map Node.id)
    (hnd : (l1.map Node.id).Nodup)
    (hfind : ∀ i, l1.find? (fun n => n.id == i) = l2.find? (fun n => n.id == i)) : l1 = l2 := by
  induction l1 generalizing l2 with
  | nil =>
    cases l2 with
    | nil => rfl
    | cons b t => simp at hids
  | cons a t1 ih =>
    cases l2 with
    | nil => simp at hids
    | cons b t2 =>
      simp only [List.map_cons, List.cons.injEq] at hids
      obtain ⟨hab, ht⟩ := hids
      have hnd2 : ((b :: t2).map Node.id).Nodup := by
        rw [List.map_cons, ← hab, ← ht]; exact hnd
      simp only [List.map_cons, List.nodup_cons] at hnd hnd2
      have h0 := hfind a.id
      simp only [List.find?_cons, beq_self_eq_true] at h0
      have hb : (b.id == a.id) = true := by simp [hab]
      rw [hb] at h0
      have hab2 : a = b := Option.some.inj h0
      subst hab2
      congr 1
      apply ih t2 ht hnd.2
      intro i
      by_cases hi : a.id = i
      · have n1 : t1.find? (fun n => n.id == i) = none := by
          rw [List.find?_eq_none]
          intro x hx hxi
          have : x.id = i := by simpa using hxi
          exact hnd.1 (by rw [hi, ← this]; exact List.mem_map_of_mem Node.id hx)
        have n2 : t2.find? (fun n => n.id == i) = none := by
          rw [List.find?_eq_none]
          intro x hx hxi
          have : x.id = i := by simpa using hxi
          exact hnd2.1 (by rw [hi, ← this]; exact List.mem_map_of_mem Node.id hx)
        rw [n1, n2]
      · have := hfind i
        have hne : (a.id == i) = false := by simp [hi]
        simpa only [List.find?_cons, hne] using this

/-- Two graphs with the same identifiers in the same order, each once, and the
same node at every identifier are the same graph. -/
theorem graph_ext (g h : Graph) (hids : g.ids = h.ids) (hnd : g.ids.Nodup)
    (hfind : ∀ i, g.find i = h.find i) : g = h := by
  cases g with
  | mk l1 =>
    cases h with
    | mk l2 =>
      congr 1
      exact graph_ext_aux l1 l2 hids hnd hfind

theorem filter_addIfAbsent (rm : List NodeId) (a : NodeId) (l : List NodeId) (ha : a ∉ rm) :
    (addIfAbsent a l).filter (fun i => !rm.contains i) =
      addIfAbsent a (l.filter (fun i => !rm.contains i)) := by
  unfold addIfAbsent
  by_cases h : a ∈ l
  · have h2 : a ∈ l.filter (fun i => !rm.contains i) := by
      rw [List.mem_filter]; exact ⟨h, by simpa using ha⟩
    rw [if_pos h, if_pos h2]
  · have h2 : a ∉ l.filter (fun i => !rm.contains i) := fun hm => h (List.mem_filter.1 hm).1
    rw [if_neg h, if_neg h2, List.filter_append]
    congr 1
    simp [List.filter_cons, ha]

theorem filter_addProducers (rm : List NodeId) (ps : List NodeId) :
    ∀ l : List NodeId, (∀ p ∈ ps, p ∉ rm) →
      (addProducers ps l).filter (fun i => !rm.contains i) =
        addProducers ps (l.filter (fun i => !rm.contains i)) := by
  induction ps with
  | nil => intro l _; rfl
  | cons p rest ih =>
    intro l h
    have h1 := ih (addIfAbsent p l) (fun q hq => h q (List.mem_cons_of_mem _ hq))
    simp only [addProducers, List.foldl_cons] at h1 ⊢
    rw [h1, filter_addIfAbsent rm p l (h p (List.mem_cons_self _ _))]

theorem rewriteNode_eq_self (ps : List NodeId) (a b : String) (o : NodeId) (n : Node)
    (h1 : n.id ∉ ps) (h2 : n.id ≠ o) : rewriteNode ps a b o n = n := by
  unfold rewriteNode
  rw [if_neg h1, if_neg h2]

theorem detach_rewriteNode (rm ps : List NodeId) (a b : String) (o : NodeId) (n : Node)
    (hps : ∀ p ∈ ps, p ∉ rm) (ho : o ∉ rm) :
    detach rm (rewriteNode ps a b o n) = rewriteNode ps a b o (detach rm n) := by
  obtain ⟨id, ins, outs, desc⟩ := n
  unfold rewriteNode
  show detach rm (if id ∈ ps then _ else if id = o then _ else _) =
    if id ∈ ps then _ else if id = o then _ else _
  by_cases h1 : id ∈ ps
  · rw [if_pos h1, if_pos h1]
    cases desc with
    | var d => rfl
    | op d =>
      show detach rm (relinked _ d a b o) = relinked (detach rm _) d a b o
      simp only [detach, relinked, filter_addIfAbsent rm o outs ho]
  · rw [if_neg h1, if_neg h1]
    by_cases h2 : id = o
    · rw [if_pos h2, if_pos h2]
      simp only [detach, filter_addProducers rm ps ins hps]
    · rw [if_neg h2, if_neg h2]

theorem rewriteNode_comm (ps1 ps2 : List NodeId) (a1 b1 a2 b2 : String) (o1 o2 : NodeId)
    (n : Node) (h1 : ∀ p ∈ ps1, p ∉ ps2 ∧ p ≠ o2) (h2 : o1 ∉ ps2) (h3 : o1 ≠ o2) :
    rewriteNode ps1 a1 b1 o1 (rewriteNode ps2 a2 b2 o2 n) =
      rewriteNode ps2 a2 b2 o2 (rewriteNode ps1 a1 b1 o1 n) := by
  by_cases hx : n.id ∈ ps1 ∨ n.id = o1
  · have e1 : n.id ∉ ps2 := by
      rcases hx with h | h
      · exact (h1 _ h).1
      · rw [h]; exact h2
    have e2 : n.id ≠ o2 := by
      rcases hx with h | h
      · exact (h1 _ h).2
      · rw [h]; exact h3
    rw [rewriteNode_eq_self ps2 a2 b2 o2 n e1 e2]
    rw [rewriteNode_eq_self ps2 a2 b2 o2 _ (by rw [id_rewriteNode]; exact e1)
      (by rw [id_rewriteNode]; exact e2)]
  · have e1 : n.id ∉ ps1 := fun h => hx (Or.inl h)
    have e2 : n.id ≠ o1 := fun h => hx (Or.inr h)
    rw [rewriteNode_eq_self ps1 a1 b1 o1 n e1 e2]
    rw [rewriteNode_eq_self ps1 a1 b1 o1 _ (by rw [id_rewriteNode]; exact e1)
      (by rw [id_rewriteNode]; exact e2)]

theorem detach_comm (rm1 rm2 : List NodeId) (n : Node) :
    detach rm1 (detach rm2 n) = detach rm2 (detach rm1 n) := by
  simp only [detach, List.filter_filter]
  congr 1 <;> (apply congrArg (fun p => List.filter p _); funext i; exact Bool.and_comm _ _)

/-- The handler on the match `m1` and then on the match `m2`, when the two
matches touch different nodes: the node with identifier `i` of the result. -/
theorem handler_twice (g : Graph) (m1 m2 : Match) (c : Nat)
    (vin1 op1 vout1 vin2 op2 vout2 : Node) (din1 dout1 din2 dout2 : VarDesc)
    (hin1 : g.find m1.useless_op_in = some vin1) (hop1 : g.find m1.useless_op = some op1)
    (hout1 : g.find m1.useless_op_out = some vout1)
    (hdin1 : vin1.desc = .var din1) (hdout1 : vout1.desc = .var dout1)
    (hisop1 : op1.IsOp = true) (hnd1 : vin1.inputs.Nodup)
    (hprod1 : ∀ p ∈ vin1.inputs, ∃ P d, g.find p = some P ∧ P.desc = .op d ∧
      holdsOutput d din1.name = true)
    (hin2 : g.find m2.useless_op_in = some vin2) (hop2 : g.find m2.useless_op = some op2)
    (hout2 : g.find m2.useless_op_out = some vout2)
    (hdin2 : vin2.desc = .var din2) (hdout2 : vout2.desc = .var dout2)
    (hisop2 : op2.IsOp = true) (hnd2 : vin2.inputs.Nodup)
    (hprod2 : ∀ p ∈ vin2.inputs, ∃ P d, g.find p = some P ∧ P.desc = .op d ∧
      holdsOutput d din2.name = true)
    (hvo2 : vin2.outputs = [m2.useless_op])
    (hd : ∀ i, (i = m1.useless_op_in ∨ i = m1.useless_op ∨ i = m1.useless_op_out ∨
        i ∈ vin1.inputs) →
      (i = m2.useless_op_in ∨ i = m2.useless_op ∨ i = m2.useless_op_out ∨
        i ∈ vin2.inputs) → False) :
    ∃ g', applyMatches g c [m1, m2] = .ok (g', c + 2) ∧
      g'.ids = (g.ids.filter (fun i => !([m1.useless_op_in, m1.useless_op]).contains i)).filter
        (fun i => !([m2.useless_op_in, m2.useless_op]).contains i) ∧
      ∀ i, g'.find i =
        if i ∈ [m2.useless_op_in, m2.useless_op] then none
        else if i ∈ [m1.useless_op_in, m1.useless_op] then none
        else (g.find i).map (fun n => detach [m2.useless_op_in, m2.useless_op]
          (rewriteNode vin2.inputs din2.name dout2.name m2.useless_op_out
            (detach [m1.useless_op_in, m1.useless_op]
              (rewriteNode vin1.inputs din1.name dout1.name m1.useless_op_out n)))) := by
  obtain ⟨g1, hrun1, hids1, hfind1⟩ := handler_find g m1 c vin1 op1 vout1 din1 dout1 hin1 hop1
    hout1 hdin1 hdout1 hisop1 hnd1 hprod1
  have key : ∀ (i : NodeId) (x : Node), g.find i = some x →
      (i = m2.useless_op_in ∨ i = m2.useless_op ∨ i = m2.useless_op_out ∨ i ∈ vin2.inputs) →
      g1.find i = some (detach [m1.useless_op_in, m1.useless_op] x) := by
    intro i x hx h2
    have a : i ≠ m1.useless_op_in := fun e => hd i (Or.inl e) h2
    have b : i ≠ m1.useless_op := fun e => hd i (Or.inr (Or.inl e)) h2
    have c' : i ≠ m1.useless_op_out := fun e => hd i (Or.inr (Or.inr (Or.inl e))) h2
    have d : i ∉ vin1.inputs := fun e => hd i (Or.inr (Or.inr (Or.inr e))) h2
    have hid : x.id = i := (find_some_mem hx).2
    rw [hfind1, if_neg (by simp [a, b]), hx]
    simp only [Option.map_some']
    rw [rewriteNode_eq_self _ _ _ _ x (by rw [hid]; exact d) (by rw [hid]; exact c')]
  have hrm : ∀ i, (i = m2.useless_op_in ∨ i = m2.useless_op ∨ i = m2.useless_op_out ∨
      i ∈ vin2.inputs) → i ∉ [m1.useless_op_in, m1.useless_op] := by
    intro i h2 hmem
    simp only [List.mem_cons, List.mem_singleton, List.not_mem_nil, or_false] at hmem
    rcases hmem with e | e
    · exact hd i (Or.inl e) h2
    · exact hd i (Or.inr (Or.inl e)) h2
  have hin2' : g1.find m2.useless_op_in = some vin2 := by
    rw [key _ vin2 hin2 (Or.inl rfl), detach_eq_self]
    · intro i hi
      exact hrm i (Or.inr (Or.inr (Or.inr hi)))
    · intro i hi
      rw [hvo2, List.mem_singleton] at hi
      exact hrm i (Or.inr (Or.inl hi))
  have hop2' := key _ op2 hop2 (Or.inr (Or.inl rfl))
  have hout2' := key _ vout2 hout2 (Or.inr (Or.inr (Or.inl rfl)))
  have hprod2' : ∀ p ∈ vin2.inputs, ∃ P d, g1.find p = some P ∧ P.desc = .op d ∧
      holdsOutput d din2.name = true := by
    intro p hp
    obtain ⟨P, d, hP, hPd, hh⟩ := hprod2 p hp
    exact ⟨_, d, key p P hP (Or.inr (Or.inr (Or.inr hp))), hPd, hh⟩
  obtain ⟨g12, hrun2, hids2, hfind2⟩ := handler_find g1 m2 (c + 1) vin2
    (detach [m1.useless_op_in, m1.useless_op] op2)
    (detach [m1.useless_op_in, m1.useless_op] vout2) din2 dout2 hin2' hop2' hout2' hdin2 hdout2
    hisop2 hnd2 hprod2'
  refine ⟨g12, ?_, ?_, ?_⟩
  · simp only [applyMatches, hrun1, hrun2]
  · rw [hids2, hids1]
  · intro i
    rw [hfind2]
    by_cases h2 : i ∈ [m2.useless_op_in, m2.useless_op]
    · rw [if_pos h2, if_pos h2]
    · rw [if_neg h2, if_neg h2, hfind1]
      by_cases h1 : i ∈ [m1.useless_op_in, m1.useless_op]
      · rw [if_pos h1, if_pos h1]; rfl
      · rw [if_neg h1, if_neg h1]
        cases g.find i <;> rfl

/-- C20: in a consistent graph, for two matches whose touched node sets
(`useless_op_in`, `useless_op`, `useless_op_out` and the producers of
`useless_op_in`) are disjoint, the handler applied to `m1` and then to `m2`
completes with the same graph as the handler applied to `m2` and then to `m1`,
and both orders add 2 to the count. -/
theorem C20_order_independence (g : Graph) (m1 m2 : Match) (c : Nat) (hc : g.Consistent)
    (hm1 : IsMatch g m1) (hm2 : IsMatch g m2)
    (hdisj : ∀ i ∈ touched g m1, i ∉ touched g m2) :
    ∃ g', applyMatches g c [m1, m2] = .ok (g', c + 2) ∧
      applyMatches g c [m2, m1] = .ok (g', c + 2) := by
  obtain ⟨vin1, op1, vout1, din1, dout1, dop1, hin1, hop1, hout1, hdin1, hdout1, hdop1, hvo1, _, _,
    _, hnd1, hprod1, _⟩ := live_facts g m1 hc hm1
  obtain ⟨vin2, op2, vout2, din2, dout2, dop2, hin2, hop2, hout2, hdin2, hdout2, hdop2, hvo2, _, _,
    _, hnd2, hprod2, _⟩ := live_facts g m2 hc hm2
  have hd : ∀ i, (i = m1.useless_op_in ∨ i = m1.useless_op ∨ i = m1.useless_op_out ∨
        i ∈ vin1.inputs) →
      (i = m2.useless_op_in ∨ i = m2.useless_op ∨ i = m2.useless_op_out ∨
        i ∈ vin2.inputs) → False := by
    intro i h1 h2
    refine hdisj i ?_ ?_
    · simp only [touched, hin1, List.mem_append, List.mem_cons, List.mem_singleton,
        List.not_mem_nil, or_false]
      tauto
    · simp only [touched, hin2, List.mem_append, List.mem_cons, List.mem_singleton,
        List.not_mem_nil, or_false]
      tauto
  have hisop1 : op1.IsOp = true := by simp [Node.IsOp, hdop1]
  have hisop2 : op2.IsOp = true := by simp [Node.IsOp, hdop2]
  obtain ⟨g12, hrun12, hids12, hfind12⟩ := handler_twice g m1 m2 c vin1 op1 vout1 vin2 op2 vout2
    din1 dout1 din2 dout2 hin1 hop1 hout1 hdin1 hdout1 hisop1 hnd1 hprod1 hin2 hop2 hout2 hdin2
    hdout2 hisop2 hnd2 hprod2 hvo2 hd
  obtain ⟨g21, hrun21, hids21, hfind21⟩ := handler_twice g m2 m1 c vin2 op2 vout2 vin1 op1 vout1
    din2 dout2 din1 dout1 hin2 hop2 hout2 hdin2 hdout2 hisop2 hnd2 hprod2 hin1 hop1 hout1 hdin1
    hdout1 hisop1 hnd1 hprod1 hvo1 (fun i h2 h1 => hd i h1 h2)
  have hrm12 : ∀ p ∈ vin1.inputs, p ∉ [m2.useless_op_in, m2.useless_op] := by
    intro p hp hmem
    simp only [List.mem_cons, List.mem_singleton, List.not_mem_nil, or_false] at hmem
    rcases hmem with e | e
    · exact hd p (Or.inr (Or.inr (Or.inr hp))) (Or.inl e)
    · exact hd p (Or.inr (Or.inr (Or.inr hp))) (Or.inr (Or.inl e))
  have hrm21 : ∀ p ∈ vin2.inputs, p ∉ [m1.useless_op_in, m1.useless_op] := by
    intro p hp hmem
    simp only [List.mem_cons, List.mem_singleton, List.not_mem_nil, or_false] at hmem
    rcases hmem with e | e
    · exact hd p (Or.inl e) (Or.inr (Or.inr (Or.inr hp)))
    · exact hd p (Or.inr (Or.inl e)) (Or.inr (Or.inr (Or.inr hp)))
  have ho12 : m1.useless_op_out ∉ [m2.useless_op_in, m2.useless_op] := by
    intro hmem
    simp only [List.mem_cons, List.mem_singleton, List.not_mem_nil, or_false] at hmem
    rcases hmem with e | e
    · exact hd _ (Or.inr (Or.inr (Or.inl rfl))) (Or.inl e)
    · exact hd _ (Or.inr (Or.inr (Or.inl rfl))) (Or.inr (Or.inl e))
  have ho21 : m2.useless_op_out ∉ [m1.useless_op_in, m1.useless_op] := by
    intro hmem
    simp only [List.mem_cons, List.mem_singleton, List.not_mem_nil, or_false] at hmem
    rcases hmem with e | e
    · exact hd m2.useless_op_out (Or.inl e) (Or.inr (Or.inr (Or.inl rfl)))
    · exact hd m2.useless_op_out (Or.inr (Or.inl e)) (Or.inr (Or.inr (Or.inl rfl)))
  have heq : g21 = g12 := by
    apply graph_ext
    · rw [hids21, hids12, List.filter_filter, List.filter_filter]
      apply congrArg (fun p => List.filter p _)
      funext i
      exact Bool.and_comm _ _
    · rw [hids21]
      exact (hc.1.filter _).filter _
    · intro i
      rw [hfind21, hfind12]
      by_cases h1 : i ∈ [m1.useless_op_in, m1.useless_op]
      · rw [if_pos h1, if_pos h1]
        by_cases h2 : i ∈ [m2.useless_op_in, m2.useless_op]
        · rw [if_pos h2]
        · rw [if_neg h2]
      · rw [if_neg h1, if_neg h1]
        by_cases h2 : i ∈ [m2.useless_op_in, m2.useless_op]
        · rw [if_pos h2, if_pos h2]
        · rw [if_neg h2, if_neg h2]
          cases g.find i with
          | none => rfl
          | some x =>
            simp only [Option.map_some']
            congr 1
            rw [← detach_rewriteNode _ _ _ _ _ _ hrm12 ho12,
              ← detach_rewriteNode _ _ _ _ _ _ hrm21 ho21, detach_comm,
              rewriteNode_comm vin1.inputs vin2.inputs _ _ _ _ _ _ x
                (fun p hp => ⟨fun h => hd p (Or.inr (Or.inr (Or.inr hp)))
                  (Or.inr (Or.inr (Or.inr h))),
                  fun h => hd p (Or.inr (Or.inr (Or.inr hp))) (Or.inr (Or.inr (Or.inl h)))⟩)
                (fun h => hd _ (Or.inr (Or.inr (Or.inl rfl))) (Or.inr (Or.inr (Or.inr h))))
                (fun h => hd _ (Or.inr (Or.inr (Or.inl rfl))) (Or.inr (Or.inr (Or.inl h))))]
  exact ⟨g12, hrun12, heq ▸ hrun21⟩

theorem twoChains_consistent : twoChains.Consistent := by
  refine ⟨by decide, by decide, by decide, by decide, by decide, by decide⟩

theorem twoChains_matches : IsMatch twoChains ⟨1, 2, 3⟩ ∧ IsMatch twoChains ⟨5, 6, 7⟩ :=
  ⟨detect_sound twoChains [⟨1, 2, 3⟩, ⟨5, 6, 7⟩] (by decide) ⟨1, 2, 3⟩ (by decide),
    detect_sound twoChains [⟨1, 2, 3⟩, ⟨5, 6, 7⟩] (by decide) ⟨5, 6, 7⟩ (by decide)⟩

/-- The two chains `relu -> v1 -> scale -> v2` and `relu -> v3 -> scale -> v4`:
both orders leave `relu -> v2` and `relu -> v4` and count 2. -/
theorem C20_order_independence_witness :
    (∀ i ∈ touched twoChains ⟨1, 2, 3⟩, i ∉ touched twoChains ⟨5, 6, 7⟩) ∧
    applyMatches twoChains 0 [⟨1, 2, 3⟩, ⟨5, 6, 7⟩] = .ok (⟨[
      mkOp 0 "relu" [] [3] [] [("Out", ["v2"])] [] [],
      mkVar 3 "v2" false [0] [],
      mkOp 4 "relu" [] [7] [] [("Out", ["v4"])] [] [],
      mkVar 7 "v4" false [4] []]⟩, 2) ∧
    ∃ g', applyMatches twoChains 0 [⟨1, 2, 3⟩, ⟨5, 6, 7⟩] = .ok (g', 0 + 2) ∧
      applyMatches twoChains 0 [⟨5, 6, 7⟩, ⟨1, 2, 3⟩] = .ok (g', 0 + 2) :=
  ⟨by decide, by decide,
    C20_order_independence twoChains ⟨1, 2, 3⟩ ⟨5, 6, 7⟩ 0 twoChains_consistent
      twoChains_matches.1 twoChains_matches.2 (by decide)⟩

theorem chainTwoScalesFirstDone_consistent : chainTwoScalesFirstDone.Consistent := by
  refine ⟨by decide, by decide, by decide, by decide, by decide, by decide⟩

theorem chainTwoScalesFirstDone_match : IsMatch chainTwoScalesFirstDone ⟨3, 4, 5⟩ :=
  detect_sound chainTwoScalesFirstDone [⟨3, 4, 5⟩] (by decide) ⟨3, 4, 5⟩
    (List.mem_singleton_self _)

/-- C2 (amended): the handler has no liveness re-validation and no path that
skips a match.  For every graph, match and counter it never returns the graph
and the counter unchanged; whenever it returns, the counter is one more and
`useless_op_in` and `useless_op` are not in the graph; and on a binding that
satisfies the pattern in a consistent graph it does return, with the counter
one more. -/
theorem C2_handler_never_skips (g : Graph) (m : Match) (c : Nat) :
    handler g m c ≠ .ok (g, c) ∧
    (∀ g' c', handler g m c = .ok (g', c') →
      c' = c + 1 ∧ g' ≠ g ∧ g'.find m.useless_op_in = none ∧ g'.find m.useless_op = none) ∧
    (g.Consistent → IsMatch g m →
      ∃ g', handler g m c = .ok (g', c + 1) ∧ g' ≠ g ∧
        g'.find m.useless_op_in = none ∧ g'.find m.useless_op = none) := by
  have key : ∀ g' c', handler g m c = .ok (g', c') →
      c' = c + 1 ∧ g' ≠ g ∧ g'.find m.useless_op_in = none ∧ g'.find m.useless_op = none := by
    intro g' c' h
    obtain ⟨hc, hi, ho⟩ := handler_removes g m c g' c' h
    obtain ⟨_, vin, _, _, _, g1, hvin, _, _, _, _, _, rfl⟩ := handler_ok_inv g m c g' c' h
    exact ⟨hc, removeNodes_ne_of_find g g1 _ _ vin (List.mem_cons_self _ _) hvin, hi, ho⟩
  refine ⟨fun h => ?_, key, ?_⟩
  · have := (key g c h).1
    omega
  · intro hc hm
    obtain ⟨g', _, _, _, _, hrun, _⟩ := handler_live_nodes g m c hc hm
    exact ⟨g', hrun, (key g' (c + 1) hrun).2⟩

/-- After the rewrite of `(v1, scale, v2)`, which rewired `v2`, the binding
`(v2, scale, v3)` still satisfies the pattern: the handler does not skip it, it
rewrites and counts it. -/
theorem C2_handler_never_skips_witness :
    ∃ g', handler chainTwoScalesFirstDone ⟨3, 4, 5⟩ 1 = .ok (g', 1 + 1) ∧
      g' ≠ chainTwoScalesFirstDone ∧ g'.find 3 = none ∧ g'.find 4 = none :=
  (C2_handler_never_skips chainTwoScalesFirstDone ⟨3, 4, 5⟩ 1).2.2
    chainTwoScalesFirstDone_consistent chainTwoScalesFirstDone_match

/-- C2 (counterexample): the rewrite of `(v2, scale, v3)` removes `v2`, the
node bound to `useless_op_out` of the match `(v1, scale, v2)`.  The handler
invoked on that match does not return the graph and the counter as they were:
every return of the handler removes `useless_op_in` and `useless_op` and counts
one more. -/
theorem C2_counterexample :
    handler chainTwoScales ⟨3, 4, 5⟩ 0 = .ok (chainTwoScalesSecondDone, 1) ∧
    chainTwoScalesSecondDone.find 3 = none ∧
    handler chainTwoScalesSecondDone ⟨1, 2, 3⟩ 1 ≠ .ok (chainTwoScalesSecondDone, 1) ∧
    ∀ g' c', handler chainTwoScalesSecondDone ⟨1, 2, 3⟩ 1 = .ok (g', c') →
      c' = 2 ∧ g'.find 1 = none ∧ g'.find 2 = none :=
  ⟨by decide, by decide,
    fun h => absurd (handler_removes _ _ _ _ _ h).1 (by decide),
    fun g' c' h => handler_removes _ _ _ g' c' h⟩

theorem any_var_iff (l : List Node) (name : String) (p : Node → Prop) [DecidablePred p] :
    l.any (fun v =>
      match v.desc with
      | .var dv => dv.name == name && decide (p v)
      | .op _ => false) = true ↔
    ∃ v ∈ l, ∃ dv, v.desc = .var dv ∧ dv.name = name ∧ p v := by
  rw [List.any_eq_true]
  constructor
  · rintro ⟨v, hv, h⟩
    cases hd : v.desc with
    | op d => simp [hd] at h
    | var dv =>
      simp only [hd, Bool.and_eq_true, beq_iff_eq, decide_eq_true_eq] at h
      exact ⟨v, hv, dv, hd, h.1, h.2⟩
  · rintro ⟨v, hv, dv, hd, hn, hp⟩
    exact ⟨v, hv, by simp [hd, hn, hp]⟩

theorem slotsResolve_iff (g : Graph) :
    g.slotsResolve = true ↔
      ∀ o ∈ g.nodes, ∀ d, o.desc = .op d →
        (∀ s ∈ d.outputs, ∀ name ∈ s.2, ∃ v ∈ g.nodes, ∃ dv, v.desc = .var dv ∧
          dv.name = name ∧ o.id ∈ v.inputs) ∧
        (∀ s ∈ d.inputs, ∀ name ∈ s.2, ∃ v ∈ g.nodes, ∃ dv, v.desc = .var dv ∧
          dv.name = name ∧ o.id ∈ v.outputs) := by
  unfold Graph.slotsResolve
  rw [List.all_eq_true]
  constructor
  · intro h o ho d hd
    have h1 := h o ho
    simp only [hd, Bool.and_eq_true, List.all_eq_true] at h1
    refine ⟨fun s hs name hn => ?_, fun s hs name hn => ?_⟩
    · exact (any_var_iff g.nodes name (fun v => o.id ∈ v.inputs)).1 (h1.1 s hs name hn)
    · exact (any_var_iff g.nodes name (fun v => o.id ∈ v.outputs)).1 (h1.2 s hs name hn)
  · intro h o ho
    cases hd : o.desc with
    | var dv => rfl
    | op d =>
      obtain ⟨h1, h2⟩ := h o ho d hd
      simp only [Bool.and_eq_true, List.all_eq_true]
      refine ⟨fun s hs name hn => ?_, fun s hs name hn => ?_⟩
      · exact (any_var_iff g.nodes name (fun v => o.id ∈ v.inputs)).2 (h1 s hs name hn)
      · exact (any_var_iff g.nodes name (fun v => o.id ∈ v.outputs)).2 (h2 s hs name hn)

theorem holdsOutput_iff (d : OpDesc) (name : String) :
    holdsOutput d name = true ↔ ∃ s ∈ d.outputs, name ∈ s.2 := by
  unfold holdsOutput
  rw [List.any_eq_true]
  constructor
  · rintro ⟨s, hs, h⟩
    exact ⟨s, hs, (contains_iff_mem_name _ _).1 h⟩
  · rintro ⟨s, hs, h⟩
    exact ⟨s, hs, (contains_iff_mem_name _ _).2 h⟩

theorem holdsInput_iff (d : OpDesc) (name : String) :
    holdsInput d name = true ↔ ∃ s ∈ d.inputs, name ∈ s.2 := by
  unfold holdsInput
  rw [List.any_eq_true]
  constructor
  · rintro ⟨s, hs, h⟩
    exact ⟨s, hs, (contains_iff_mem_name _ _).1 h⟩
  · rintro ⟨s, hs, h⟩
    exact ⟨s, hs, (contains_iff_mem_name _ _).2 h⟩

theorem chainScale_slotsResolve : chainScale.slotsResolve = true := by decide

/-- C11: when the graph is consistent and every slot reference of every
operation is the name of a variable of the graph that records the operation,
the handler on a binding that satisfies the pattern completes and the same
holds of the graph it leaves: every producer and consumer entry of a variable
is a slot reference by name and an edge of the operation, and every slot
reference of an operation is the name of a variable of the graph that has the
operation as producer or consumer.  No node that is left has `useless_op_in`
or `useless_op` in its adjacency lists, and no operation that is left holds
the name of `useless_op_in` in a slot. -/
theorem C11_consistency_preserved (g : Graph) (m : Match) (c : Nat) (hc : g.Consistent)
    (hres : g.slotsResolve = true) (hm : IsMatch g m) :
    ∃ g' vin din, handler g m c = .ok (g', c + 1) ∧
      g.find m.useless_op_in = some vin ∧ vin.desc = .var din ∧
      g'.Consistent ∧ g'.slotsResolve = true ∧
      (∀ x ∈ g'.nodes, m.useless_op_in ∉ x.inputs ∧ m.useless_op_in ∉ x.outputs ∧
        m.useless_op ∉ x.inputs ∧ m.useless_op ∉ x.outputs) ∧
      (∀ x ∈ g'.nodes, ∀ d, x.desc = .op d →
        holdsOutput d din.name = false ∧ holdsInput d din.name = false) := by
  obtain ⟨g', hrun, hcons', hnoref⟩ := handler_consistent g m c hc hm
  obtain ⟨g'', vin, vout, din, dout, hrun', hin, hout, hdin, hdout, houtn, hpsop, hids', hnodes,
    hfindf⟩ := handler_live_nodes g m c hc hm
  have hgg : g'' = g' := by
    rw [hrun] at hrun'
    simp only [Except.ok.injEq, Prod.mk.injEq] at hrun'
    exact hrun'.1.symm
  subst hgg
  obtain ⟨vin0, op, vout0, din0, dout0, dop, hin0, hop, hout0, hdin0, hdout0, hdop, hvo, hoi, hoo,
    _, _, _, hoi', hoo', hopi, _⟩ := live_facts g m hc hm
  have e1 : vin = vin0 := Option.some.inj (hin.symm.trans hin0)
  subst e1
  obtain ⟨hids, hbip, hsym, honce, hslots, hnames⟩ := hc
  have hvin_mem := find_some_mem hin
  have hvout_mem := find_some_mem hout
  have hop_mem := find_some_mem hop
  have hres0 := (slotsResolve_iff g).1 hres
  -- a variable of the graph other than `useless_op_in` is left, with its description
  have hkeep : ∀ v ∈ g.nodes, ∀ dv, v.desc = .var dv → v.id ≠ m.useless_op_in →
      ∃ v' ∈ g''.nodes, v'.desc = .var dv ∧
        v' = detach [m.useless_op_in, m.useless_op]
          (rewriteNode vin.inputs din.name dout.name m.useless_op_out v) := by
    intro v hv dv hvd hne
    have hne2 : v.id ≠ m.useless_op := by
      intro e
      have := find_of_mem hids hv
      rw [e, hop] at this
      have hov : op = v := Option.some.inj this
      rw [← hov, hdop] at hvd
      cases hvd
    have hf := hfindf v hv hne hne2
    exact ⟨_, (find_some_mem hf).1, desc_rewriteNode_var _ _ _ _ v dv hvd, rfl⟩
  have huniq : ∀ v ∈ g.nodes, v.id = m.useless_op_in → v = vin := by
    intro v hv hid
    have := find_of_mem hids hv
    rw [hid, hin] at this
    exact (Option.some.inj this).symm
  have hresolve : ∀ o ∈ g''.nodes, ∀ d, o.desc = .op d →
      (∀ s ∈ d.outputs, ∀ name ∈ s.2, ∃ v ∈ g''.nodes, ∃ dv, v.desc = .var dv ∧
        dv.name = name ∧ o.id ∈ v.inputs) ∧
      (∀ s ∈ d.inputs, ∀ name ∈ s.2, ∃ v ∈ g''.nodes, ∃ dv, v.desc = .var dv ∧
        dv.name = name ∧ o.id ∈ v.outputs) := by
    intro o' ho' d' hd'
    obtain ⟨x, hx, hx1, hx2, rfl⟩ := hnodes o' ho'
    have hxrm : x.id ∉ [m.useless_op_in, m.useless_op] := by simp [hx1, hx2]
    have hidF : (detach [m.useless_op_in, m.useless_op]
        (rewriteNode vin.inputs din.name dout.name m.useless_op_out x)).id = x.id :=
      id_rewriteNode _ _ _ _ x
    obtain ⟨d, hxd⟩ : ∃ d, x.desc = .op d := by
      cases hd : x.desc with
      | op d => exact ⟨d, rfl⟩
      | var dv =>
        have := desc_rewriteNode_var vin.inputs din.name dout.name m.useless_op_out x dv hd
        have hd'' : (rewriteNode vin.inputs din.name dout.name m.useless_op_out x).desc =
            .op d' := hd'
        rw [this] at hd''
        cases hd''
    have hdesc : d' = if x.id ∈ vin.inputs then renamedOutputs d din.name dout.name else d := by
      have h1 := desc_rewriteNode_op vin.inputs din.name dout.name m.useless_op_out x d hxd
      have hd'' : (rewriteNode vin.inputs din.name dout.name m.useless_op_out x).desc =
          .op d' := hd'
      rw [h1] at hd''
      exact (NodeDesc.op.inj hd'').symm
    obtain ⟨hro, hri⟩ := hres0 x hx d hxd
    -- a variable that records `x` as producer is left and still records it
    have hprodkeep : ∀ v ∈ g.nodes, ∀ dv, v.desc = .var dv → v.id ≠ m.useless_op_in →
        x.id ∈ v.inputs → ∃ v' ∈ g''.nodes, ∃ dv', v'.desc = .var dv' ∧ dv'.name = dv.name ∧
          x.id ∈ v'.inputs := by
      intro v hv dv hvd hne hmem
      obtain ⟨v', hv', hv'd, rfl⟩ := hkeep v hv dv hvd hne
      refine ⟨_, hv', dv, hv'd, rfl, ?_⟩
      rw [mem_detach_inputs, mem_inputs_rewriteNode _ _ _ _ _ houtn]
      exact ⟨Or.inl hmem, hxrm⟩
    have hconskeep : ∀ v ∈ g.nodes, ∀ dv, v.desc = .var dv → v.id ≠ m.useless_op_in →
        x.id ∈ v.outputs → ∃ v' ∈ g''.nodes, ∃ dv', v'.desc = .var dv' ∧ dv'.name = dv.name ∧
          x.id ∈ v'.outputs := by
      intro v hv dv hvd hne hmem
      obtain ⟨v', hv', hv'd, rfl⟩ := hkeep v hv dv hvd hne
      refine ⟨_, hv', dv, hv'd, rfl, ?_⟩
      rw [mem_detach_outputs, mem_outputs_rewriteNode _ _ _ _ _
        (fun hps => by obtain ⟨dd, hdd, _⟩ := hpsop v hv hps; rw [hdd] at hvd; cases hvd)]
      exact ⟨Or.inl hmem, hxrm⟩
    constructor
    · intro s' hs' name hname
      by_cases hps : x.id ∈ vin.inputs
      · rw [if_pos hps] at hdesc
        rw [hdesc] at hs'
        obtain ⟨s, hs, rfl⟩ := List.mem_map.1 hs'
        obtain ⟨n, hn, hnn⟩ := List.mem_map.1 hname
        by_cases hno : n = din.name
        · rw [if_pos hno] at hnn
          -- the renamed entry: the variable is `useless_op_out`
          have hvoid : vout.id ≠ m.useless_op_in := by rw [hvout_mem.2]; exact hoi'
          obtain ⟨v', hv', hv'd, hv'e⟩ := hkeep vout hvout_mem.1 dout hdout hvoid
          refine ⟨v', hv', dout, hv'd, hnn, ?_⟩
          rw [hidF, hv'e, mem_detach_inputs, mem_inputs_rewriteNode _ _ _ _ _ houtn]
          exact ⟨Or.inr ⟨hvout_mem.2, hps⟩, hxrm⟩
        · rw [if_neg hno] at hnn
          obtain ⟨v, hv, dv, hvd, hvn, hmem⟩ := hro s hs n hn
          have hne : v.id ≠ m.useless_op_in := by
            intro e
            have := huniq v hv e
            rw [this, hdin] at hvd
            cases hvd
            exact hno hvn.symm
          obtain ⟨v', hv', dv', hv'd, hv'n, hv'm⟩ := hprodkeep v hv dv hvd hne hmem
          exact ⟨v', hv', dv', hv'd, by rw [hv'n, hvn, hnn], by rw [hidF]; exact hv'm⟩
      · rw [if_neg hps] at hdesc
        rw [hdesc] at hs'
        obtain ⟨v, hv, dv, hvd, hvn, hmem⟩ := hro s' hs' name hname
        have hne : v.id ≠ m.useless_op_in := by
          intro e
          have := huniq v hv e
          rw [this] at hmem
          exact hps hmem
        obtain ⟨v', hv', dv', hv'd, hv'n, hv'm⟩ := hprodkeep v hv dv hvd hne hmem
        exact ⟨v', hv', dv', hv'd, by rw [hv'n, hvn], by rw [hidF]; exact hv'm⟩
    · intro s' hs' name hname
      have hin' : d'.inputs = d.inputs := by
        rw [hdesc]
        by_cases hps : x.id ∈ vin.inputs
        · rw [if_pos hps]; rfl
        · rw [if_neg hps]
      rw [hin'] at hs'
      obtain ⟨v, hv, dv, hvd, hvn, hmem⟩ := hri s' hs' name hname
      have hne : v.id ≠ m.useless_op_in := by
        intro e
        have := huniq v hv e
        rw [this, hvo, List.mem_singleton] at hmem
        exact hx2 hmem
      obtain ⟨v', hv', dv', hv'd, hv'n, hv'm⟩ := hconskeep v hv dv hvd hne hmem
      exact ⟨v', hv', dv', hv'd, by rw [hv'n, hvn], by rw [hidF]; exact hv'm⟩
  refine ⟨g'', vin, din, hrun, hin, hdin, hcons', (slotsResolve_iff g'').2 hresolve, hnoref, ?_⟩
  -- no slot that is left holds the name of `useless_op_in`
  have hnoname : ∀ v' ∈ g''.nodes, ∀ dv', v'.desc = .var dv' → dv'.name ≠ din.name := by
    intro v' hv' dv' hv'd hn
    obtain ⟨v, hv, hv1, _, rfl⟩ := hnodes v' hv'
    cases hvd : v.desc with
    | op d =>
      have h1 := desc_rewriteNode_op vin.inputs din.name dout.name m.useless_op_out v d hvd
      have hd'' : (rewriteNode vin.inputs din.name dout.name m.useless_op_out v).desc =
          .var dv' := hv'd
      rw [h1] at hd''
      cases hd''
    | var dv =>
      have h1 := desc_rewriteNode_var vin.inputs din.name dout.name m.useless_op_out v dv hvd
      have hd'' : (rewriteNode vin.inputs din.name dout.name m.useless_op_out v).desc =
          .var dv' := hv'd
      rw [h1] at hd''
      have hdv : dv = dv' := NodeDesc.var.inj hd''
      have := namesUnique_node g hnames v vin dv din hv hvin_mem.1 hvd hdin (by rw [hdv, hn])
      rw [hvin_mem.2] at this
      exact hv1 this
  intro x hx d hxd
  obtain ⟨h1, h2⟩ := hresolve x hx d hxd
  constructor
  · cases hh : holdsOutput d din.name with
    | false => rfl
    | true =>
      obtain ⟨s, hs, hn⟩ := (holdsOutput_iff d din.name).1 hh
      obtain ⟨v, hv, dv, hvd, hvn, _⟩ := h1 s hs din.name hn
      exact absurd hvn (hnoname v hv dv hvd)
  · cases hh : holdsInput d din.name with
    | false => rfl
    | true =>
      obtain ⟨s, hs, hn⟩ := (holdsInput_iff d din.name).1 hh
      obtain ⟨v, hv, dv, hvd, hvn, _⟩ := h2 s hs din.name hn
      exact absurd hvn (hnoname v hv dv hvd)

/-- The chain `relu -> v1 -> scale -> v2`: after the rewrite the graph is
consistent, the slot of `relu` names `v2`, and no slot names `v1`. -/
theorem C11_consistency_preserved_witness :
    ∃ g' vin din, handler chainScale ⟨1, 2, 3⟩ 0 = .ok (g', 0 + 1) ∧
      chainScale.find 1 = some vin ∧ vin.desc = .var din ∧
      g'.Consistent ∧ g'.slotsResolve = true ∧
      (∀ x ∈ g'.nodes, (1 : NodeId) ∉ x.inputs ∧ (1 : NodeId) ∉ x.outputs ∧
        (2 : NodeId) ∉ x.inputs ∧ (2 : NodeId) ∉ x.outputs) ∧
      (∀ x ∈ g'.nodes, ∀ d, x.desc = .op d →
        holdsOutput d din.name = false ∧ holdsInput d din.name = false) :=
  C11_consistency_preserved chainScale ⟨1, 2, 3⟩ 0 chainScale_consistent chainScale_slotsResolve
    chainScale_match

theorem RenameOutput_inv (d d' : OpDesc) (a b : String) (h : d.RenameOutput a b = .ok d') :
    d' = renamedOutputs d a b ∧ holdsOutput d a = true := by
  unfold OpDesc.RenameOutput at h
  by_cases hh : (d.outputs.any (fun s => s.2.contains a)) = true
  · rw [if_pos hh] at h
    exact ⟨(Except.ok.inj h).symm, hh⟩
  · rw [if_neg hh] at h
    cases h

theorem holdsOutput_renamed_keep (d : OpDesc) (a b n : String) (h : holdsOutput d n = true)
    (hn : n ≠ a ∨ n = b) : holdsOutput (renamedOutputs d a b) n = true := by
  obtain ⟨s, hs, hmem⟩ := (holdsOutput_iff d n).1 h
  rw [holdsOutput_iff]
  refine ⟨(s.1, renameIn a b s.2), List.mem_map.2 ⟨s, hs, rfl⟩, ?_⟩
  show n ∈ renameIn a b s.2
  unfold renameIn
  rw [List.mem_map]
  refine ⟨n, hmem, ?_⟩
  by_cases e : n = a
  · rw [if_pos e]
    rcases hn with h1 | h1
    · exact absurd e h1
    · exact h1.symm
  · rw [if_neg e]

theorem holdsOutput_renamed_none (d : OpDesc) (a b n : String) (h : holdsOutput d n = false)
    (hn : n ≠ b) : holdsOutput (renamedOutputs d a b) n = false := by
  cases hh : holdsOutput (renamedOutputs d a b) n with
  | false => rfl
  | true =>
    obtain ⟨s', hs', hmem⟩ := (holdsOutput_iff _ n).1 hh
    obtain ⟨s, hs, rfl⟩ := List.mem_map.1 hs'
    obtain ⟨x, hx, hxn⟩ := List.mem_map.1 hmem
    by_cases e : x = a
    · rw [if_pos e] at hxn
      exact absurd hxn.symm hn
    · rw [if_neg e] at hxn
      have : holdsOutput d n = true := (holdsOutput_iff d n).2 ⟨s, hs, hxn ▸ hx⟩
      rw [h] at this
      cases this

theorem find_update_some (g : Graph) (a : NodeId) (f : Node → Node) (i : NodeId) (n : Node)
    (hn : g.find i = some n) (hf : ∀ n, (f n).id = n.id) :
    (g.update a f).find i = some (if i = a then f n else n) := by
  have hid : n.id = i := (find_some_mem hn).2
  rw [find_update g a i f hf, hn]
  simp only [Option.map_some', hid]

/-- One round of the loop over the producers, node by node: the description
of the producer is replaced, the edge is recorded on both sides, nothing else
changes. -/
theorem relink_step_desc (g : Graph) (p o : NodeId) (d' : OpDesc) (i : NodeId) (n : Node)
    (hn : g.find i = some n) :
    ∃ n', (IR_NODE_LINK_TO (g.update p (fun n => { n with desc := .op d' })) p o).find i
        = some n' ∧
      n'.desc = (if i = p then .op d' else n.desc) ∧
      (i = o → p ∈ n'.inputs) ∧ (i = p → o ∈ n'.outputs) := by
  have h1 := find_update_some g p (fun n => { n with desc := .op d' }) i n hn (fun _ => rfl)
  obtain ⟨n1, hn1, hd1⟩ : ∃ n1, (g.update p (fun n => { n with desc := .op d' })).find i =
      some n1 ∧ n1.desc = (if i = p then .op d' else n.desc) := by
    refine ⟨_, h1, ?_⟩
    by_cases e : i = p
    · rw [if_pos e, if_pos e]
    · rw [if_neg e, if_neg e]
  have h2 := find_update_some _ p (fun n => { n with outputs := addIfAbsent o n.outputs }) i n1
    hn1 (fun _ => rfl)
  obtain ⟨n2, hn2, hd2, ho2⟩ : ∃ n2, ((g.update p (fun n => { n with desc := .op d' })).update p
      (fun n => { n with outputs := addIfAbsent o n.outputs })).find i = some n2 ∧
      n2.desc = n1.desc ∧ (i = p → o ∈ n2.outputs) := by
    refine ⟨_, h2, ?_, ?_⟩
    · by_cases e : i = p
      · rw [if_pos e]
      · rw [if_neg e]
    · intro e
      rw [if_pos e]
      exact mem_addIfAbsent_self _ _
  have h3 := find_update_some _ o (fun n => { n with inputs := addIfAbsent p n.inputs }) i n2
    hn2 (fun _ => rfl)
  unfold IR_NODE_LINK_TO
  refine ⟨_, h3, ?_, ?_, ?_⟩
  · by_cases e : i = o
    · rw [if_pos e]; exact hd2.trans hd1
    · rw [if_neg e]; exact hd2.trans hd1
  · intro e
    rw [if_pos e]
    exact mem_addIfAbsent_self _ _
  · intro e
    by_cases e2 : i = o
    · rw [if_pos e2]; exact ho2 e
    · rw [if_neg e2]; exact ho2 e

/-- A property of the description of an operation that `RenameOutput` keeps
holds after the loop over the producers. -/
theorem relinkProducers_desc (a b : String) (o : NodeId) (Ψ : OpDesc → Prop)
    (hΨ : ∀ d, Ψ d → Ψ (renamedOutputs d a b)) (ps : List NodeId) :
    ∀ g g1 : Graph, relinkProducers g a b o ps = .ok g1 →
      ∀ i x d, g.find i = some x → x.desc = .op d → Ψ d →
        ∃ x1 d1, g1.find i = some x1 ∧ x1.desc = .op d1 ∧ Ψ d1 := by
  induction ps with
  | nil =>
    intro g g1 h i x d hx hd hp
    simp only [relinkProducers, Except.ok.injEq] at h
    subst h
    exact ⟨x, d, hx, hd, hp⟩
  | cons p rest ih =>
    intro g g1 h i x d hx hd hp
    simp only [relinkProducers] at h
    cases hdp : g.deref p with
    | error e => simp [hdp] at h
    | ok P =>
      simp only [hdp] at h
      cases hPd : P.desc with
      | var v => simp [hPd] at h
      | op dP =>
        simp only [hPd] at h
        cases hr : dP.RenameOutput a b with
        | error e => simp [hr] at h
        | ok d' =>
          simp only [hr] at h
          have hP := (deref_ok_iff _ _ _).1 hdp
          obtain ⟨hd', _⟩ := RenameOutput_inv dP d' a b hr
          obtain ⟨x1, hx1, hx1d, _, _⟩ := relink_step_desc g p o d' i x hx
          by_cases e : i = p
          · rw [if_pos e] at hx1d
            have hxP : x = P := by
              rw [e, hP] at hx
              exact (Option.some.inj hx).symm
            rw [hxP, hPd] at hd
            have hdd : dP = d := NodeDesc.op.inj hd
            exact ih _ g1 h i x1 d' hx1 hx1d (by rw [hd', hdd]; exact hΨ d hp)
          · rw [if_neg e] at hx1d
            exact ih _ g1 h i x1 d hx1 (hx1d.trans hd) hp

/-- After the loop over the producers every producer holds the new name in its
output slots and no longer the old one, and is among the producers of `o`. -/
theorem relinkProducers_links (a b : String) (o : NodeId) (ps : List NodeId) :
    ∀ g g1 : Graph, relinkProducers g a b o ps = .ok g1 → ∀ q ∈ ps,
      (∃ Q1 dq, g1.find q = some Q1 ∧ Q1.desc = .op dq ∧ holdsOutput dq b = true ∧
        (a ≠ b → holdsOutput dq a = false)) ∧
      (∀ O, g.find o = some O → ∃ O1, g1.find o = some O1 ∧ q ∈ O1.inputs) := by
  induction ps with
  | nil => intro g g1 _ q hq; cases hq
  | cons p rest ih =>
    intro g g1 h q hq
    have h0 := h
    simp only [relinkProducers] at h
    cases hdp : g.deref p with
    | error e => simp [hdp] at h
    | ok P =>
      simp only [hdp] at h
      cases hPd : P.desc with
      | var v => simp [hPd] at h
      | op dP =>
        simp only [hPd] at h
        cases hr : dP.RenameOutput a b with
        | error e => simp [hr] at h
        | ok d' =>
          simp only [hr] at h
          have hP := (deref_ok_iff _ _ _).1 hdp
          obtain ⟨hd', hheld⟩ := RenameOutput_inv dP d' a b hr
          rcases List.mem_cons.1 hq with rfl | hq'
          · constructor
            · obtain ⟨x1, hx1, hx1d, _, _⟩ := relink_step_desc g q o d' q P hP
              rw [if_pos rfl] at hx1d
              obtain ⟨x2, d2, hx2, hx2d, hΨ2⟩ := relinkProducers_desc a b o
                (fun d => holdsOutput d b = true ∧ (a ≠ b → holdsOutput d a = false))
                (fun d hd => ⟨holdsOutput_renamed_keep d a b b hd.1 (Or.inr rfl),
                  fun hab => holdsOutput_renamed_old d a b hab⟩)
                rest _ g1 h q x1 d' hx1 hx1d
                (by
                  rw [hd']
                  exact ⟨holdsOutput_renamed_new dP a b hheld,
                    fun hab => holdsOutput_renamed_old dP a b hab⟩)
              exact ⟨x2, d2, hx2, hx2d, hΨ2⟩
            · intro O hO
              obtain ⟨O1, hO1, _, hin, _⟩ := relink_step_desc g q o d' o O hO
              obtain ⟨O2, hO2, hg⟩ := (relinkProducers_grows a b o rest _ g1 h).1 o O1 hO1
              exact ⟨O2, hO2, hg.2.1 (hin rfl)⟩
          · obtain ⟨h1, h2⟩ := ih _ g1 h q hq'
            refine ⟨h1, fun O hO => ?_⟩
            obtain ⟨O1, hO1, _⟩ := relink_step_desc g p o d' o O hO
            exact h2 O1 hO1

theorem handler_ok_nodes (g : Graph) (m : Match) (c : Nat) (g' : Graph) (c' : Nat)
    (h : handler g m c = .ok (g', c')) :
    ∃ vin din vout dout, g.find m.useless_op_in = some vin ∧ vin.desc = .var din ∧
      g.find m.useless_op_out = some vout ∧ vout.desc = .var dout := by
  obtain ⟨_, vin, din, vout, dout, _, a, b, c, d, _⟩ := handler_ok_inv g m c g' c' h
  exact ⟨vin, din, vout, dout, a, b, c, d⟩

/-- After a completed handler call every producer of `useless_op_in` that is
left has the edge to `useless_op_out` on both sides and holds the name of
`useless_op_out`, not that of `useless_op_in`, in its output slots. -/
theorem handler_links (g : Graph) (m : Match) (c : Nat) (g' : Graph) (c' : Nat)
    (h : handler g m c = .ok (g', c')) (vin vout : Node) (din dout : VarDesc)
    (hin : g.find m.useless_op_in = some vin) (hdin : vin.desc = .var din)
    (hout : g.find m.useless_op_out = some vout) (hdout : vout.desc = .var dout)
    (q : NodeId) (hq : q ∈ vin.inputs) (hq1 : q ≠ m.useless_op_in) (hq2 : q ≠ m.useless_op)
    (ho1 : m.useless_op_out ≠ m.useless_op_in) (ho2 : m.useless_op_out ≠ m.useless_op) :
    ∃ Q' dq' Vout', g'.find q = some Q' ∧ m.useless_op_out ∈ Q'.outputs ∧
      Q'.desc = .op dq' ∧ holdsOutput dq' dout.name = true ∧
      (din.name ≠ dout.name → holdsOutput dq' din.name = false) ∧
      g'.find m.useless_op_out = some Vout' ∧ q ∈ Vout'.inputs := by
  obtain ⟨_, vin', din', vout', dout', g1, hin', hdin', hout', hdout', _, hrun, rfl⟩ :=
    handler_ok_inv g m c g' c' h
  have e1 : vin' = vin := Option.some.inj (hin'.symm.trans hin)
  have e2 : vout' = vout := Option.some.inj (hout'.symm.trans hout)
  subst e1 e2
  have e3 : din' = din := NodeDesc.var.inj (hdin'.symm.trans hdin)
  have e4 : dout' = dout := NodeDesc.var.inj (hdout'.symm.trans hdout)
  subst e3 e4
  obtain ⟨⟨Q1, dq, hQ1, hQ1d, hnew, hold⟩, hdst⟩ :=
    relinkProducers_links _ _ _ _ g g1 hrun q hq
  obtain ⟨Q1', hQ1', hoQ⟩ := (relinkProducers_grows _ _ _ _ g g1 hrun).2 q hq
  have eQ : Q1' = Q1 := Option.some.inj (hQ1'.symm.trans hQ1)
  subst eQ
  obtain ⟨O1, hO1, hqO⟩ := hdst vout' hout'
  refine ⟨detach [m.useless_op_in, m.useless_op] Q1', dq,
    detach [m.useless_op_in, m.useless_op] O1, ?_, ?_, hQ1d, hnew, hold, ?_, ?_⟩
  · rw [find_removeNodes, hQ1', if_neg (by simp [hq1, hq2])]; rfl
  · rw [mem_detach_outputs]
    exact ⟨hoQ, by simp [ho1, ho2]⟩
  · rw [find_removeNodes, hO1, if_neg (by simp [ho1, ho2])]; rfl
  · rw [mem_detach_inputs]
    exact ⟨hqO, by simp [hq1, hq2]⟩

/-- A property of the description of an operation that `RenameOutput` keeps
holds after a completed handler call, for an operation that is left. -/
theorem handler_desc_inv (g : Graph) (m : Match) (c : Nat) (g' : Graph) (c' : Nat)
    (h : handler g m c = .ok (g', c')) (vin vout : Node) (din dout : VarDesc)
    (hin : g.find m.useless_op_in = some vin) (hdin : vin.desc = .var din)
    (hout : g.find m.useless_op_out = some vout) (hdout : vout.desc = .var dout)
    (Ψ : OpDesc → Prop) (hΨ : ∀ d, Ψ d → Ψ (renamedOutputs d din.name dout.name))
    (i : NodeId) (x : Node) (d : OpDesc) (hx : g.find i = some x) (hd : x.desc = .op d)
    (hp : Ψ d) (h1 : i ≠ m.useless_op_in) (h2 : i ≠ m.useless_op) :
    ∃ x' d', g'.find i = some x' ∧ x'.desc = .op d' ∧ Ψ d' := by
  obtain ⟨_, vin', din', vout', dout', g1, hin', hdin', hout', hdout', _, hrun, rfl⟩ :=
    handler_ok_inv g m c g' c' h
  have e1 : vin' = vin := Option.some.inj (hin'.symm.trans hin)
  have e2 : vout' = vout := Option.some.inj (hout'.symm.trans hout)
  subst e1 e2
  have e3 : din' = din := NodeDesc.var.inj (hdin'.symm.trans hdin)
  have e4 : dout' = dout := NodeDesc.var.inj (hdout'.symm.trans hdout)
  subst e3 e4
  obtain ⟨x1, d1, hx1, hx1d, hp1⟩ :=
    relinkProducers_desc _ _ _ Ψ hΨ _ g g1 hrun i x d hx hd hp
  refine ⟨detach [m.useless_op_in, m.useless_op] x1, d1, ?_, hx1d, hp1⟩
  rw [find_removeNodes, hx1, if_neg (by simp [h1, h2])]; rfl

theorem handler_varsFrom (g0 g : Graph) (m : Match) (c : Nat) (g' : Graph) (c' : Nat)
    (h : handler g m c = .ok (g', c')) (hsub : varsFrom g0 g) : varsFrom g0 g' := by
  intro i x' hx' hv
  cases hf : g.find i with
  | none =>
    rw [handler_absent g m c g' c' h i hf] at hx'
    cases hx'
  | some x =>
    obtain ⟨_, hr1, hr2⟩ := handler_removes g m c g' c' h
    have h1 : i ≠ m.useless_op_in := by
      intro e; rw [e, hr1] at hx'; cases hx'
    have h2 : i ≠ m.useless_op := by
      intro e; rw [e, hr2] at hx'; cases hx'
    obtain ⟨x'', hx'', hv'', hd'', _⟩ := handler_keeps g m c g' c' h i x hf h1 h2
    have e : x'' = x' := Option.some.inj (hx''.symm.trans hx')
    subst e
    have hxv : x.IsVar = true := hv''.symm.trans hv
    obtain ⟨x0, hx0, hx0d⟩ := hsub i x hf hxv
    exact ⟨x0, hx0, hx0d.trans (hd'' hxv).symm⟩

/-- A variable of a graph of the run that is not the node `b` of the graph
the run started on does not have the name of `b`. -/
theorem name_ne_of_varsFrom (g0 gk : Graph) (hnames : g0.namesUnique = true)
    (hsub : varsFrom g0 gk) (a b : NodeId) (A B : Node) (dA dB : VarDesc)
    (hA : gk.find a = some A) (hAd : A.desc = .var dA) (hB : g0.find b = some B)
    (hBd : B.desc = .var dB) (hab : a ≠ b) : dA.name ≠ dB.name := by
  intro hn
  obtain ⟨x0, hx0, hx0d⟩ := hsub a A hA (by simp [Node.IsVar, hAd])
  have h1 := find_some_mem hx0
  have h2 := find_some_mem hB
  have := namesUnique_node g0 hnames x0 B dA dB h1.1 h2.1 (hx0d.trans hAd) hBd hn
  rw [h1.2, h2.2] at this
  exact hab this

theorem chain_step_other_pending (g0 gk : Graph) (p v1 s v2 : NodeId) (V1 : Node)
    (d1 d2 : VarDesc) (hnames : g0.namesUnique = true)
    (hV1 : g0.find v1 = some V1) (hV1d : V1.desc = .var d1)
    (m : Match) (c : Nat) (g' : Graph) (c' : Nat) (h : handler gk m c = .ok (g', c'))
    (hsub : varsFrom g0 gk)
    (hb : ∀ i ∈ [p, v1, s, v2],
      i ≠ m.useless_op_in ∧ i ≠ m.useless_op ∧ i ≠ m.useless_op_out)
    (hpend : chainPending gk p v1 v2 d1 d2) : chainPending g' p v1 v2 d1 d2 := by
  obtain ⟨⟨Pk, dk, hPk, hPkd, hhold⟩, ⟨V1k, hV1k, hV1kd, hpin⟩, ⟨V2k, hV2k, hV2kd⟩⟩ := hpend
  obtain ⟨vin, din, vout, dout, hin, hdin, hout, hdout⟩ := handler_ok_nodes gk m c g' c' h
  have bp := hb p (by simp)
  have b1 := hb v1 (by simp)
  have b2 := hb v2 (by simp)
  have hn1 : din.name ≠ d1.name :=
    name_ne_of_varsFrom g0 gk hnames hsub _ v1 vin V1 din d1 hin hdin hV1 hV1d (Ne.symm b1.1)
  refine ⟨?_, ?_, ?_⟩
  · exact handler_desc_inv gk m c g' c' h vin vout din dout hin hdin hout hdout
      (fun d => holdsOutput d d1.name = true)
      (fun d hd => holdsOutput_renamed_keep d _ _ _ hd (Or.inl (Ne.symm hn1)))
      p Pk dk hPk hPkd hhold bp.1 bp.2.1
  · obtain ⟨x', hx', _, hd', hi', _⟩ := handler_keeps gk m c g' c' h v1 V1k hV1k b1.1 b1.2.1
    exact ⟨x', hx', (hd' (by simp [Node.IsVar, hV1kd])).trans hV1kd, hi' p hpin bp.1 bp.2.1⟩
  · obtain ⟨x', hx', _, hd', _⟩ := handler_keeps gk m c g' c' h v2 V2k hV2k b2.1 b2.2.1
    exact ⟨x', hx', (hd' (by simp [Node.IsVar, hV2kd])).trans hV2kd⟩

theorem chain_step_other_done (g0 gk : Graph) (p v1 s v2 : NodeId) (V1 V2 : Node)
    (d1 d2 : VarDesc) (hnames : g0.namesUnique = true)
    (hV1 : g0.find v1 = some V1) (hV1d : V1.desc = .var d1)
    (hV2 : g0.find v2 = some V2) (hV2d : V2.desc = .var d2)
    (m : Match) (c : Nat) (g' : Graph) (c' : Nat) (h : handler gk m c = .ok (g', c'))
    (hsub : varsFrom g0 gk)
    (hb : ∀ i ∈ [p, v1, s, v2],
      i ≠ m.useless_op_in ∧ i ≠ m.useless_op ∧ i ≠ m.useless_op_out)
    (hdone : chainDone gk p v1 s v2 d1 d2) : chainDone g' p v1 s v2 d1 d2 := by
  obtain ⟨ha1, ha2, Pk, dk, V2k, hPk, hPo, hPkd, hh2, hh1, hV2k, hV2i, hV2kd⟩ := hdone
  obtain ⟨vin, din, vout, dout, hin, hdin, hout, hdout⟩ := handler_ok_nodes gk m c g' c' h
  have bp := hb p (by simp)
  have b1 := hb v1 (by simp)
  have b2 := hb v2 (by simp)
  have hn2 : din.name ≠ d2.name :=
    name_ne_of_varsFrom g0 gk hnames hsub _ v2 vin V2 din d2 hin hdin hV2 hV2d (Ne.symm b2.1)
  have hn1 : dout.name ≠ d1.name :=
    name_ne_of_varsFrom g0 gk hnames hsub _ v1 vout V1 dout d1 hout hdout hV1 hV1d
      (Ne.symm b1.2.2)
  obtain ⟨P', dP', hP', hP'd, hΨ1, hΨ2⟩ :=
    handler_desc_inv gk m c g' c' h vin vout din dout hin hdin hout hdout
      (fun d => holdsOutput d d2.name = true ∧ holdsOutput d d1.name = false)
      (fun d hd => ⟨holdsOutput_renamed_keep d _ _ _ hd.1 (Or.inl (Ne.symm hn2)),
        holdsOutput_renamed_none d _ _ _ hd.2 (Ne.symm hn1)⟩)
      p Pk dk hPk hPkd ⟨hh2, hh1⟩ bp.1 bp.2.1
  obtain ⟨P'', hP'', _, _, _, hPo'⟩ := handler_keeps gk m c g' c' h p Pk hPk bp.1 bp.2.1
  have eP : P'' = P' := Option.some.inj (hP''.symm.trans hP')
  subst eP
  obtain ⟨V2', hV2', _, hd2', hi2', _⟩ := handler_keeps gk m c g' c' h v2 V2k hV2k b2.1 b2.2.1
  exact ⟨handler_absent gk m c g' c' h v1 ha1, handler_absent gk m c g' c' h s ha2, P'', dP', V2',
    hP', hPo' v2 hPo b2.1 b2.2.1, hP'd, hΨ1, hΨ2, hV2', hi2' p hV2i bp.1 bp.2.1,
    (hd2' (by simp [Node.IsVar, hV2kd])).trans hV2kd⟩

theorem chain_step_match (gk : Graph) (p v1 s v2 : NodeId) (d1 d2 : VarDesc)
    (c : Nat) (g' : Graph) (c' : Nat) (h : handler gk ⟨v1, s, v2⟩ c = .ok (g', c'))
    (hpv : p ≠ v1) (hps : p ≠ s) (h21 : v2 ≠ v1) (h2s : v2 ≠ s) (hname : d1.name ≠ d2.name)
    (hpend : chainPending gk p v1 v2 d1 d2) : chainDone g' p v1 s v2 d1 d2 := by
  obtain ⟨⟨Pk, dk, hPk, hPkd, hhold⟩, ⟨V1k, hV1k, hV1kd, hpin⟩, ⟨V2k, hV2k, hV2kd⟩⟩ := hpend
  obtain ⟨_, hr1, hr2⟩ := handler_removes gk _ c g' c' h
  obtain ⟨Q', dq', Vout', hQ', hQo, hQd, hnew, hold, hVout', hVi⟩ :=
    handler_links gk ⟨v1, s, v2⟩ c g' c' h V1k V2k d1 d2 hV1k hV1kd hV2k hV2kd p hpin hpv hps
      h21 h2s
  obtain ⟨V2', hV2', _, hd2', _⟩ := handler_keeps gk _ c g' c' h v2 V2k hV2k h21 h2s
  have e : V2' = Vout' := Option.some.inj (hV2'.symm.trans hVout')
  subst e
  exact ⟨hr1, hr2, Q', dq', V2', hQ', hQo, hQd, hnew, hold hname, hVout', hVi,
    (hd2' (by simp [Node.IsVar, hV2kd])).trans hV2kd⟩

/-- A run over listed matches of which the match of the chain is one and the
others bind none of the four nodes of the chain: if it completes, the chain is
rewritten in the graph it leaves. -/
theorem applyMatches_chain (g0 : Graph) (p v1 s v2 : NodeId) (V1 V2 : Node)
    (d1 d2 : VarDesc) (hnames : g0.namesUnique = true)
    (hV1 : g0.find v1 = some V1) (hV1d : V1.desc = .var d1)
    (hV2 : g0.find v2 = some V2) (hV2d : V2.desc = .var d2)
    (hpv : p ≠ v1) (hps : p ≠ s) (h21 : v2 ≠ v1) (h2s : v2 ≠ s) (ms : List Match) :
    ∀ (gk : Graph) (c : Nat) (g' : Graph) (c' : Nat), varsFrom g0 gk →
      (∀ m ∈ ms, m = ⟨v1, s, v2⟩ ∨ ∀ i ∈ [p, v1, s, v2],
        i ≠ m.useless_op_in ∧ i ≠ m.useless_op ∧ i ≠ m.useless_op_out) →
      applyMatches gk c ms = .ok (g', c') →
      (chainPending gk p v1 v2 d1 d2 ∧ (⟨v1, s, v2⟩ : Match) ∈ ms) ∨
        chainDone gk p v1 s v2 d1 d2 →
      chainDone g' p v1 s v2 d1 d2 := by
  have hname : d1.name ≠ d2.name := by
    intro hn
    have h1 := find_some_mem hV1
    have h2 := find_some_mem hV2
    have := namesUnique_node g0 hnames V1 V2 d1 d2 h1.1 h2.1 hV1d hV2d hn
    rw [h1.2, h2.2] at this
    exact h21 this.symm
  induction ms with
  | nil =>
    intro gk c g' c' _ _ h hst
    simp only [applyMatches, Except.ok.injEq, Prod.mk.injEq] at h
    rw [← h.1]
    rcases hst with ⟨_, hm⟩ | hd
    · cases hm
    · exact hd
  | cons m rest ih =>
    intro gk c g' c' hsub hall h hst
    simp only [applyMatches] at h
    cases hh : handler gk m c with
    | error e => simp [hh] at h
    | ok r =>
      obtain ⟨g1, c1⟩ := r
      simp only [hh] at h
      have hsub1 := handler_varsFrom g0 gk m c g1 c1 hh hsub
      have hall1 : ∀ m' ∈ rest, m' = ⟨v1, s, v2⟩ ∨ ∀ i ∈ [p, v1, s, v2],
          i ≠ m'.useless_op_in ∧ i ≠ m'.useless_op ∧ i ≠ m'.useless_op_out :=
        fun m' hm' => hall m' (List.mem_cons_of_mem _ hm')
      rcases hall m (List.mem_cons_self _ _) with hm0 | hb
      · -- the match of the chain
        subst hm0
        rcases hst with ⟨hpend, _⟩ | hd
        · exact ih g1 c1 g' c' hsub1 hall1 h
            (Or.inr (chain_step_match gk p v1 s v2 d1 d2 c g1 c1 hh hpv hps h21 h2s hname hpend))
        · obtain ⟨vin, _, _, _, hin, _⟩ := handler_ok_nodes gk _ c g1 c1 hh
          have hin' : gk.find v1 = some vin := hin
          rw [hd.1] at hin'
          cases hin'
      · -- another match
        rcases hst with ⟨hpend, hmem⟩ | hd
        · have hne : (⟨v1, s, v2⟩ : Match) ≠ m := by
            intro e
            have := (hb v1 (by simp)).1
            rw [← e] at this
            exact this rfl
          have hmem' : (⟨v1, s, v2⟩ : Match) ∈ rest := by
            rcases List.mem_cons.1 hmem with e | e
            · exact absurd e hne
            · exact e
          exact ih g1 c1 g' c' hsub1 hall1 h
            (Or.inl ⟨chain_step_other_pending g0 gk p v1 s v2 V1 d1 d2 hnames hV1 hV1d m c g1 c1
              hh hsub hb hpend, hmem'⟩)
        · exact ih g1 c1 g' c' hsub1 hall1 h
            (Or.inr (chain_step_other_done g0 gk p v1 s v2 V1 V2 d1 d2 hnames hV1 hV1d hV2 hV2d
              m c g1 c1 hh hsub hb hd))

theorem detectFrom_complete (g : Graph) (l : List Node) :
    ∀ ms, detectFrom g l = .ok ms → ∀ x ∈ l, ∀ a, matchesAt g x = .ok a → ∀ m ∈ a, m ∈ ms := by
  induction l with
  | nil => intro ms _ x hx; cases hx
  | cons y rest ih =>
    intro ms h x hx a ha m hm
    simp only [detectFrom] at h
    cases hy : matchesAt g y with
    | error e => simp [hy] at h
    | ok here =>
      cases hr : detectFrom g rest with
      | error e => simp [hy, hr] at h
      | ok more =>
        simp only [hy, hr, Except.ok.injEq] at h
        subst h
        rcases List.mem_cons.1 hx with rfl | hx'
        · rw [hy] at ha
          have : here = a := Except.ok.inj ha
          subst this
          exact List.mem_append_left _ hm
        · exact List.mem_append_right _ (ih more hr x hx' a ha m hm)

/-- C1 (amended): in a graph with unique node identifiers that contains a
chain `P -> v1 -> Scale(scale=1, bias=0) -> v2`, with `v1` non-persistent and
consumed only by the scale operation, every producer of `v1` an operation of a
kind other than `conditional_block`, `while` and `feed` that holds the name of
`v1` in its output slots, and the scale operation with the one input `v1` and
the one output `v2`, the detector lists the match of the chain.  When variable
names are unique, after every completed run of `ApplyImpl` in which every
other listed match binds none of `P`, `v1`, the scale operation and `v2`,
neither `v1` nor the scale operation is in the graph, `P` has `v2` among its
outputs and `v2` has `P` among its producers, and the output slots of `P` hold
the name of `v2` and no longer the name of `v1`.  When no other node starts a
match the run completes, reports 1, and the output slots of `P` are those it
had with the name of `v1` replaced by the name of `v2`. -/
theorem C1_single_elimination (g : Graph) (p v1 s v2 : NodeId) (P V1 S V2 : Node)
    (dP dS : OpDesc) (d1 d2 : VarDesc)
    (hids : g.ids.Nodup)
    (hP : g.find p = some P) (hPd : P.desc = .op dP) (hPout : v1 ∈ P.outputs)
    (hV1 : g.find v1 = some V1) (hV1d : V1.desc = .var d1) (hpers : d1.persistable = false)
    (hV1in : p ∈ V1.inputs) (hV1nd : V1.inputs.Nodup) (hV1out : V1.outputs = [s])
    (hprod : ∀ q ∈ V1.inputs, ∃ Q dQ, g.find q = some Q ∧ Q.desc = .op dQ ∧
      holdsOutput dQ d1.name = true ∧ isControlFlowOrFeed dQ.type = false)
    (hS : g.find s = some S) (hSd : S.desc = .op dS) (hSty : dS.type = "scale")
    (hscale : f32_eq (dS.GetAttrIfExists_float "scale") f32_one = true)
    (hbias : f32_eq (dS.GetAttrIfExists_float "bias") f32_zero = true)
    (hSin : S.inputs = [v1]) (hSout : S.outputs = [v2])
    (hV2 : g.find v2 = some V2) (hV2d : V2.desc = .var d2) (h21 : v2 ≠ v1) :
    (∀ ms, detect g = .ok ms → (⟨v1, s, v2⟩ : Match) ∈ ms) ∧
    (∀ ms g' n, g.namesUnique = true → detect g = .ok ms →
      (∀ m ∈ ms, m = ⟨v1, s, v2⟩ ∨ ∀ i ∈ [p, v1, s, v2],
        i ≠ m.useless_op_in ∧ i ≠ m.useless_op ∧ i ≠ m.useless_op_out) →
      ApplyImpl g = .ok (g', n) →
      g'.find v1 = none ∧ g'.find s = none ∧
      ∃ P' dP' V2', g'.find p = some P' ∧ v2 ∈ P'.outputs ∧
        g'.find v2 = some V2' ∧ p ∈ V2'.inputs ∧
        P'.desc = .op dP' ∧ holdsOutput dP' d2.name = true ∧
        holdsOutput dP' d1.name = false) ∧
    ((∀ x ∈ g.nodes, x.id ≠ v1 → matchesAt g x = .ok []) →
      ∃ g', ApplyImpl g = .ok (g', 1) ∧ g'.find v1 = none ∧ g'.find s = none ∧
        ∃ P' V2', g'.find p = some P' ∧ v2 ∈ P'.outputs ∧
          g'.find v2 = some V2' ∧ p ∈ V2'.inputs ∧
          P'.desc = .op (renamedOutputs dP d1.name d2.name)) := by
  have hsv : s ≠ v1 := by
    rintro rfl
    rw [hS] at hV1; cases hV1; rw [hSd] at hV1d; cases hV1d
  have h2s : v2 ≠ s := by
    rintro rfl
    rw [hS] at hV2; cases hV2; rw [hSd] at hV2d; cases hV2d
  have hpv : p ≠ v1 := by
    rintro rfl
    rw [hP] at hV1; cases hV1; rw [hPd] at hV1d; cases hV1d
  have hps : p ≠ s := by
    rintro rfl
    rw [hP] at hS; cases hS
    rw [hSout] at hPout
    exact h21 (List.mem_singleton.1 hPout).symm
  have hV1id : V1.id = v1 := (find_some_mem hV1).2
  have hV2v : V2.IsVar = true := by simp [Node.IsVar, hV2d]
  have hV1t : useless_op_in_teller g V1 = .ok true := by
    simp only [in_teller_eq, hV1d, hpers, hV1out, useless_op_in_more]
    simp only [List.length_singleton, ne_eq, not_true_eq_false, if_false, Bool.false_eq_true]
    exact in_more_loop_true g V1.inputs (fun q hq => by
      obtain ⟨Q, dQ, a, b, _, c⟩ := hprod q hq
      exact ⟨Q, dQ, a, b, c⟩)
  have hSt := scale_teller_true S dS v1 v2 hSd hSty hscale hbias hSin hSout
  have hat := matchesAt_chain g v1 s v2 V1 S V2 hV1id hV1t hV1out hS hSt hSout hV2 hV2v hsv h21 h2s
  have hlisted : ∀ ms, detect g = .ok ms → (⟨v1, s, v2⟩ : Match) ∈ ms := fun ms hdet =>
    detectFrom_complete g g.nodes ms hdet V1 (find_some_mem hV1).1 _ hat _
      (List.mem_singleton_self _)
  refine ⟨hlisted, ?_, ?_⟩
  · intro ms g' n hnames hdet hother hrun
    simp only [ApplyImpl, hdet] at hrun
    obtain ⟨Q, dQ, hQ, hQd, hQh, _⟩ := hprod p hV1in
    have eQ : Q = P := Option.some.inj (hQ.symm.trans hP)
    subst eQ
    have hdone := applyMatches_chain g p v1 s v2 V1 V2 d1 d2 hnames hV1 hV1d hV2 hV2d hpv hps h21
      h2s ms g 0 g' n (fun i x hx _ => ⟨x, hx, rfl⟩) hother hrun
      (Or.inl ⟨⟨⟨Q, dQ, hQ, hQd, hQh⟩, ⟨V1, hV1, hV1d, hV1in⟩, ⟨V2, hV2, hV2d⟩⟩, hlisted ms hdet⟩)
    obtain ⟨a1, a2, Pk, dk, V2k, b1, b2, b3, b4, b5, b6, b7, _⟩ := hdone
    exact ⟨a1, a2, Pk, dk, V2k, b1, b2, b6, b7, b3, b4, b5⟩
  · intro honly
    exact single_elimination_only g p v1 s v2 P V1 S V2 dP dS d1 d2 hids hP hPd hPout hV1 hV1d hpers
      hV1in hV1nd hV1out hprod hS hSd hSty hscale hbias hSin hSout hV2 hV2d h21 honly

/-- The two chains `relu -> v1 -> scale -> v2` and `relu -> v3 -> scale -> v4`:
the run handles both matches, and the first chain is rewritten. -/
theorem C1_single_elimination_witness :
    (∀ ms, detect twoChains = .ok ms → (⟨1, 2, 3⟩ : Match) ∈ ms) ∧
    ApplyImpl twoChains = .ok (⟨[
      mkOp 0 "relu" [] [3] [] [("Out", ["v2"])] [] [],
      mkVar 3 "v2" false [0] [],
      mkOp 4 "relu" [] [7] [] [("Out", ["v4"])] [] [],
      mkVar 7 "v4" false [4] []]⟩, 2) ∧
    ∀ g' n, ApplyImpl twoChains = .ok (g', n) →
      g'.find 1 = none ∧ g'.find 2 = none ∧
      ∃ P' dP' V2', g'.find 0 = some P' ∧ 3 ∈ P'.outputs ∧
        g'.find 3 = some V2' ∧ 0 ∈ V2'.inputs ∧
        P'.desc = .op dP' ∧ holdsOutput dP' "v2" = true ∧ holdsOutput dP' "v1" = false :=
  have h := C1_single_elimination twoChains 0 1 2 3
    (mkOp 0 "relu" [] [1] [] [("Out", ["v1"])] [] [])
    (mkVar 1 "v1" false [0] [2]) (scaleOp 2 1 3 "v1" "v2") (mkVar 3 "v2" false [2] [])
    ⟨"relu", [], [("Out", ["v1"])], [], []⟩
    ⟨"scale", [("X", ["v1"])], [("Out", ["v2"])], [("scale", f32_one), ("bias", f32_zero)], []⟩
    ⟨"v1", false⟩ ⟨"v2", false⟩
    (by decide) (by decide) rfl (by decide) (by decide) rfl rfl (by decide) (by decide) rfl
    (fun q hq => by
      have hq0 : q = 0 := by simpa [mkVar] using hq
      subst hq0
      exact ⟨mkOp 0 "relu" [] [1] [] [("Out", ["v1"])] [] [],
        ⟨"relu", [], [("Out", ["v1"])], [], []⟩, by decide, rfl, by decide, by decide⟩)
    (by decide) rfl rfl (by decide) (by decide) rfl rfl (by decide) rfl (by decide)
  ⟨h.1, by decide, fun g' n hrun =>
    h.2.1 [⟨1, 2, 3⟩, ⟨5, 6, 7⟩] g' n (by decide) (by decide) (by decide) hrun⟩

end IdentityOpClean
